import Mathlib

/-!
# B-tree insertion and search (`src/BTree.h`)

A shallow embedding of the classes `BTreeNode` and `BTree` and a verification
of their insertion and lookup algorithms.

## Representation

The C++ node owns two raw arrays, `keys` (capacity `2t-1`) and `children`
(capacity `2t`), and a counter `n`.  Only the slots `keys[0..n-1]` and, for an
internal node, `children[0..n]` carry data; every other slot is unset or
stale.  A node is embedded as the lists of these populated slots:

* `keys` is the list `keys[0], ..., keys[n-1]`, so `n` is its length;
* `children` is the list of the nodes pointed to by `children[0], ...,
  children[n]` (empty for a leaf, whose child slots are never set).

Pointers are embedded as the nodes they point to, so a mutation of a child
through its pointer becomes a replacement of that child in the list of its
parent.  Operations that mutate a node return the new node.  A slot outside
the populated part has no defined value in C++.  Where the source follows such
a child pointer, or brings such a key into the populated part, the mutating
operations return `none` and `search` returns `SearchResult.undefined`.
Writes are recorded through their effect on the populated slots.  The arrays
have a fixed number of slots, `2t-1` for `keys` and `2t` for `children`, fixed
by the degree stored in the node; a store to a slot that does not exist has no
defined effect in C++ either, and the operation that makes it returns `none`.

Keys are C++ `int`s that are only compared and copied, never computed with;
they are embedded as `Int`.  The degree `t`, the counter `n` and the slot
indices are embedded as `Nat`: the `int` values that the operations compute
from them (`2 * t - 1`, `2 * t`, `n + 1`, the loop counters) are at most
`2 * t`, so none of them wraps as long as `2 * t` fits an `int`, which the
allocation of the child array needs in any case.
-/

namespace DBEngine

/-- A B-tree node: the populated key slots, the minimum degree, the leaf flag
and the populated child slots. -/
inductive BTreeNode where
  | mk (keys : List Int) (t : Nat) (is_leaf : Bool) (children : List BTreeNode)

/-- The result of `search`: a pointer to the node holding the key, the null
pointer, or no defined value (the walk followed a child slot that is not
populated). -/
inductive SearchResult where
  | found (node : BTreeNode)
  | absent
  | undefined

/-- An access of `split_child` to a slot of the arrays `keys` and `children`
of the node it runs on. -/
inductive Access where
  | read_key (j : Nat)
  | write_key (j : Nat)
  | read_child (j : Nat)
  | write_child (j : Nat)
  deriving DecidableEq

/-- The slot of the access exists in the arrays allocated by
`BTreeNode(t, _)`: `new int[2 * t - 1]` and `new BTreeNode*[2 * t]`. -/
def Access.in_array (t : Nat) : Access → Bool
  | Access.read_key j => decide (j < 2 * t - 1)
  | Access.write_key j => decide (j < 2 * t - 1)
  | Access.read_child j => decide (j < 2 * t)
  | Access.write_child j => decide (j < 2 * t)

/-- The access stays inside the arrays allocated by `BTreeNode(t, _)`, of
`2t-1` keys and `2t` children, and a read is a read of a populated slot of a
node with `n` keys: a key slot below `n`, a child slot up to `n`. -/
def Access.ok (t n : Nat) : Access → Prop
  | Access.read_key j => j < 2 * t - 1 ∧ j < n
  | Access.write_key j => j < 2 * t - 1
  | Access.read_child j => j < 2 * t ∧ j ≤ n
  | Access.write_child j => j < 2 * t

namespace BTreeNode

mutual
/-- Decision procedure for the equality of two nodes. -/
def decEqNode : (a b : BTreeNode) → Decidable (a = b)
  | mk k1 t1 l1 c1, mk k2 t2 l2 c2 =>
    if hk : k1 = k2 then
      if ht : t1 = t2 then
        if hl : l1 = l2 then
          match decEqNodes c1 c2 with
          | isTrue hc => isTrue (by rw [hk, ht, hl, hc])
          | isFalse hc => isFalse (fun h => hc (by injection h))
        else isFalse (fun h => hl (by injection h))
      else isFalse (fun h => ht (by injection h))
    else isFalse (fun h => hk (by injection h))
/-- Decision procedure for the equality of two lists of nodes. -/
def decEqNodes : (as bs : List BTreeNode) → Decidable (as = bs)
  | [], [] => isTrue rfl
  | [], _ :: _ => isFalse (fun h => by cases h)
  | _ :: _, [] => isFalse (fun h => by cases h)
  | a :: as, b :: bs =>
    match decEqNode a b with
    | isTrue h1 =>
      match decEqNodes as bs with
      | isTrue h2 => isTrue (by rw [h1, h2])
      | isFalse h2 => isFalse (fun h => h2 (by injection h))
    | isFalse h1 => isFalse (fun h => h1 (by injection h))
end

instance : DecidableEq BTreeNode := decEqNode

deriving instance DecidableEq for SearchResult

/-- The populated key slots `keys[0..n-1]`. -/
def keys : BTreeNode → List Int
  | mk ks _ _ _ => ks

/-- The minimum degree stored in the node. -/
def t : BTreeNode → Nat
  | mk _ t _ _ => t

/-- The leaf flag of the node. -/
def is_leaf : BTreeNode → Bool
  | mk _ _ l _ => l

/-- The populated child slots `children[0..n]`. -/
def children : BTreeNode → List BTreeNode
  | mk _ _ _ cs => cs

/-- The field `n`: the number of populated key slots. -/
def n (x : BTreeNode) : Nat := x.keys.length

/-- The constructor `BTreeNode(_t, _is_leaf)`: no key, no child set.  (For
`t = 0` the array size `2t-1` of the source is negative; the statements of
this file are about `t ≥ 1`.) -/
def create (t : Nat) (is_leaf : Bool) : BTreeNode := mk [] t is_leaf []

/-- The method `is_full`: `n == 2 * t - 1`, written without subtraction. -/
def is_full (x : BTreeNode) : Bool := decide (x.n + 1 = 2 * x.t)

/-- The slots `lo, ..., lo + len - 1` of an array whose populated part is `l`;
`none` when one of them is not populated. -/
def readSlots {α : Type} (l : List α) (lo len : Nat) : Option (List α) :=
  if lo + len ≤ l.length then some ((l.drop lo).take len) else none

/-- The effect of a shift loop followed by a store: the slots `i, ..., n-1`
each move one slot to the right and slot `i` receives `a`. -/
def insertAt {α : Type} (l : List α) (i : Nat) (a : α) : List α :=
  l.take i ++ a :: l.drop i

/-- The values of `j` in a loop `for (int j = hi; j >= lo; j--)`, in order. -/
def countDown (lo : Nat) : Nat → List Nat
  | 0 => if lo = 0 then [0] else []
  | hi + 1 => if lo ≤ hi + 1 then (hi + 1) :: countDown lo hi else []

/-- The accesses of `split_child(i)` to the arrays of the node it runs on,
which holds `n` keys, in the order of the source: `y = children[i]`, the loop
`children[j + 1] = children[j]` for `j = n` down to `i + 1`, the store
`children[i + 1] = z`, the loop `keys[j + 1] = keys[j]` for `j = n` down to
`i`, the store `keys[i] = y->keys[t - 1]`. -/
def split_child_accesses (n i : Nat) : List Access :=
  [Access.read_child i] ++
  (countDown (i + 1) n).flatMap (fun j => [Access.read_child j, Access.write_child (j + 1)]) ++
  [Access.write_child (i + 1)] ++
  (countDown i n).flatMap (fun j => [Access.read_key j, Access.write_key (j + 1)]) ++
  [Access.write_key i]

/-- The method `split_child(i)`, on the node `x`.

`y = children[i]` keeps its lowest `t-1` keys and lowest `t` children, the new
node `z` receives `y->keys[t..2t-2]` and, when `y` is internal,
`y->children[t..2t-1]`; `z` is stored in slot `i+1` of `x` and `y->keys[t-1]`
in key slot `i` of `x`, the slots to the right having been shifted.

The two shift loops start at `j = n`.  The first round of the key shift loop
copies key slot `n`, which holds no key, to key slot `n+1`.  While `n ≤ 2t-3`
both slots exist and are outside the populated part, slot `n+1` also after the
call, so the round leaves no trace in the populated slots.  For `n = 2t-2`,
the largest `n` of a node that is not full, slot `n+1 = 2t-1` is outside the
array of `2t-1` keys: the value is `none`, as for every call one of whose
accesses (`split_child_accesses`) is to a slot that does not exist.
For `i > n` the stores would leave an unset slot inside the populated part:
the value is `none`. -/
def split_child (x : BTreeNode) (i : Nat) : Option BTreeNode := do
  let y ← x.children[i]?
  let median ← y.keys[x.t - 1]?
  let zkeys ← readSlots y.keys x.t (x.t - 1)
  let zchildren ← if y.is_leaf then some [] else readSlots y.children x.t x.t
  if i ≤ x.n ∧ (split_child_accesses x.n i).all (Access.in_array x.t) = true then
    let z := mk zkeys x.t y.is_leaf zchildren
    let y1 := mk (y.keys.take (x.t - 1)) y.t y.is_leaf (y.children.take x.t)
    some (mk (insertAt x.keys i median) x.t x.is_leaf
      (x.children.take i ++ y1 :: z :: x.children.drop (i + 1)))
  else none

/-- The loop `while (i >= 0 && k < keys[i]) i--`, started at `i = j - 1`;
the value is the final `i + 1`. -/
def scanDown (keys : List Int) (k : Int) : Nat → Nat
  | 0 => 0
  | j + 1 =>
    match keys[j]? with
    | some a => if k < a then scanDown keys k j else j + 1
    | none => j + 1

/-- The method `insert_non_full(k)`, on the node `x`, with a bound on the
number of nested calls (each call descends one level).

In a leaf the shift loop and the store of `k` write the key slots `i+1, ...,
n`; slot `n` exists when `n < 2t-1`, and the value is `none` otherwise. -/
def insert_non_full_fuel : Nat → BTreeNode → Int → Option BTreeNode
  | 0, _, _ => none
  | fuel + 1, x, k =>
    let i := scanDown x.keys k x.n
    if x.is_leaf then
      if x.n < 2 * x.t - 1 then some (mk (insertAt x.keys i k) x.t x.is_leaf x.children)
      else none
    else do
      let c ← x.children[i]?
      if c.is_full then
        let x1 ← split_child x i
        let m ← x1.keys[i]?
        let i1 := if k > m then i + 1 else i
        let c1 ← x1.children[i1]?
        let c2 ← insert_non_full_fuel fuel c1 k
        some (mk x1.keys x1.t x1.is_leaf (x1.children.set i1 c2))
      else
        let c2 ← insert_non_full_fuel fuel c k
        some (mk x.keys x.t x.is_leaf (x.children.set i c2))

mutual
/-- The number of node levels below and including `x`. -/
def height : BTreeNode → Nat
  | mk _ _ _ cs => heightList cs + 1
/-- The largest height among a list of nodes. -/
def heightList : List BTreeNode → Nat
  | [] => 0
  | c :: cs => max (height c) (heightList cs)
end

/-- The method `insert_non_full(k)`: the nesting of the calls is bounded by
the number of levels of `x`. -/
def insert_non_full (x : BTreeNode) (k : Int) : Option BTreeNode :=
  insert_non_full_fuel (height x) x k

/-- The loop `while (i < n && k > keys[i]) i++` of `search`, started at
`i = 0`; the value is the final `i`. -/
def searchScan (k : Int) : List Int → Nat
  | [] => 0
  | a :: rest => if k > a then searchScan k rest + 1 else 0

mutual
/-- The method `search(k)`, on the node `x`. -/
def search : BTreeNode → Int → SearchResult
  | mk ks t lf cs, k =>
    let i := searchScan k ks
    if ks[i]? = some k then SearchResult.found (mk ks t lf cs)
    else if lf then SearchResult.absent
    else searchChild cs i k
/-- The call `children[i]->search(k)`. -/
def searchChild : List BTreeNode → Nat → Int → SearchResult
  | [], _, _ => SearchResult.undefined
  | c :: _, 0, k => search c k
  | _ :: cs, i + 1, k => searchChild cs i k
end

mutual
/-- The keys of the subtree of `x` in in-order: child 0, key 0, child 1,
key 1, ..., last child. -/
def inorder : BTreeNode → List Int
  | mk ks _ lf cs => if lf then ks else inorderChildren cs ks
/-- In-order traversal of the children `cs` separated by the keys `ks`. -/
def inorderChildren : List BTreeNode → List Int → List Int
  | [], ks => ks
  | c :: cs, [] => inorder c ++ inorderChildren cs []
  | c :: cs, k :: ks => inorder c ++ k :: inorderChildren cs ks
end

mutual
/-- All nodes of the subtree of `x`, `x` first. -/
def nodes : BTreeNode → List BTreeNode
  | mk ks t lf cs => mk ks t lf cs :: nodesList cs
/-- All nodes of the subtrees of a list of nodes. -/
def nodesList : List BTreeNode → List BTreeNode
  | [] => []
  | c :: cs => nodes c ++ nodesList cs
end

mutual
/-- The depths of the leaves of the subtree of `x`, `x` being at depth `d`. -/
def leafDepths : BTreeNode → Nat → List Nat
  | mk _ _ lf cs, d => if lf then [d] else leafDepthsList cs (d + 1)
/-- The depths of the leaves below a list of nodes that are at depth `d`. -/
def leafDepthsList : List BTreeNode → Nat → List Nat
  | [], _ => []
  | c :: cs, d => leafDepths c d ++ leafDepthsList cs d
end

/-- The total number of keys held by the nodes of the subtree of `x`. -/
def keyCount (x : BTreeNode) : Nat := ((nodes x).map n).sum

end BTreeNode

/-- The class `BTree`: the root node and the minimum degree. -/
structure BTree where
  root : BTreeNode
  t : Nat
  deriving DecidableEq

namespace BTree

/-- The constructor `BTree(_t)`: an empty leaf as root. -/
def new (t : Nat) : BTree := ⟨BTreeNode.create t true, t⟩

/-- The method `BTree::insert(k)`. -/
def insert (T : BTree) (k : Int) : Option BTree := do
  let root ←
    if T.root.is_full then
      BTreeNode.split_child (BTreeNode.mk [] T.t false [T.root]) 0
    else some T.root
  let root1 ← root.insert_non_full k
  some ⟨root1, T.t⟩

/-- The method `BTree::search(k)`. -/
def search (T : BTree) (k : Int) : SearchResult := T.root.search k

/-- Successive calls of `insert`, one per element of the list, in order. -/
def insertAll (T : BTree) : List Int → Option BTree
  | [] => some T
  | k :: ks => (T.insert k).bind fun T1 => insertAll T1 ks

/-- The tree built from an empty tree of degree `t` by inserting `L` in
order. -/
def build (t : Nat) (L : List Int) : Option BTree := (new t).insertAll L

end BTree

/-! ## The same operations with the identity of the nodes

The embedding above stores a child inside the slot of its parent, so it cannot
say whether two slots hold pointers to one and the same object.  The
following copy of the operations tags every node with the address of its C++
object.  Addresses are allocation numbers: each `new BTreeNode` takes the next
free number, which is passed along as `next`.  Copying a child pointer copies
the tagged child, so a pointer that the source left in two populated slots
would show as an address occurring twice. -/

/-- A node tagged with the address of its object. -/
inductive AddrNode where
  | mk (addr : Nat) (keys : List Int) (t : Nat) (is_leaf : Bool) (children : List AddrNode)

namespace AddrNode

/-- The address of the node. -/
def addr : AddrNode → Nat
  | mk a _ _ _ _ => a

/-- The populated key slots `keys[0..n-1]`. -/
def keys : AddrNode → List Int
  | mk _ ks _ _ _ => ks

/-- The minimum degree stored in the node. -/
def t : AddrNode → Nat
  | mk _ _ t _ _ => t

/-- The leaf flag of the node. -/
def is_leaf : AddrNode → Bool
  | mk _ _ _ l _ => l

/-- The populated child slots `children[0..n]`. -/
def children : AddrNode → List AddrNode
  | mk _ _ _ _ cs => cs

/-- The field `n`: the number of populated key slots. -/
def n (x : AddrNode) : Nat := x.keys.length

/-- The method `is_full`. -/
def is_full (x : AddrNode) : Bool := decide (x.n + 1 = 2 * x.t)

mutual
/-- The node without the addresses. -/
def erase : AddrNode → BTreeNode
  | mk _ ks t lf cs => BTreeNode.mk ks t lf (eraseList cs)
/-- A list of nodes without the addresses. -/
def eraseList : List AddrNode → List BTreeNode
  | [] => []
  | c :: cs => erase c :: eraseList cs
end

mutual
/-- The addresses of all nodes of the subtree of `x`, one entry for each
populated slot through which a node is reached. -/
def addrs : AddrNode → List Nat
  | mk a _ _ _ cs => a :: addrsList cs
/-- The addresses of all nodes of the subtrees of a list of nodes. -/
def addrsList : List AddrNode → List Nat
  | [] => []
  | c :: cs => addrs c ++ addrsList cs
end

/-- The method `split_child(i)`, on the node `x`; the new node `z` is
allocated at the address `next`.  As in `BTreeNode.split_child`, the value is
`none` when one of the accesses is to a slot that does not exist. -/
def split_child (next : Nat) (x : AddrNode) (i : Nat) : Option AddrNode := do
  let y ← x.children[i]?
  let median ← y.keys[x.t - 1]?
  let zkeys ← BTreeNode.readSlots y.keys x.t (x.t - 1)
  let zchildren ← if y.is_leaf then some [] else BTreeNode.readSlots y.children x.t x.t
  if i ≤ x.n ∧ (BTreeNode.split_child_accesses x.n i).all (Access.in_array x.t) = true then
    let z := mk next zkeys x.t y.is_leaf zchildren
    let y1 := mk y.addr (y.keys.take (x.t - 1)) y.t y.is_leaf (y.children.take x.t)
    some (mk x.addr (BTreeNode.insertAt x.keys i median) x.t x.is_leaf
      (x.children.take i ++ y1 :: z :: x.children.drop (i + 1)))
  else none

/-- The method `insert_non_full(k)`, on the node `x`, with a bound on the
number of nested calls; the value is the new node and the next free
address. -/
def insert_non_full_fuel : Nat → Nat → AddrNode → Int → Option (AddrNode × Nat)
  | 0, _, _, _ => none
  | fuel + 1, next, x, k =>
    let i := BTreeNode.scanDown x.keys k x.n
    if x.is_leaf then
      if x.n < 2 * x.t - 1 then
        some (mk x.addr (BTreeNode.insertAt x.keys i k) x.t x.is_leaf x.children, next)
      else none
    else do
      let c ← x.children[i]?
      if c.is_full then
        let x1 ← split_child next x i
        let m ← x1.keys[i]?
        let i1 := if k > m then i + 1 else i
        let c1 ← x1.children[i1]?
        let r ← insert_non_full_fuel fuel (next + 1) c1 k
        some (mk x1.addr x1.keys x1.t x1.is_leaf (x1.children.set i1 r.1), r.2)
      else
        let r ← insert_non_full_fuel fuel next c k
        some (mk x.addr x.keys x.t x.is_leaf (x.children.set i r.1), r.2)

/-- The method `insert_non_full(k)`, the nesting bounded by the number of
levels of `x`. -/
def insert_non_full (next : Nat) (x : AddrNode) (k : Int) : Option (AddrNode × Nat) :=
  insert_non_full_fuel (BTreeNode.height x.erase) next x k

end AddrNode

/-- The class `BTree` with tagged nodes and the next free address. -/
structure AddrTree where
  root : AddrNode
  t : Nat
  next : Nat

namespace AddrTree

/-- The tree without the addresses. -/
def erase (T : AddrTree) : BTree := ⟨T.root.erase, T.t⟩

/-- The constructor `BTree(_t)`: the empty leaf root is the first object. -/
def new (t : Nat) : AddrTree := ⟨AddrNode.mk 0 [] t true [], t, 1⟩

/-- The method `BTree::insert(k)`. -/
def insert (T : AddrTree) (k : Int) : Option AddrTree := do
  let (root, next) ←
    if T.root.is_full then
      (AddrNode.split_child (T.next + 1) (AddrNode.mk T.next [] T.t false [T.root]) 0).map
        fun r => (r, T.next + 2)
    else some (T.root, T.next)
  let r ← root.insert_non_full next k
  some ⟨r.1, T.t, r.2⟩

/-- Successive calls of `insert`, one per element of the list, in order. -/
def insertAll (T : AddrTree) : List Int → Option AddrTree
  | [] => some T
  | k :: ks => (T.insert k).bind fun T1 => insertAll T1 ks

/-- The tree built from an empty tree of degree `t` by inserting `L` in
order. -/
def build (t : Nat) (L : List Int) : Option AddrTree := (new t).insertAll L

end AddrTree

/-! ## The calls made by an insertion

The same recursion as `insert_non_full_fuel`, with the list of the calls it
makes next to its value: the entry of `insert_non_full`, every `split_child`
and every `children[i]->insert_non_full(k)`, each with the state of the node
on which the call is made.  When a call has no defined effect, a `split_child`
that stores outside an array for one, the list ends with that call and the
value is `none`. -/

/-- A call made while `insert` runs. -/
inductive Call where
  /-- The method `insert_non_full` is entered on the node `x`. -/
  | insert_non_full (x : BTreeNode)
  /-- The node `x` calls `split_child(i)`. -/
  | split_child (x : BTreeNode) (i : Nat)
  /-- The node `x` calls `children[i]->insert_non_full(k)`. -/
  | recurse (x : BTreeNode) (i : Nat)
  deriving DecidableEq

/-- The precondition of a call: `insert_non_full` is entered on a node that is
not full; `split_child(i)` is called on a node that is not full and whose
`children[i]` exists and is full; the child of a recursive call exists. -/
def Call.pre : Call → Prop
  | Call.insert_non_full x => x.is_full = false
  | Call.split_child x i => x.is_full = false ∧ ∃ y, x.children[i]? = some y ∧ y.is_full = true
  | Call.recurse x i => ∃ c, x.children[i]? = some c

/-- The call is a call of `split_child` one of whose accesses is to a slot
outside the arrays of the node it runs on. -/
def Call.out_of_bounds : Call → Prop
  | Call.split_child x i =>
    ∃ a ∈ BTreeNode.split_child_accesses x.n i, Access.in_array x.t a = false
  | _ => False

namespace BTreeNode

/-- The method `insert_non_full(k)` on the node `x` with the calls it makes:
the value is the list of calls, in order, and the value of
`insert_non_full_fuel`. -/
def insert_non_full_log : Nat → BTreeNode → Int → List Call × Option BTreeNode
  | 0, _, _ => ([], none)
  | fuel + 1, x, k =>
    let i := scanDown x.keys k x.n
    if x.is_leaf then
      ([Call.insert_non_full x],
        if x.n < 2 * x.t - 1 then some (mk (insertAt x.keys i k) x.t x.is_leaf x.children)
        else none)
    else
      match x.children[i]? with
      | none => ([Call.insert_non_full x], none)
      | some c =>
        if c.is_full then
          match split_child x i with
          | none => ([Call.insert_non_full x, Call.split_child x i], none)
          | some x1 =>
            match x1.keys[i]? with
            | none => ([Call.insert_non_full x, Call.split_child x i], none)
            | some m =>
              let i1 := if k > m then i + 1 else i
              match x1.children[i1]? with
              | none =>
                ([Call.insert_non_full x, Call.split_child x i, Call.recurse x1 i1], none)
              | some c1 =>
                let r := insert_non_full_log fuel c1 k
                (Call.insert_non_full x :: Call.split_child x i :: Call.recurse x1 i1 :: r.1,
                  r.2.map fun c2 => mk x1.keys x1.t x1.is_leaf (x1.children.set i1 c2))
        else
          let r := insert_non_full_log fuel c k
          (Call.insert_non_full x :: Call.recurse x i :: r.1,
            r.2.map fun c2 => mk x.keys x.t x.is_leaf (x.children.set i c2))

end BTreeNode

namespace BTree

/-- The method `BTree::insert(k)` with the calls it makes. -/
def insert_log (T : BTree) (k : Int) : List Call × Option BTree :=
  if T.root.is_full then
    match BTreeNode.split_child (BTreeNode.mk [] T.t false [T.root]) 0 with
    | none => ([Call.split_child (BTreeNode.mk [] T.t false [T.root]) 0], none)
    | some root =>
      let r := BTreeNode.insert_non_full_log (BTreeNode.height root) root k
      (Call.split_child (BTreeNode.mk [] T.t false [T.root]) 0 :: r.1,
        r.2.map fun root1 => ⟨root1, T.t⟩)
  else
    let r := BTreeNode.insert_non_full_log (BTreeNode.height T.root) T.root k
    (r.1, r.2.map fun root1 => ⟨root1, T.t⟩)

/-- The call `insert(k)` on the tree `T` makes a call of `split_child` that
accesses a slot outside the arrays. -/
def insert_out_of_bounds (T : BTree) (k : Int) : Prop :=
  ∃ c ∈ (T.insert_log k).1, c.out_of_bounds

/-- The insertions of `L` into the tree `T`, in order, reach a call of
`insert` that makes such a call of `split_child`: a part `P` of the list is
inserted and gives the tree `T1`, and the insertion of the next key `k` into
`T1` accesses a slot outside the arrays. -/
def out_of_bounds (T : BTree) (L : List Int) : Prop :=
  ∃ P k R T1, L = P ++ k :: R ∧ T.insertAll P = some T1 ∧ T1.insert_out_of_bounds k

end BTree

/-! ## Predicates and auxiliary functions used by the proofs -/

namespace BTreeNode

/-- In-order traversal of the children `A`, each followed by its key of `K`. -/
def inPre : List BTreeNode → List Int → List Int
  | c :: cs, k :: ks => inorder c ++ k :: inPre cs ks
  | _, _ => []

/-- In-order traversal of the children `B`, each preceded by its key of `K`. -/
def inPost : List Int → List BTreeNode → List Int
  | k :: ks, c :: cs => k :: (inorder c ++ inPost ks cs)
  | _, _ => []

/-- The list `new` is the sorted list `old` with `k` put in at a place where
everything before is `≤ k` and everything after is `≥ k`. -/
def Ins (k : Int) (old new : List Int) : Prop :=
  ∃ l r, old = l ++ r ∧ new = l ++ k :: r ∧ (∀ a ∈ l, a ≤ k) ∧ (∀ b ∈ r, k ≤ b)

/-- The shape of a subtree with `h` levels in a tree of degree `t`: every node
stores the degree `t` and at most `2t-1` keys, the top node has at least `lo`
keys and every other node at least `t-1`, the nodes of the last level are
leaves without children, and every node above is internal with at least one
key and one child more than keys. -/
def Shaped (t : Nat) : Nat → Nat → BTreeNode → Prop
  | _, 0, _ => False
  | lo, 1, x => x.t = t ∧ lo ≤ x.n ∧ x.n + 1 ≤ 2 * t ∧ x.is_leaf = true ∧ x.children = []
  | lo, h + 2, x =>
    x.t = t ∧ lo ≤ x.n ∧ x.n + 1 ≤ 2 * t ∧ x.is_leaf = false ∧ 1 ≤ x.n ∧
      x.children.length = x.n + 1 ∧ ∀ c ∈ x.children, Shaped t (t - 1) (h + 1) c

end BTreeNode

namespace AddrNode

/-- The addresses `new` come from the addresses `old`, all below `m`, by
dropping some and by adding addresses from `m` up to `m2`, each of them at
most once. -/
def Grows (m m2 : Nat) (old new : List Nat) : Prop :=
  m ≤ m2 ∧ (∀ b, b < m → new.count b ≤ old.count b) ∧ (∀ b, m ≤ b → new.count b ≤ 1) ∧
    ∀ b ∈ new, b < m2

end AddrNode

namespace BTree

/-- The invariant of a tree of degree `t` with `h` levels: the stored degree
is `t`, the root subtree has the shape of a B-tree whose root may hold any
number of keys up to `2t-1`, and the in-order traversal is non-decreasing. -/
def Inv (t h : Nat) (T : BTree) : Prop :=
  T.t = t ∧ BTreeNode.Shaped t 0 h T.root ∧ (BTreeNode.inorder T.root).Pairwise (· ≤ ·)

end BTree

namespace BTreeNode

/-! ## Field accessors -/

@[simp]
theorem keys_mk (ks : List Int) (t : Nat) (lf : Bool) (cs : List BTreeNode) :
    (mk ks t lf cs).keys = ks := rfl

@[simp]
theorem t_mk (ks : List Int) (t : Nat) (lf : Bool) (cs : List BTreeNode) :
    (mk ks t lf cs).t = t := rfl

@[simp]
theorem is_leaf_mk (ks : List Int) (t : Nat) (lf : Bool) (cs : List BTreeNode) :
    (mk ks t lf cs).is_leaf = lf := rfl

@[simp]
theorem children_mk (ks : List Int) (t : Nat) (lf : Bool) (cs : List BTreeNode) :
    (mk ks t lf cs).children = cs := rfl

@[simp]
theorem n_mk (ks : List Int) (t : Nat) (lf : Bool) (cs : List BTreeNode) :
    (mk ks t lf cs).n = ks.length := rfl

theorem eta (x : BTreeNode) : mk x.keys x.t x.is_leaf x.children = x := by
  cases x; rfl

/-! ## Auxiliary list facts -/

theorem split_at_index {α : Type} {l : List α} {i : Nat} {a : α} (h : l[i]? = some a) :
    l = l.take i ++ a :: l.drop (i + 1) ∧ (l.take i).length = i := by
  obtain ⟨hi, ha⟩ := List.getElem?_eq_some.mp h
  refine ⟨?_, by simp; omega⟩
  rw [← ha, List.getElem_cons_drop, List.take_append_drop]

theorem set_at_index {α : Type} {l : List α} {i : Nat} {a b : α} (h : l[i]? = some a) :
    l.set i b = l.take i ++ b :: l.drop (i + 1) := by
  obtain ⟨hi, _⟩ := List.getElem?_eq_some.mp h
  rw [List.set_eq_take_append_cons_drop, if_pos hi]

/-! ## In-order traversal of a list of children -/

theorem inorder_mk (ks : List Int) (t : Nat) (lf : Bool) (cs : List BTreeNode) :
    inorder (mk ks t lf cs) = if lf then ks else inorderChildren cs ks := by
  simp [inorder]

theorem inorderChildren_cons (c : BTreeNode) :
    ∀ (B : List BTreeNode) (K : List Int), K.length = B.length →
      inorderChildren (c :: B) K = inorder c ++ inPost K B := by
  intro B
  induction B generalizing c with
  | nil =>
    intro K hK
    have : K = [] := List.length_eq_zero.mp hK
    subst this
    simp [inorderChildren, inPost]
  | cons b B ih =>
    intro K hK
    cases K with
    | nil => simp at hK
    | cons k K =>
      simp only [List.length_cons, Nat.add_right_cancel_iff] at hK
      simp [inorderChildren, inPost, ih b K hK]

theorem inorderChildren_decomp :
    ∀ (A : List BTreeNode) (K1 : List Int) (c : BTreeNode) (B : List BTreeNode) (K2 : List Int),
      A.length = K1.length → K2.length = B.length →
      inorderChildren (A ++ c :: B) (K1 ++ K2) = inPre A K1 ++ (inorder c ++ inPost K2 B) := by
  intro A
  induction A with
  | nil =>
    intro K1 c B K2 h1 h2
    have : K1 = [] := List.length_eq_zero.mp h1.symm
    subst this
    simp [inPre, inorderChildren_cons c B K2 h2]
  | cons a A ih =>
    intro K1 c B K2 h1 h2
    cases K1 with
    | nil => simp at h1
    | cons k K1 =>
      simp only [List.length_cons, Nat.add_right_cancel_iff] at h1
      simp [inorderChildren, inPre, ih K1 c B K2 h1 h2]

theorem inPre_getLast :
    ∀ (A : List BTreeNode) (K : List Int) (key : Int), A.length = K.length →
      K.getLast? = some key → ∃ P, inPre A K = P ++ [key] := by
  intro A
  induction A with
  | nil =>
    intro K key h hk
    have : K = [] := List.length_eq_zero.mp h.symm
    subst this
    simp at hk
  | cons a A ih =>
    intro K key h hk
    cases K with
    | nil => simp at h
    | cons k0 K =>
      simp only [List.length_cons, Nat.add_right_cancel_iff] at h
      cases K with
      | nil =>
        have : A = [] := List.length_eq_zero.mp h
        subst this
        simp at hk
        subst hk
        exact ⟨inorder a, by simp [inPre]⟩
      | cons k1 K =>
        have hk1 : (k1 :: K).getLast? = some key := by
          simpa [List.getLast?_cons_cons] using hk
        obtain ⟨P, hP⟩ := ih (k1 :: K) key h hk1
        exact ⟨inorder a ++ k0 :: P, by simp [inPre, hP]⟩

theorem inPost_head :
    ∀ (K : List Int) (B : List BTreeNode) (key : Int), K.length = B.length →
      K.head? = some key → ∃ Q, inPost K B = key :: Q := by
  intro K B key h hk
  cases K with
  | nil => simp at hk
  | cons k0 K =>
    cases B with
    | nil => simp at h
    | cons b B =>
      simp at hk
      subst hk
      exact ⟨_, rfl⟩

theorem inPre_le {A : List BTreeNode} {K : List Int} {rest : List Int} {k : Int}
    (h : A.length = K.length) (hs : (inPre A K ++ rest).Pairwise (· ≤ ·))
    (hk : ∀ key, K.getLast? = some key → key ≤ k) : ∀ a ∈ inPre A K, a ≤ k := by
  intro a ha
  cases hK : K.getLast? with
  | none =>
    have : K = [] := by simpa using hK
    subst this
    have : A = [] := List.length_eq_zero.mp h
    subst this
    simp [inPre] at ha
  | some key =>
    obtain ⟨P, hP⟩ := inPre_getLast A K key h hK
    have hkey := hk key hK
    rw [hP] at ha hs
    have hs1 := (List.pairwise_append.mp (List.pairwise_append.mp hs).1)
    rcases List.mem_append.mp ha with ha | ha
    · exact le_trans (hs1.2.2 a ha key (by simp)) hkey
    · simp at ha
      subst ha
      exact hkey

theorem inPost_ge {K : List Int} {B : List BTreeNode} {k : Int}
    (h : K.length = B.length) (hs : (inPost K B).Pairwise (· ≤ ·))
    (hk : ∀ key, K.head? = some key → k ≤ key) : ∀ b ∈ inPost K B, k ≤ b := by
  intro b hb
  cases hK : K.head? with
  | none =>
    have : K = [] := by simpa using hK
    subst this
    simp [inPost] at hb
  | some key =>
    obtain ⟨Q, hQ⟩ := inPost_head K B key h hK
    have hkey := hk key hK
    rw [hQ] at hb hs
    rcases List.mem_cons.mp hb with hb | hb
    · subst hb; exact hkey
    · exact le_trans hkey ((List.pairwise_cons.mp hs).1 b hb)

/-! ## The scan loop of `insert_non_full` and the shape predicate -/

theorem scanDown_spec (ks : List Int) (k : Int) : ∀ j, j ≤ ks.length →
    scanDown ks k j ≤ j ∧
    (0 < scanDown ks k j → ∀ key, ks[scanDown ks k j - 1]? = some key → key ≤ k) ∧
    (scanDown ks k j < j → ∀ key, ks[scanDown ks k j]? = some key → k < key) := by
  intro j
  induction j with
  | zero => intro _; simp [scanDown]
  | succ j ih =>
    intro hj
    have hlt : j < ks.length := by omega
    obtain ⟨ih1, ih2, ih3⟩ := ih (by omega)
    simp only [scanDown, List.getElem?_eq_getElem hlt]
    by_cases hk : k < ks[j]
    · simp only [hk, if_true]
      refine ⟨by omega, ih2, ?_⟩
      intro hpos key hkey
      by_cases hp : scanDown ks k j < j
      · exact ih3 hp key hkey
      · have : scanDown ks k j = j := by omega
        rw [this, List.getElem?_eq_getElem hlt] at hkey
        cases hkey
        exact hk
    · simp only [hk, if_false]
      refine ⟨le_refl _, ?_, by omega⟩
      intro _ key hkey
      simp only [Nat.add_sub_cancel, List.getElem?_eq_getElem hlt] at hkey
      cases hkey
      exact not_lt.mp hk

theorem getLast_take {l : List Int} {i : Nat} {key : Int} (hi : i ≤ l.length)
    (h : (l.take i).getLast? = some key) : 0 < i ∧ l[i - 1]? = some key := by
  cases i with
  | zero => simp at h
  | succ i =>
    have hlt : i < l.length := by omega
    have e : l.take (i + 1) = l.take i ++ [l[i]] := by
      rw [List.take_succ, List.getElem?_eq_getElem hlt]; rfl
    rw [e, List.getLast?_concat] at h
    refine ⟨by omega, ?_⟩
    rw [Nat.add_sub_cancel, List.getElem?_eq_getElem hlt]
    exact h

theorem head_drop {l : List Int} {i : Nat} {key : Int}
    (h : (l.drop i).head? = some key) : i < l.length ∧ l[i]? = some key := by
  by_cases hi : i < l.length
  · rw [List.drop_eq_getElem_cons hi, List.head?_cons] at h
    exact ⟨hi, by rw [List.getElem?_eq_getElem hi]; exact h⟩
  · rw [List.drop_eq_nil_of_le (by omega)] at h
    simp at h

theorem scanDown_le (ks : List Int) (k : Int) : scanDown ks k ks.length ≤ ks.length :=
  (scanDown_spec ks k ks.length (le_refl _)).1

theorem scanDown_left (ks : List Int) (k : Int) (key : Int)
    (h : (ks.take (scanDown ks k ks.length)).getLast? = some key) : key ≤ k := by
  obtain ⟨h1, h2, _⟩ := scanDown_spec ks k ks.length (le_refl _)
  obtain ⟨hp, hk⟩ := getLast_take h1 h
  exact h2 hp key hk

theorem scanDown_right (ks : List Int) (k : Int) (key : Int)
    (h : (ks.drop (scanDown ks k ks.length)).head? = some key) : k < key := by
  obtain ⟨_, _, h3⟩ := scanDown_spec ks k ks.length (le_refl _)
  obtain ⟨hp, hk⟩ := head_drop h
  exact h3 hp key hk

theorem Shaped.mono {t h : Nat} {x : BTreeNode} {lo lo1 : Nat} (hs : Shaped t lo h x)
    (hle : lo1 ≤ x.n) : Shaped t lo1 h x := by
  match h, hs with
  | 1, hs => exact ⟨hs.1, hle, hs.2.2⟩
  | h + 2, hs => exact ⟨hs.1, hle, hs.2.2⟩

theorem Shaped.t_eq {t lo h : Nat} {x : BTreeNode} (hs : Shaped t lo h x) : x.t = t := by
  match h, hs with
  | 1, hs => exact hs.1
  | h + 2, hs => exact hs.1

theorem Shaped.n_le {t lo h : Nat} {x : BTreeNode} (hs : Shaped t lo h x) : x.n + 1 ≤ 2 * t := by
  match h, hs with
  | 1, hs => exact hs.2.2.1
  | h + 2, hs => exact hs.2.2.1

theorem Shaped.lo_le {t lo h : Nat} {x : BTreeNode} (hs : Shaped t lo h x) : lo ≤ x.n := by
  match h, hs with
  | 1, hs => exact hs.2.1
  | h + 2, hs => exact hs.2.1

theorem Shaped.pos {t lo h : Nat} {x : BTreeNode} (hs : Shaped t lo h x) : 0 < h := by
  match h, hs with
  | 1, _ => omega
  | h + 2, _ => omega

theorem Shaped.internal {t lo h : Nat} {x : BTreeNode} (hs : Shaped t lo h x)
    (hlf : x.is_leaf = false) : x.children.length = x.n + 1 ∧ 1 ≤ x.n := by
  match h, hs with
  | 1, hs => rw [hs.2.2.2.1] at hlf; exact absurd hlf (by simp)
  | h + 2, hs => exact ⟨hs.2.2.2.2.2.1, hs.2.2.2.2.1⟩

/-! ## The slots of its own arrays that `split_child` touches -/

theorem mem_countDown (lo : Nat) : ∀ (hi j : Nat), j ∈ countDown lo hi ↔ lo ≤ j ∧ j ≤ hi := by
  intro hi
  induction hi with
  | zero =>
    intro j
    by_cases h : lo = 0
    · rw [countDown, if_pos h, List.mem_singleton]
      constructor
      · intro e; omega
      · intro e; omega
    · rw [countDown, if_neg h]
      constructor
      · intro e; cases e
      · intro e; omega
  | succ hi ih =>
    intro j
    by_cases h : lo ≤ hi + 1
    · rw [countDown, if_pos h, List.mem_cons, ih]
      constructor
      · rintro (e | e) <;> omega
      · intro e
        by_cases hj : j = hi + 1
        · exact Or.inl hj
        · exact Or.inr (by omega)
    · rw [countDown, if_neg h]
      constructor
      · intro e; cases e
      · intro e; omega

theorem mem_split_child_accesses (n i : Nat) (a : Access) :
    a ∈ split_child_accesses n i ↔
      a = Access.read_child i ∨
      (∃ j, (i + 1 ≤ j ∧ j ≤ n) ∧ (a = Access.read_child j ∨ a = Access.write_child (j + 1))) ∨
      a = Access.write_child (i + 1) ∨
      (∃ j, (i ≤ j ∧ j ≤ n) ∧ (a = Access.read_key j ∨ a = Access.write_key (j + 1))) ∨
      a = Access.write_key i := by
  simp only [split_child_accesses, List.mem_append, List.mem_singleton, List.mem_flatMap,
    mem_countDown, List.mem_cons, List.not_mem_nil, or_false]
  constructor
  · rintro ((((e | ⟨j, hj, e⟩) | e) | ⟨j, hj, e⟩) | e)
    · exact Or.inl e
    · exact Or.inr (Or.inl ⟨j, hj, e⟩)
    · exact Or.inr (Or.inr (Or.inl e))
    · exact Or.inr (Or.inr (Or.inr (Or.inl ⟨j, hj, e⟩)))
    · exact Or.inr (Or.inr (Or.inr (Or.inr e)))
  · rintro (e | ⟨j, hj, e⟩ | e | ⟨j, hj, e⟩ | e)
    · exact Or.inl (Or.inl (Or.inl (Or.inl e)))
    · exact Or.inl (Or.inl (Or.inl (Or.inr ⟨j, hj, e⟩)))
    · exact Or.inl (Or.inl (Or.inr e))
    · exact Or.inl (Or.inr ⟨j, hj, e⟩)
    · exact Or.inr e

/-- The first round of the key shift loop: it reads key slot `n` and writes key
slot `n + 1`. -/
theorem key_shift_first_round (n i : Nat) (hi : i ≤ n) :
    Access.read_key n ∈ split_child_accesses n i ∧
      Access.write_key (n + 1) ∈ split_child_accesses n i := by
  constructor
  · rw [mem_split_child_accesses]
    exact Or.inr (Or.inr (Or.inr (Or.inl ⟨n, ⟨hi, le_refl _⟩, Or.inl rfl⟩)))
  · rw [mem_split_child_accesses]
    exact Or.inr (Or.inr (Or.inr (Or.inl ⟨n, ⟨hi, le_refl _⟩, Or.inr rfl⟩)))

/-- On a node that is not full, every access of `split_child` other than the
two of the first round of the key shift loop stays inside the arrays and reads
populated slots only. -/
theorem split_child_accesses_ok (t n i : Nat) (hi : i ≤ n) (hn : n + 2 ≤ 2 * t) :
    ∀ a ∈ split_child_accesses n i,
      a.ok t n ∨ a = Access.read_key n ∨ a = Access.write_key (n + 1) := by
  intro a ha
  rw [mem_split_child_accesses] at ha
  rcases ha with e | ⟨j, hj, e | e⟩ | e | ⟨j, hj, e | e⟩ | e
  · subst e; left; exact ⟨by omega, hi⟩
  · subst e; left; exact ⟨by omega, hj.2⟩
  · subst e; left; show j + 1 < 2 * t; omega
  · subst e; left; show i + 1 < 2 * t; omega
  · subst e
    by_cases hjn : j = n
    · subst hjn; right; left; rfl
    · left; exact ⟨by omega, by omega⟩
  · subst e
    by_cases hjn : j = n
    · subst hjn; right; right; rfl
    · left; show j + 1 < 2 * t - 1; omega
  · subst e; left; show i < 2 * t - 1; omega

/-- An access that stays inside the arrays is an access to a slot that exists. -/
theorem in_array_of_ok {t n : Nat} {a : Access} (h : a.ok t n) : a.in_array t = true := by
  cases a with
  | read_key j => exact decide_eq_true h.1
  | write_key j => exact decide_eq_true h
  | read_child j => exact decide_eq_true h.1
  | write_child j => exact decide_eq_true h

/-- All slots that `split_child(i)` accesses in a node with `n ≥ i` keys exist
exactly when `n ≤ 2t-3`. -/
theorem accesses_in_array (t n i : Nat) (hi : i ≤ n) :
    (split_child_accesses n i).all (Access.in_array t) = true ↔ n + 2 < 2 * t := by
  rw [List.all_eq_true]
  constructor
  · intro h
    have := h _ (key_shift_first_round n i hi).2
    have h2 : n + 1 < 2 * t - 1 := of_decide_eq_true this
    omega
  · intro h a ha
    rcases split_child_accesses_ok t n i hi (by omega) a ha with e | e | e
    · exact in_array_of_ok e
    · subst e
      exact decide_eq_true (by omega : n < 2 * t - 1)
    · subst e
      exact decide_eq_true (by omega : n + 1 < 2 * t - 1)

/-- Some slot that `split_child(i)` accesses in a node with `n ≥ i` keys does
not exist exactly when `n ≥ 2t-2`. -/
theorem accesses_out_of_bounds (t n i : Nat) (hi : i ≤ n) :
    (∃ a ∈ split_child_accesses n i, Access.in_array t a = false) ↔ 2 * t ≤ n + 2 := by
  have h := accesses_in_array t n i hi
  rw [List.all_eq_true] at h
  constructor
  · rintro ⟨a, ha, hf⟩
    by_contra hn
    have := h.mpr (by omega) a ha
    rw [hf] at this
    cases this
  · intro hle
    by_contra hn
    have hall : ∀ a ∈ split_child_accesses n i, Access.in_array t a = true := by
      intro a ha
      by_contra hf
      exact hn ⟨a, ha, by simpa using hf⟩
    have := h.mp hall
    omega

/-! ## The effect of `split_child` -/

theorem inorderChildren_append (med : Int) (C2 : List BTreeNode) (K2 : List Int) :
    ∀ (C1 : List BTreeNode) (K1 : List Int), C1.length = K1.length + 1 →
      inorderChildren (C1 ++ C2) (K1 ++ med :: K2) =
        inorderChildren C1 K1 ++ med :: inorderChildren C2 K2 := by
  intro C1
  induction C1 with
  | nil => intro K1 h; simp at h
  | cons c C1 ih =>
    intro K1 h
    cases K1 with
    | nil =>
      have : C1 = [] := List.length_eq_zero.mp (by simpa using h)
      subst this
      simp [inorderChildren]
    | cons k K1 =>
      simp only [List.length_cons, Nat.add_right_cancel_iff] at h
      simp [inorderChildren, ih K1 h]

/-- A split that has a value was made at a child slot of a node in which every
slot it accesses exists. -/
theorem split_child_room {x x1 : BTreeNode} {i : Nat} (h : split_child x i = some x1) :
    i ≤ x.n ∧ x.n + 2 < 2 * x.t := by
  by_cases hg : i ≤ x.n ∧ (split_child_accesses x.n i).all (Access.in_array x.t) = true
  · exact ⟨hg.1, (accesses_in_array x.t x.n i hg.1).mp hg.2⟩
  · have : split_child x i = none := by
      unfold split_child
      simp only [Option.bind_eq_bind, if_neg hg]
      cases x.children[i]? with
      | none => rfl
      | some y =>
        simp only [Option.some_bind]
        cases y.keys[x.t - 1]? with
        | none => rfl
        | some m =>
          simp only [Option.some_bind]
          cases readSlots y.keys x.t (x.t - 1) with
          | none => rfl
          | some zk =>
            simp only [Option.some_bind]
            split
            · rfl
            · cases readSlots y.children x.t x.t <;> rfl
    rw [this] at h
    cases h

/-- A split on a node with `n ≥ 2t-2` keys has no value: the first round of the
key shift loop stores outside the key array. -/
theorem split_child_none {x : BTreeNode} (i : Nat) (h : 2 * x.t ≤ x.n + 2) :
    split_child x i = none := by
  cases hs : split_child x i with
  | none => rfl
  | some x1 =>
    have := (split_child_room hs).2
    omega

theorem split_child_spec {t h : Nat} (ht : 2 ≤ t) {x y : BTreeNode} {i : Nat}
    (hxt : x.t = t) (hy : x.children[i]? = some y) (hi : i ≤ x.n) (hroom : x.n + 2 < 2 * t)
    (hys : Shaped t (t - 1) h y) (hfull : y.n + 1 = 2 * t) :
    ∃ m y1 z,
      split_child x i = some (mk (insertAt x.keys i m) t x.is_leaf
        (x.children.take i ++ y1 :: z :: x.children.drop (i + 1))) ∧
      Shaped t (t - 1) h y1 ∧ Shaped t (t - 1) h z ∧ y1.n + 1 = t ∧ z.n + 1 = t ∧
      inorder y = inorder y1 ++ m :: inorder z := by
  obtain ⟨yks, yt, ylf, ycs⟩ := y
  obtain ⟨xks, xt, xlf, xcs⟩ := x
  simp only [t_mk, children_mk, n_mk, keys_mk, is_leaf_mk] at hxt hy hi hroom ⊢
  subst hxt
  have hyt : yt = xt := hys.t_eq
  subst hyt
  have hg := (accesses_in_array yt xks.length i hi).mpr hroom
  simp only [n_mk] at hfull
  have hlt : yt - 1 < yks.length := by omega
  have hkeys : yks = yks.take (yt - 1) ++ yks[yt - 1] :: yks.drop yt := by
    have := (split_at_index (List.getElem?_eq_getElem hlt)).1
    rwa [show yt - 1 + 1 = yt by omega] at this
  have hlen1 : (yks.take (yt - 1)).length = yt - 1 := by simp; omega
  have hlen2 : (yks.drop yt).length = yt - 1 := by simp; omega
  have hz : readSlots yks yt (yt - 1) = some (yks.drop yt) := by
    unfold readSlots
    rw [if_pos (by omega), List.take_of_length_le (by omega)]
  match h, hys with
  | 1, hys =>
    obtain ⟨_, _, _, hlf, hcs⟩ := hys
    simp only [is_leaf_mk, children_mk] at hlf hcs
    subst hlf hcs
    refine ⟨yks[yt - 1], mk (yks.take (yt - 1)) yt true [], mk (yks.drop yt) yt true [], ?_, ?_, ?_,
      ?_, ?_, ?_⟩
    · simp [split_child, hy, List.getElem?_eq_getElem hlt, hz, hi, hg]
    · refine ⟨rfl, ?_, ?_, rfl, rfl⟩ <;> simp only [n_mk, hlen1] <;> omega
    · refine ⟨rfl, ?_, ?_, rfl, rfl⟩ <;> simp only [n_mk, hlen2] <;> omega
    · simp only [n_mk, hlen1]; omega
    · simp only [n_mk, hlen2]; omega
    · simp only [inorder_mk, if_true]
      exact hkeys
  | h + 2, hys =>
    obtain ⟨_, _, _, hlf, _, hlen, hcs⟩ := hys
    simp only [is_leaf_mk, children_mk, n_mk] at hlf hcs hlen
    subst hlf
    have hzc : readSlots ycs yt yt = some (ycs.drop yt) := by
      unfold readSlots
      rw [if_pos (by omega), List.take_of_length_le (by simp; omega)]
    refine ⟨yks[yt - 1], mk (yks.take (yt - 1)) yt false (ycs.take yt),
      mk (yks.drop yt) yt false (ycs.drop yt), ?_, ?_, ?_, ?_, ?_, ?_⟩
    · simp [split_child, hy, List.getElem?_eq_getElem hlt, hz, hzc, hi, hg]
    · refine ⟨rfl, ?_, ?_, rfl, ?_, ?_, ?_⟩
      · simp only [n_mk, hlen1]; omega
      · simp only [n_mk, hlen1]; omega
      · simp only [n_mk, hlen1]; omega
      · simp only [n_mk, children_mk, hlen1, List.length_take]; omega
      · intro c hc
        exact hcs c (List.mem_of_mem_take hc)
    · refine ⟨rfl, ?_, ?_, rfl, ?_, ?_, ?_⟩
      · simp only [n_mk, hlen2]; omega
      · simp only [n_mk, hlen2]; omega
      · simp only [n_mk, hlen2]; omega
      · simp only [n_mk, children_mk, hlen2, List.length_drop]; omega
      · intro c hc
        exact hcs c (List.mem_of_mem_drop hc)
    · simp only [n_mk, hlen1]; omega
    · simp only [n_mk, hlen2]; omega
    · simp only [inorder_mk, Bool.false_eq_true, if_false]
      have := inorderChildren_append yks[yt - 1] (ycs.drop yt) (yks.drop yt) (ycs.take yt)
        (yks.take (yt - 1)) (by simp only [List.length_take]; omega)
      rw [List.take_append_drop, ← hkeys] at this
      exact this

/-! ## Descending into a child -/

theorem le_of_getLast {P rest : List Int} {k : Int} (hs : (P ++ rest).Pairwise (· ≤ ·))
    (hk : ∀ key, P.getLast? = some key → key ≤ k) : ∀ a ∈ P, a ≤ k := by
  intro a ha
  rcases List.eq_nil_or_concat P with hP | ⟨P1, key, hP⟩
  · subst hP; simp at ha
  · rw [List.concat_eq_append] at hP
    subst hP
    have hkey := hk key (List.getLast?_concat P1)
    have hs1 := List.pairwise_append.mp (List.pairwise_append.mp hs).1
    rcases List.mem_append.mp ha with ha | ha
    · exact le_trans (hs1.2.2 a ha key (by simp)) hkey
    · simp at ha
      subst ha
      exact hkey

theorem ge_of_head {Q : List Int} {k : Int} (hs : Q.Pairwise (· ≤ ·))
    (hk : ∀ key, Q.head? = some key → k ≤ key) : ∀ b ∈ Q, k ≤ b := by
  intro b hb
  cases Q with
  | nil => simp at hb
  | cons key Q =>
    have hkey := hk key rfl
    rcases List.mem_cons.mp hb with hb | hb
    · subst hb; exact hkey
    · exact le_trans hkey ((List.pairwise_cons.mp hs).1 b hb)

/-- Decomposition of the children and keys of an internal node around child `i`. -/
theorem decomp_at {ks : List Int} {cs : List BTreeNode} {i : Nat} {c : BTreeNode}
    (hlen : cs.length = ks.length + 1) (hc : cs[i]? = some c) :
    cs = cs.take i ++ c :: cs.drop (i + 1) ∧ ks = ks.take i ++ ks.drop i ∧
    (cs.take i).length = (ks.take i).length ∧ (ks.drop i).length = (cs.drop (i + 1)).length := by
  obtain ⟨hi, _⟩ := List.getElem?_eq_some.mp hc
  refine ⟨(split_at_index hc).1, (List.take_append_drop i ks).symm, ?_, ?_⟩
  · simp only [List.length_take]; omega
  · simp only [List.length_drop]; omega

theorem inorder_at {ks : List Int} {cs : List BTreeNode} {i : Nat} {c : BTreeNode} (t : Nat)
    (hlen : cs.length = ks.length + 1) (hc : cs[i]? = some c) (c2 : BTreeNode) :
    inorder (mk ks t false (cs.take i ++ c2 :: cs.drop (i + 1))) =
      inPre (cs.take i) (ks.take i) ++ (inorder c2 ++ inPost (ks.drop i) (cs.drop (i + 1))) := by
  obtain ⟨_, h2, h3, h4⟩ := decomp_at hlen hc
  rw [inorder_mk]
  simp only [Bool.false_eq_true, if_false]
  conv => lhs; rw [h2]
  exact inorderChildren_decomp _ _ _ _ _ h3 h4

theorem inorder_at_self {ks : List Int} {cs : List BTreeNode} {i : Nat} {c : BTreeNode} (t : Nat)
    (hlen : cs.length = ks.length + 1) (hc : cs[i]? = some c) :
    inorder (mk ks t false cs) =
      inPre (cs.take i) (ks.take i) ++ (inorder c ++ inPost (ks.drop i) (cs.drop (i + 1))) := by
  have := inorder_at t hlen hc c
  rwa [← (split_at_index hc).1] at this

theorem child_sorted {ks : List Int} {cs : List BTreeNode} {i : Nat} {c : BTreeNode} {t : Nat}
    (hlen : cs.length = ks.length + 1) (hc : cs[i]? = some c)
    (hs : (inorder (mk ks t false cs)).Pairwise (· ≤ ·)) : (inorder c).Pairwise (· ≤ ·) := by
  rw [inorder_at_self t hlen hc] at hs
  exact (List.pairwise_append.mp (List.pairwise_append.mp hs).2.1).1

theorem descend_inorder {ks : List Int} {cs : List BTreeNode} {i : Nat} {c c2 : BTreeNode}
    {k : Int} {t : Nat} (hlen : cs.length = ks.length + 1) (hc : cs[i]? = some c)
    (hs : (inorder (mk ks t false cs)).Pairwise (· ≤ ·))
    (hl : ∀ key, (ks.take i).getLast? = some key → key ≤ k)
    (hr : ∀ key, (ks.drop i).head? = some key → k ≤ key)
    (hins : Ins k (inorder c) (inorder c2)) :
    Ins k (inorder (mk ks t false cs)) (inorder (mk ks t false (cs.set i c2))) := by
  obtain ⟨_, _, h3, h4⟩ := decomp_at hlen hc
  obtain ⟨l, r, hold, hnew, hlk, hrk⟩ := hins
  rw [set_at_index hc, inorder_at t hlen hc c2]
  rw [inorder_at_self t hlen hc] at hs ⊢
  refine ⟨inPre (cs.take i) (ks.take i) ++ l, r ++ inPost (ks.drop i) (cs.drop (i + 1)), ?_, ?_,
    ?_, ?_⟩
  · rw [hold]; simp
  · rw [hnew]; simp
  · intro a ha
    rcases List.mem_append.mp ha with ha | ha
    · exact inPre_le h3 hs hl a ha
    · exact hlk a ha
  · intro b hb
    rcases List.mem_append.mp hb with hb | hb
    · exact hrk b hb
    · have hs2 := (List.pairwise_append.mp (List.pairwise_append.mp hs).2.1).2.1
      exact inPost_ge h4 hs2 hr b hb

theorem inorder_split {ks : List Int} {cs : List BTreeNode} {i : Nat} {y y1 z : BTreeNode}
    {m : Int} (t : Nat) (hlen : cs.length = ks.length + 1) (hc : cs[i]? = some y)
    (hy : inorder y = inorder y1 ++ m :: inorder z) :
    inorder (mk (insertAt ks i m) t false (cs.take i ++ y1 :: z :: cs.drop (i + 1))) =
      inorder (mk ks t false cs) := by
  obtain ⟨_, _, h3, h4⟩ := decomp_at hlen hc
  rw [inorder_at_self t hlen hc, inorder_mk]
  simp only [Bool.false_eq_true, if_false, insertAt]
  rw [inorderChildren_decomp _ _ _ _ _ h3 (by simp only [List.length_cons]; omega), hy]
  simp [inPost]

/-! ## The branches of `insert_non_full` -/

theorem insert_non_full_fuel_leaf (fuel : Nat) (ks : List Int) (t : Nat) (cs : List BTreeNode)
    (k : Int) :
    insert_non_full_fuel (fuel + 1) (mk ks t true cs) k =
      if ks.length < 2 * t - 1 then some (mk (insertAt ks (scanDown ks k ks.length) k) t true cs)
      else none := by
  rw [insert_non_full_fuel]
  simp only [keys_mk, n_mk, t_mk, is_leaf_mk, children_mk, if_true]

theorem insert_non_full_fuel_descend (fuel : Nat) {ks : List Int} {t : Nat}
    {cs : List BTreeNode} {k : Int} {c : BTreeNode}
    (hc : cs[scanDown ks k ks.length]? = some c) (hfull : c.is_full = false) :
    insert_non_full_fuel (fuel + 1) (mk ks t false cs) k =
      (insert_non_full_fuel fuel c k).map fun c2 =>
        mk ks t false (cs.set (scanDown ks k ks.length) c2) := by
  rw [insert_non_full_fuel]
  simp only [keys_mk, n_mk, t_mk, is_leaf_mk, children_mk, Bool.false_eq_true, if_false, hc,
    hfull, Option.bind_eq_bind, Option.some_bind]
  cases insert_non_full_fuel fuel c k <;> rfl

theorem insert_non_full_fuel_no_split (fuel : Nat) {ks : List Int} {t : Nat}
    {cs : List BTreeNode} {k : Int} {c : BTreeNode}
    (hc : cs[scanDown ks k ks.length]? = some c) (hfull : c.is_full = true)
    (hs : split_child (mk ks t false cs) (scanDown ks k ks.length) = none) :
    insert_non_full_fuel (fuel + 1) (mk ks t false cs) k = none := by
  rw [insert_non_full_fuel]
  simp only [keys_mk, n_mk, t_mk, is_leaf_mk, children_mk, Bool.false_eq_true, if_false, hc,
    hfull, if_true, hs, Option.bind_eq_bind, Option.some_bind, Option.none_bind]

theorem insert_non_full_fuel_split (fuel : Nat) {ks : List Int} {t : Nat}
    {cs : List BTreeNode} {k : Int} {c c1 : BTreeNode} {ks1 : List Int} {t1 : Nat} {lf1 : Bool}
    {cs1 : List BTreeNode} {m : Int}
    (hc : cs[scanDown ks k ks.length]? = some c) (hfull : c.is_full = true)
    (hs : split_child (mk ks t false cs) (scanDown ks k ks.length) = some (mk ks1 t1 lf1 cs1))
    (hm : ks1[scanDown ks k ks.length]? = some m)
    (hc1 : cs1[if k > m then scanDown ks k ks.length + 1 else scanDown ks k ks.length]? =
      some c1) :
    insert_non_full_fuel (fuel + 1) (mk ks t false cs) k =
      (insert_non_full_fuel fuel c1 k).map fun c2 =>
        mk ks1 t1 lf1 (cs1.set (if k > m then scanDown ks k ks.length + 1
          else scanDown ks k ks.length) c2) := by
  rw [insert_non_full_fuel]
  simp only [keys_mk, n_mk, t_mk, is_leaf_mk, children_mk, Bool.false_eq_true, if_false, hc,
    hfull, if_true, hs, hm, hc1, Option.bind_eq_bind, Option.some_bind]
  cases insert_non_full_fuel fuel c1 k <;> rfl

theorem insert_non_full_log_leaf (fuel : Nat) (ks : List Int) (t : Nat) (cs : List BTreeNode)
    (k : Int) :
    (insert_non_full_log (fuel + 1) (mk ks t true cs) k).1 =
      [Call.insert_non_full (mk ks t true cs)] := by
  rw [insert_non_full_log]
  simp only [is_leaf_mk, if_true]

theorem insert_non_full_log_descend (fuel : Nat) {ks : List Int} {t : Nat}
    {cs : List BTreeNode} {k : Int} {c : BTreeNode}
    (hc : cs[scanDown ks k ks.length]? = some c) (hfull : c.is_full = false) :
    (insert_non_full_log (fuel + 1) (mk ks t false cs) k).1 =
      Call.insert_non_full (mk ks t false cs) ::
        Call.recurse (mk ks t false cs) (scanDown ks k ks.length) ::
        (insert_non_full_log fuel c k).1 := by
  rw [insert_non_full_log]
  simp only [keys_mk, n_mk, t_mk, is_leaf_mk, children_mk, Bool.false_eq_true, if_false, hc,
    hfull]

theorem insert_non_full_log_no_split (fuel : Nat) {ks : List Int} {t : Nat}
    {cs : List BTreeNode} {k : Int} {c : BTreeNode}
    (hc : cs[scanDown ks k ks.length]? = some c) (hfull : c.is_full = true)
    (hs : split_child (mk ks t false cs) (scanDown ks k ks.length) = none) :
    (insert_non_full_log (fuel + 1) (mk ks t false cs) k).1 =
      [Call.insert_non_full (mk ks t false cs),
        Call.split_child (mk ks t false cs) (scanDown ks k ks.length)] := by
  rw [insert_non_full_log]
  simp only [keys_mk, n_mk, t_mk, is_leaf_mk, children_mk, Bool.false_eq_true, if_false, hc,
    hfull, if_true, hs]

theorem insert_non_full_log_split (fuel : Nat) {ks : List Int} {t : Nat}
    {cs : List BTreeNode} {k : Int} {c c1 : BTreeNode} {ks1 : List Int} {t1 : Nat} {lf1 : Bool}
    {cs1 : List BTreeNode} {m : Int}
    (hc : cs[scanDown ks k ks.length]? = some c) (hfull : c.is_full = true)
    (hs : split_child (mk ks t false cs) (scanDown ks k ks.length) = some (mk ks1 t1 lf1 cs1))
    (hm : ks1[scanDown ks k ks.length]? = some m)
    (hc1 : cs1[if k > m then scanDown ks k ks.length + 1 else scanDown ks k ks.length]? =
      some c1) :
    (insert_non_full_log (fuel + 1) (mk ks t false cs) k).1 =
      Call.insert_non_full (mk ks t false cs) ::
        Call.split_child (mk ks t false cs) (scanDown ks k ks.length) ::
        Call.recurse (mk ks1 t1 lf1 cs1) (if k > m then scanDown ks k ks.length + 1
          else scanDown ks k ks.length) :: (insert_non_full_log fuel c1 k).1 := by
  rw [insert_non_full_log]
  simp only [keys_mk, n_mk, t_mk, is_leaf_mk, children_mk, Bool.false_eq_true, if_false, hc,
    hfull, if_true, hs, hm, hc1]

/-- The call `split_child(i)` on a node with `n ≥ 2t-2` keys and `i ≤ n` accesses
a slot outside the arrays. -/
theorem out_of_bounds_of_ge {x : BTreeNode} {i : Nat} (hi : i ≤ x.n)
    (h : 2 * x.t ≤ x.n + 2) : (Call.split_child x i).out_of_bounds :=
  (accesses_out_of_bounds x.t x.n i hi).mpr h

/-! ## The effect of `insert_non_full` -/

theorem insertAt_length {α : Type} (l : List α) (i : Nat) (a : α) (hi : i ≤ l.length) :
    (insertAt l i a).length = l.length + 1 := by
  simp only [insertAt, List.length_append, List.length_take, List.length_cons, List.length_drop]
  omega

theorem insertAt_take_self {α : Type} (l : List α) (i : Nat) (a : α) (hi : i ≤ l.length) :
    (insertAt l i a).take i = l.take i := by
  unfold insertAt
  rw [List.take_append_of_le_length (by simp; omega), List.take_take, Nat.min_self]

theorem insertAt_drop_self {α : Type} (l : List α) (i : Nat) (a : α) (hi : i ≤ l.length) :
    (insertAt l i a).drop i = a :: l.drop i := by
  unfold insertAt
  have h : (l.take i).length = i := by simp; omega
  conv => lhs; arg 1; rw [← h]
  exact List.drop_left _ _

theorem insertAt_take_succ {α : Type} (l : List α) (i : Nat) (a : α) (hi : i ≤ l.length) :
    (insertAt l i a).take (i + 1) = l.take i ++ [a] := by
  have h : (l.take i).length = i := by simp; omega
  have e : insertAt l i a = (l.take i ++ [a]) ++ l.drop i := by simp [insertAt]
  have h2 : (l.take i ++ [a]).length = i + 1 := by simp [h]
  rw [e]
  conv => lhs; arg 1; rw [← h2]
  exact List.take_left _ _

theorem insertAt_drop_succ {α : Type} (l : List α) (i : Nat) (a : α) (hi : i ≤ l.length) :
    (insertAt l i a).drop (i + 1) = l.drop i := by
  have h : (l.take i).length = i := by simp; omega
  have e : insertAt l i a = (l.take i ++ [a]) ++ l.drop i := by simp [insertAt]
  have h2 : (l.take i ++ [a]).length = i + 1 := by simp [h]
  rw [e]
  conv => lhs; arg 1; rw [← h2]
  exact List.drop_left _ _

theorem insertAt_get {α : Type} (l : List α) (i : Nat) (a : α) (hi : i ≤ l.length) :
    (insertAt l i a)[i]? = some a := by
  have h : (l.take i).length = i := by simp; omega
  unfold insertAt
  rw [List.getElem?_append_right (by omega), h]
  simp

theorem getElem_splice_left {cs : List BTreeNode} {i : Nat} (y1 z : BTreeNode)
    (hi : i < cs.length) : (cs.take i ++ y1 :: z :: cs.drop (i + 1))[i]? = some y1 := by
  have h : (cs.take i).length = i := by simp; omega
  rw [List.getElem?_append_right (by omega), h]
  simp

theorem getElem_splice_right {cs : List BTreeNode} {i : Nat} (y1 z : BTreeNode)
    (hi : i < cs.length) : (cs.take i ++ y1 :: z :: cs.drop (i + 1))[i + 1]? = some z := by
  have h : (cs.take i).length = i := by simp; omega
  rw [List.getElem?_append_right (by omega), h]
  simp

theorem length_splice {cs : List BTreeNode} {i : Nat} (y1 z : BTreeNode)
    (hi : i < cs.length) : (cs.take i ++ y1 :: z :: cs.drop (i + 1)).length = cs.length + 1 := by
  simp only [List.length_append, List.length_take, List.length_cons, List.length_drop]
  omega

theorem mem_splice {cs : List BTreeNode} {i : Nat} {y1 z c : BTreeNode}
    (hc : c ∈ cs.take i ++ y1 :: z :: cs.drop (i + 1)) : c = y1 ∨ c = z ∨ c ∈ cs := by
  rcases List.mem_append.mp hc with h | h
  · exact Or.inr (Or.inr (List.mem_of_mem_take h))
  · rcases List.mem_cons.mp h with h | h
    · exact Or.inl h
    · rcases List.mem_cons.mp h with h | h
      · exact Or.inr (Or.inl h)
      · exact Or.inr (Or.inr (List.mem_of_mem_drop h))

theorem is_full_iff (x : BTreeNode) : x.is_full = true ↔ x.n + 1 = 2 * x.t := by
  simp [is_full]

/-- Replacing child `i` of an internal node by a node of the same shape keeps the shape. -/
theorem shaped_set {t lo h : Nat} {ks : List Int} {cs : List BTreeNode} {i : Nat}
    {c2 : BTreeNode} (h1 : lo ≤ ks.length) (h2 : ks.length + 1 ≤ 2 * t) (h3 : 1 ≤ ks.length)
    (h4 : cs.length = ks.length + 1) (h5 : ∀ c ∈ cs, Shaped t (t - 1) (h + 1) c)
    (h6 : Shaped t (t - 1) (h + 1) c2) :
    Shaped t lo (h + 2) (mk ks t false (cs.set i c2)) := by
  refine ⟨rfl, h1, h2, rfl, h3, ?_, ?_⟩
  · simp only [children_mk, List.length_set, n_mk]; exact h4
  · intro c hc
    rcases List.mem_or_eq_of_mem_set hc with hc | hc
    · exact h5 c hc
    · subst hc; exact h6

/-- The effect of `insert_non_full` on a node of a well-shaped sorted subtree
that is not full: either it has a value, a subtree of the same shape whose
in-order traversal is the old one with `k` put in at a sorted place, or it has
none and one of the calls it made is a `split_child` that accesses a slot
outside the arrays. -/
theorem insert_non_full_fuel_spec {t : Nat} (ht : 2 ≤ t) (k : Int) :
    ∀ (h fuel lo : Nat) (x : BTreeNode), h ≤ fuel → Shaped t lo h x → x.n + 1 < 2 * t →
      (inorder x).Pairwise (· ≤ ·) →
      (∃ x2, insert_non_full_fuel fuel x k = some x2 ∧ Shaped t lo h x2 ∧
        Ins k (inorder x) (inorder x2)) ∨
      (insert_non_full_fuel fuel x k = none ∧
        ∃ c ∈ (insert_non_full_log fuel x k).1, c.out_of_bounds) := by
  intro h
  induction h with
  | zero => intro fuel lo x _ hs; exact absurd hs (by simp [Shaped])
  | succ h ih =>
    intro fuel lo x hfuel hs hnf hsorted
    obtain ⟨ks, xt, lf, cs⟩ := x
    obtain ⟨fuel, rfl⟩ : ∃ f, fuel = f + 1 := ⟨fuel - 1, by omega⟩
    have hpos := scanDown_le ks k
    match h, hs, ih with
    | 0, hs, _ =>
      obtain ⟨hxt, hlo, _, hlf, hcs⟩ := hs
      simp only [t_mk, n_mk, is_leaf_mk, children_mk] at hxt hlo hlf hcs hnf
      subst hxt hlf hcs
      left
      refine ⟨mk (insertAt ks (scanDown ks k ks.length) k) xt true [], ?_, ?_, ?_⟩
      · rw [insert_non_full_fuel_leaf, if_pos (by omega)]
      · refine ⟨rfl, ?_, ?_, rfl, rfl⟩ <;> simp only [n_mk, insertAt_length _ _ _ hpos] <;> omega
      · simp only [inorder_mk, if_true] at hsorted ⊢
        refine ⟨ks.take (scanDown ks k ks.length), ks.drop (scanDown ks k ks.length),
          (List.take_append_drop _ _).symm, rfl, ?_, ?_⟩
        · rw [← List.take_append_drop (scanDown ks k ks.length) ks] at hsorted
          exact le_of_getLast hsorted (scanDown_left ks k)
        · have hs2 : (ks.drop (scanDown ks k ks.length)).Pairwise (· ≤ ·) :=
            hsorted.sublist (List.drop_sublist _ _)
          exact ge_of_head hs2 (fun key hk => le_of_lt (scanDown_right ks k key hk))
    | h + 1, hs, ih =>
      obtain ⟨hxt, hlo, _, hlf, h1, hlen, hch⟩ := hs
      simp only [t_mk, n_mk, is_leaf_mk, children_mk] at hxt hlo hlf hlen hch hnf h1
      subst hxt hlf
      obtain ⟨c, hc⟩ : ∃ c, cs[scanDown ks k ks.length]? = some c :=
        ⟨_, List.getElem?_eq_getElem (by omega)⟩
      have hcmem : c ∈ cs := by
        obtain ⟨hi, e⟩ := List.getElem?_eq_some.mp hc
        exact e ▸ List.getElem_mem _
      have hcs := hch c hcmem
      by_cases hfull : c.is_full = true
      · by_cases hroom : ks.length + 2 < 2 * xt
        · have hfull2 : c.n + 1 = 2 * xt := by rw [← hcs.t_eq]; exact (is_full_iff c).mp hfull
          obtain ⟨m, y1, z, hsplit, hy1, hz, hy1n, hzn, hyin⟩ :=
            split_child_spec (x := mk ks xt false cs) ht rfl hc hpos hroom hcs hfull2
          simp only [keys_mk, is_leaf_mk, children_mk] at hsplit
          have hilt : scanDown ks k ks.length < cs.length := by omega
          have hlen1 : (cs.take (scanDown ks k ks.length) ++ y1 :: z ::
              cs.drop (scanDown ks k ks.length + 1)).length =
              (insertAt ks (scanDown ks k ks.length) m).length + 1 := by
            rw [length_splice y1 z hilt, insertAt_length _ _ _ hpos, hlen]
          have hin1 := inorder_split xt hlen hc hyin
          have hch1 : ∀ c1 ∈ cs.take (scanDown ks k ks.length) ++ y1 :: z ::
              cs.drop (scanDown ks k ks.length + 1), Shaped xt (xt - 1) (h + 1) c1 := by
            intro c1 hc1
            rcases mem_splice hc1 with e | e | e
            · subst e; exact hy1
            · subst e; exact hz
            · exact hch c1 e
          have hm := insertAt_get ks (scanDown ks k ks.length) m hpos
          by_cases hkm : k > m
          · have hc1 : (cs.take (scanDown ks k ks.length) ++ y1 :: z ::
                cs.drop (scanDown ks k ks.length + 1))[if k > m then scanDown ks k ks.length + 1
                  else scanDown ks k ks.length]? = some z := by
              rw [if_pos hkm]; exact getElem_splice_right y1 z hilt
            have hval := insert_non_full_fuel_split fuel hc hfull hsplit hm hc1
            have hlog := insert_non_full_log_split fuel hc hfull hsplit hm hc1
            rw [if_pos hkm] at hval
            rcases ih fuel (xt - 1) z (by omega) hz (by omega)
              (child_sorted hlen1 (getElem_splice_right y1 z hilt) (by rw [hin1]; exact hsorted))
              with ⟨c2, hc2, hc2s, hc2i⟩ | ⟨hnone, d, hd, hdo⟩
            · left
              refine ⟨_, by rw [hval, hc2]; rfl, ?_, ?_⟩
              · exact shaped_set (by rw [insertAt_length _ _ _ hpos]; omega)
                  (by rw [insertAt_length _ _ _ hpos]; omega)
                  (by rw [insertAt_length _ _ _ hpos]; omega) hlen1 hch1 hc2s
              · rw [← hin1]
                refine descend_inorder hlen1 (getElem_splice_right y1 z hilt)
                  (by rw [hin1]; exact hsorted) ?_ ?_ hc2i
                · intro key hkey
                  rw [insertAt_take_succ _ _ _ hpos, List.getLast?_concat] at hkey
                  cases hkey
                  exact le_of_lt hkm
                · intro key hkey
                  rw [insertAt_drop_succ _ _ _ hpos] at hkey
                  exact le_of_lt (scanDown_right ks k key hkey)
            · right
              refine ⟨by rw [hval, hnone]; rfl, d, ?_, hdo⟩
              rw [hlog]
              exact List.mem_cons_of_mem _ (List.mem_cons_of_mem _ (List.mem_cons_of_mem _ hd))
          · have hc1 : (cs.take (scanDown ks k ks.length) ++ y1 :: z ::
                cs.drop (scanDown ks k ks.length + 1))[if k > m then scanDown ks k ks.length + 1
                  else scanDown ks k ks.length]? = some y1 := by
              rw [if_neg hkm]; exact getElem_splice_left y1 z hilt
            have hval := insert_non_full_fuel_split fuel hc hfull hsplit hm hc1
            have hlog := insert_non_full_log_split fuel hc hfull hsplit hm hc1
            rw [if_neg hkm] at hval
            rcases ih fuel (xt - 1) y1 (by omega) hy1 (by omega)
              (child_sorted hlen1 (getElem_splice_left y1 z hilt) (by rw [hin1]; exact hsorted))
              with ⟨c2, hc2, hc2s, hc2i⟩ | ⟨hnone, d, hd, hdo⟩
            · left
              refine ⟨_, by rw [hval, hc2]; rfl, ?_, ?_⟩
              · exact shaped_set (by rw [insertAt_length _ _ _ hpos]; omega)
                  (by rw [insertAt_length _ _ _ hpos]; omega)
                  (by rw [insertAt_length _ _ _ hpos]; omega) hlen1 hch1 hc2s
              · rw [← hin1]
                refine descend_inorder hlen1 (getElem_splice_left y1 z hilt)
                  (by rw [hin1]; exact hsorted) ?_ ?_ hc2i
                · intro key hkey
                  rw [insertAt_take_self _ _ _ hpos] at hkey
                  exact scanDown_left ks k key hkey
                · intro key hkey
                  rw [insertAt_drop_self _ _ _ hpos, List.head?_cons] at hkey
                  cases hkey
                  exact not_lt.mp hkm
            · right
              refine ⟨by rw [hval, hnone]; rfl, d, ?_, hdo⟩
              rw [hlog]
              exact List.mem_cons_of_mem _ (List.mem_cons_of_mem _ (List.mem_cons_of_mem _ hd))
        · have hsplit : split_child (mk ks xt false cs) (scanDown ks k ks.length) = none :=
            split_child_none _ (by simp only [t_mk, n_mk]; omega)
          right
          refine ⟨insert_non_full_fuel_no_split fuel hc hfull hsplit, _, ?_,
            out_of_bounds_of_ge (x := mk ks xt false cs) hpos (by simp only [t_mk, n_mk]; omega)⟩
          rw [insert_non_full_log_no_split fuel hc hfull hsplit]
          exact List.mem_cons_of_mem _ (List.mem_singleton_self _)
      · have hnfull : c.is_full = false := by simpa using hfull
        have hnf2 : c.n + 1 < 2 * xt := by
          have h1 := hcs.n_le
          have h2 : ¬ (c.n + 1 = 2 * xt) := by
            rw [← hcs.t_eq]; exact fun e => hfull ((is_full_iff c).mpr e)
          omega
        have hval := insert_non_full_fuel_descend (t := xt) fuel hc hnfull
        have hlog := insert_non_full_log_descend (t := xt) fuel hc hnfull
        rcases ih fuel (xt - 1) c (by omega) hcs hnf2 (child_sorted hlen hc hsorted)
          with ⟨c2, hc2, hc2s, hc2i⟩ | ⟨hnone, d, hd, hdo⟩
        · left
          refine ⟨mk ks xt false (cs.set (scanDown ks k ks.length) c2), by rw [hval, hc2]; rfl,
            ?_, ?_⟩
          · exact shaped_set hlo (by omega) h1 hlen hch hc2s
          · exact descend_inorder hlen hc hsorted (scanDown_left ks k)
              (fun key hk => le_of_lt (scanDown_right ks k key hk)) hc2i
        · right
          refine ⟨by rw [hval, hnone]; rfl, d, ?_, hdo⟩
          rw [hlog]
          exact List.mem_cons_of_mem _ (List.mem_cons_of_mem _ hd)

/-- Where `insert_non_full` has a value on such a node, the value is a subtree
of the same shape with `k` put in. -/
theorem insert_non_full_fuel_some {t : Nat} (ht : 2 ≤ t) (k : Int) {h fuel lo : Nat}
    {x x2 : BTreeNode} (hfuel : h ≤ fuel) (hs : Shaped t lo h x) (hnf : x.n + 1 < 2 * t)
    (hsorted : (inorder x).Pairwise (· ≤ ·)) (hv : insert_non_full_fuel fuel x k = some x2) :
    Shaped t lo h x2 ∧ Ins k (inorder x) (inorder x2) := by
  rcases insert_non_full_fuel_spec ht k h fuel lo x hfuel hs hnf hsorted with
    ⟨x3, hx3, h1, h2⟩ | ⟨hnone, _⟩
  · rw [hv] at hx3
    cases hx3
    exact ⟨h1, h2⟩
  · rw [hv] at hnone
    cases hnone

/-! ## Heights and the effect of `BTree::insert` -/

theorem Ins.perm {k : Int} {old new : List Int} (h : Ins k old new) : new.Perm (k :: old) := by
  obtain ⟨l, r, rfl, rfl, _, _⟩ := h
  exact List.perm_middle

theorem Ins.sorted {k : Int} {old new : List Int} (h : Ins k old new)
    (hs : old.Pairwise (· ≤ ·)) : new.Pairwise (· ≤ ·) := by
  obtain ⟨l, r, rfl, rfl, hl, hr⟩ := h
  obtain ⟨h1, h2, h3⟩ := List.pairwise_append.mp hs
  refine List.pairwise_append.mpr ⟨h1, List.pairwise_cons.mpr ⟨hr, h2⟩, ?_⟩
  intro a ha b hb
  rcases List.mem_cons.mp hb with hb | hb
  · subst hb; exact hl a ha
  · exact h3 a ha b hb

theorem Ins.length {k : Int} {old new : List Int} (h : Ins k old new) :
    new.length = old.length + 1 := by
  obtain ⟨l, r, rfl, rfl, _, _⟩ := h
  simp only [List.length_append, List.length_cons]
  omega

theorem height_mk (ks : List Int) (t : Nat) (lf : Bool) (cs : List BTreeNode) :
    height (mk ks t lf cs) = heightList cs + 1 := by
  simp [height]

theorem heightList_const {h : Nat} : ∀ (cs : List BTreeNode), cs ≠ [] →
    (∀ c ∈ cs, height c = h) → heightList cs = h := by
  intro cs
  induction cs with
  | nil => intro hne; exact absurd rfl hne
  | cons c cs ih =>
    intro _ hall
    have hc := hall c (List.mem_cons_self _ _)
    cases cs with
    | nil => simp [heightList, hc]
    | cons c1 cs =>
      have := ih (by simp) (fun d hd => hall d (List.mem_cons_of_mem _ hd))
      rw [heightList, hc, this, Nat.max_self]

theorem height_of_shaped {t : Nat} : ∀ (h lo : Nat) (x : BTreeNode), Shaped t lo h x →
    height x = h := by
  intro h
  induction h with
  | zero => intro lo x hs; exact absurd hs (by simp [Shaped])
  | succ h ih =>
    intro lo x hs
    obtain ⟨ks, xt, lf, cs⟩ := x
    match h, hs, ih with
    | 0, hs, _ =>
      obtain ⟨_, _, _, _, hcs⟩ := hs
      simp only [children_mk] at hcs
      subst hcs
      simp [height_mk, heightList]
    | h + 1, hs, ih =>
      obtain ⟨_, _, _, _, _, hlen, hch⟩ := hs
      simp only [children_mk, n_mk] at hlen hch
      rw [height_mk, heightList_const cs (by intro e; rw [e] at hlen; simp at hlen)
        (fun c hc => ih (t - 1) c (hch c hc))]

theorem insert_non_full_spec {t : Nat} (ht : 2 ≤ t) (k : Int) {h lo : Nat} {x : BTreeNode}
    (hs : Shaped t lo h x) (hnf : x.n + 1 < 2 * t) (hsorted : (inorder x).Pairwise (· ≤ ·)) :
    (∃ x2, insert_non_full x k = some x2 ∧ Shaped t lo h x2 ∧
      Ins k (inorder x) (inorder x2)) ∨
    (insert_non_full x k = none ∧
      ∃ c ∈ (insert_non_full_log (height x) x k).1, c.out_of_bounds) := by
  unfold insert_non_full
  rw [height_of_shaped h lo x hs]
  exact insert_non_full_fuel_spec ht k h h lo x (le_refl _) hs hnf hsorted

end BTreeNode

namespace BTree
open BTreeNode

theorem inv_new {t : Nat} (ht : 2 ≤ t) : Inv t 1 (new t) :=
  ⟨rfl, ⟨rfl, Nat.zero_le _, by simp only [new, create, n_mk, List.length_nil]; omega, rfl, rfl⟩,
    by simp [new, create, inorder_mk]⟩

/-- The effect of `insert` on a tree that satisfies the invariant: either it
has a value, a tree that satisfies the invariant, one level higher if the root
was full, with `k` put in at a sorted place, or it has none and one of the
calls it made is a `split_child` that accesses a slot outside the arrays. -/
theorem insert_spec {t : Nat} (ht : 2 ≤ t) {h : Nat} {T : BTree} (hinv : Inv t h T) (k : Int) :
    (∃ T2, T.insert k = some T2 ∧ Inv t (if T.root.is_full = true then h + 1 else h) T2 ∧
      Ins k (inorder T.root) (inorder T2.root)) ∨
    (T.insert k = none ∧ T.insert_out_of_bounds k) := by
  obtain ⟨root, Tt⟩ := T
  obtain ⟨hTt, hs, hsorted⟩ := hinv
  simp only at hTt hs hsorted ⊢
  subst hTt
  by_cases hfull : root.is_full = true
  · have hfull2 : root.n + 1 = 2 * Tt := by rw [← hs.t_eq]; exact (is_full_iff root).mp hfull
    obtain ⟨m, y1, z, hsplit, hy1, hz, hy1n, hzn, hyin⟩ :=
      split_child_spec (x := BTreeNode.mk [] Tt false [root]) (i := 0) (y := root) ht rfl rfl
        (Nat.zero_le _) (by simp only [n_mk, List.length_nil]; omega) (hs.mono (by omega)) hfull2
    have hpos := hs.pos
    obtain ⟨h, rfl⟩ : ∃ h1, h = h1 + 1 := ⟨h - 1, by omega⟩
    have hshape : Shaped Tt 0 (h + 2) (BTreeNode.mk [m] Tt false [y1, z]) := by
      refine ⟨rfl, Nat.zero_le _, by simp only [n_mk, List.length_singleton]; omega, rfl,
        by simp, by simp, ?_⟩
      intro c hc
      simp only [children_mk, List.mem_cons, List.mem_singleton, List.not_mem_nil,
        or_false] at hc
      rcases hc with e | e
      · subst e; exact hy1
      · subst e; exact hz
    have hin : inorder (BTreeNode.mk [m] Tt false [y1, z]) = inorder root := by
      rw [hyin]; simp [inorder_mk, inorderChildren]
    simp only [keys_mk, is_leaf_mk, children_mk, insertAt, List.take_nil, List.drop_nil,
      List.nil_append, List.take_zero, List.drop_succ_cons, List.drop_zero] at hsplit
    rcases insert_non_full_spec ht k hshape
      (by simp only [n_mk, List.length_singleton]; omega) (by rw [hin]; exact hsorted) with
      ⟨x2, hx2, hx2s, hx2i⟩ | ⟨hnone, d, hd, hdo⟩
    · left
      refine ⟨⟨x2, Tt⟩, ?_, ?_, ?_⟩
      · simp only [insert, hfull, if_true]
        simp [hsplit, hx2]
      · rw [if_pos hfull]
        exact ⟨rfl, hx2s, hx2i.sorted (by rw [hin]; exact hsorted)⟩
      · rw [← hin]; exact hx2i
    · right
      refine ⟨?_, d, ?_, hdo⟩
      · simp only [insert, hfull, if_true]
        simp [hsplit, hnone]
      · simp only [insert_log, hfull, if_true, hsplit]
        exact List.mem_cons_of_mem _ hd
  · have hnf : root.n + 1 < 2 * Tt := by
      have h1 := hs.n_le
      have h2 : ¬ (root.n + 1 = 2 * Tt) := by
        rw [← hs.t_eq]; exact fun e => hfull ((is_full_iff root).mpr e)
      omega
    rcases insert_non_full_spec ht k hs hnf hsorted with
      ⟨x2, hx2, hx2s, hx2i⟩ | ⟨hnone, d, hd, hdo⟩
    · left
      refine ⟨⟨x2, Tt⟩, ?_, ?_, hx2i⟩
      · simp [insert, hfull, hx2]
      · rw [if_neg hfull]
        exact ⟨rfl, hx2s, hx2i.sorted hsorted⟩
    · right
      refine ⟨by simp [insert, hfull, hnone], d, ?_, hdo⟩
      simp only [insert_log, hfull, Bool.false_eq_true, if_false]
      exact hd

/-- Where `insert` has a value on a tree that satisfies the invariant, the
value satisfies the invariant and holds `k` in addition. -/
theorem insert_some {t : Nat} (ht : 2 ≤ t) {h : Nat} {T T2 : BTree} (hinv : Inv t h T)
    {k : Int} (hv : T.insert k = some T2) :
    Inv t (if T.root.is_full = true then h + 1 else h) T2 ∧
      Ins k (inorder T.root) (inorder T2.root) := by
  rcases insert_spec ht hinv k with ⟨T3, hT3, h1, h2⟩ | ⟨hnone, _⟩
  · rw [hv] at hT3
    cases hT3
    exact ⟨h1, h2⟩
  · rw [hv] at hnone
    cases hnone

/-- The effect of a run of insertions on a tree that satisfies the invariant:
either it has a value, a tree that satisfies the invariant and holds the keys
of the list in addition, or it has none and one of the insertions made a
`split_child` that accesses a slot outside the arrays. -/
theorem insertAll_spec {t : Nat} (ht : 2 ≤ t) : ∀ (L : List Int) (h : Nat) (T : BTree),
    Inv t h T →
    (∃ T2 h2, T.insertAll L = some T2 ∧ Inv t h2 T2 ∧
      (inorder T2.root).Perm (inorder T.root ++ L)) ∨
    (T.insertAll L = none ∧ T.out_of_bounds L) := by
  intro L
  induction L with
  | nil => intro h T hinv; exact Or.inl ⟨T, h, rfl, hinv, by simp⟩
  | cons k L ih =>
    intro h T hinv
    rcases insert_spec ht hinv k with ⟨T1, hT1, hinv1, hins⟩ | ⟨hnone, ho⟩
    · rcases ih _ T1 hinv1 with ⟨T2, h2, hT2, hinv2, hperm⟩ | ⟨hnone, P, k1, R, T3, hL, hP, ho⟩
      · left
        refine ⟨T2, h2, by simp [insertAll, hT1, hT2], hinv2, ?_⟩
        refine hperm.trans ?_
        refine ((hins.perm).append_right L).trans ?_
        simp only [List.cons_append]
        exact List.perm_middle.symm
      · right
        exact ⟨by simp [insertAll, hT1, hnone], k :: P, k1, R, T3, by rw [hL]; rfl,
          by simp [insertAll, hT1, hP], ho⟩
    · right
      exact ⟨by simp [insertAll, hnone], [], k, L, T, rfl, rfl, ho⟩

theorem build_spec {t : Nat} (ht : 2 ≤ t) (L : List Int) :
    (∃ T h, build t L = some T ∧ Inv t h T ∧ (inorder T.root).Perm L) ∨
    (build t L = none ∧ (new t).out_of_bounds L) := by
  rcases insertAll_spec ht L 1 (new t) (inv_new ht) with ⟨T, h, hT, hinv, hperm⟩ | hn
  · left
    refine ⟨T, h, hT, hinv, ?_⟩
    simpa [new, create, inorder_mk] using hperm
  · exact Or.inr hn

/-- A tree built by a run of insertions that has a value satisfies the
invariant and holds the keys of the list. -/
theorem build_inv {t : Nat} (ht : 2 ≤ t) {L : List Int} {T : BTree} (hT : build t L = some T) :
    ∃ h, Inv t h T ∧ (inorder T.root).Perm L := by
  rcases build_spec ht L with ⟨T1, h, hT1, hinv, hperm⟩ | ⟨hnone, _⟩
  · rw [hT] at hT1
    cases hT1
    exact ⟨h, hinv, hperm⟩
  · rw [hT] at hnone
    cases hnone

end BTree

namespace BTreeNode

/-! ## The bound on the nesting of `insert_non_full` is never reached -/

theorem height_le_heightList {c : BTreeNode} : ∀ (cs : List BTreeNode), c ∈ cs →
    height c ≤ heightList cs := by
  intro cs
  induction cs with
  | nil => intro h; simp at h
  | cons d cs ih =>
    intro h
    rw [heightList]
    rcases List.mem_cons.mp h with e | e
    · subst e; exact Nat.le_max_left _ _
    · exact le_trans (ih e) (Nat.le_max_right _ _)

theorem heightList_le {m : Nat} : ∀ (cs : List BTreeNode), (∀ c ∈ cs, height c ≤ m) →
    heightList cs ≤ m := by
  intro cs
  induction cs with
  | nil => intro _; simp [heightList]
  | cons d cs ih =>
    intro h
    rw [heightList]
    exact Nat.max_le.mpr ⟨h d (List.mem_cons_self _ _),
      ih (fun c hc => h c (List.mem_cons_of_mem _ hc))⟩

theorem heightList_mono {cs ds : List BTreeNode} (h : ∀ c ∈ cs, c ∈ ds) :
    heightList cs ≤ heightList ds :=
  heightList_le cs (fun c hc => height_le_heightList ds (h c hc))

theorem readSlots_mem {α : Type} {l r : List α} {lo len : Nat}
    (h : readSlots l lo len = some r) : ∀ a ∈ r, a ∈ l := by
  unfold readSlots at h
  split at h
  · cases h
    intro a ha
    exact List.mem_of_mem_drop (List.mem_of_mem_take ha)
  · cases h

/-- The form of the result of a split. -/
theorem split_child_form {x x1 : BTreeNode} {i : Nat} (h : split_child x i = some x1) :
    ∃ y m zk zc, x.children[i]? = some y ∧ (∀ a ∈ zc, a ∈ y.children) ∧
      x1 = mk (insertAt x.keys i m) x.t x.is_leaf
        (x.children.take i ++ mk (y.keys.take (x.t - 1)) y.t y.is_leaf (y.children.take x.t) ::
          mk zk x.t y.is_leaf zc :: x.children.drop (i + 1)) := by
  have hg : i ≤ x.n ∧ (split_child_accesses x.n i).all (Access.in_array x.t) = true := by
    obtain ⟨h1, h2⟩ := split_child_room h
    exact ⟨h1, (accesses_in_array _ _ _ h1).mpr h2⟩
  unfold split_child at h
  simp only [Option.bind_eq_bind, if_pos hg] at h
  cases hy : x.children[i]? with
  | none => simp only [hy, Option.none_bind] at h; cases h
  | some y =>
    simp only [hy, Option.some_bind] at h
    cases hm : y.keys[x.t - 1]? with
    | none => simp only [hm, Option.none_bind] at h; cases h
    | some m =>
      simp only [hm, Option.some_bind] at h
      cases hzk : readSlots y.keys x.t (x.t - 1) with
      | none => simp only [hzk, Option.none_bind] at h; cases h
      | some zk =>
        simp only [hzk, Option.some_bind] at h
        cases hlf : y.is_leaf with
        | true =>
          simp only [hlf, if_true, Option.some_bind, Option.some.injEq] at h
          exact ⟨y, m, zk, [], rfl, by simp, by rw [← h, hlf]⟩
        | false =>
          simp only [hlf, Bool.false_eq_true, if_false] at h
          cases hzc : readSlots y.children x.t x.t with
          | none => simp only [hzc, Option.none_bind] at h; cases h
          | some zc =>
            simp only [hzc, Option.some_bind, Option.some.injEq] at h
            exact ⟨y, m, zk, zc, rfl, readSlots_mem hzc, by rw [← h, hlf]⟩

/-- After a split every child of the node is no higher than the children before. -/
theorem split_child_height {x x1 : BTreeNode} {i : Nat} (h : split_child x i = some x1) :
    ∀ c ∈ x1.children, height c ≤ heightList x.children := by
  obtain ⟨y, m, zk, zc, hy, hzmem, rfl⟩ := split_child_form h
  have hymem : y ∈ x.children := by
    obtain ⟨hi, e⟩ := List.getElem?_eq_some.mp hy
    exact e ▸ List.getElem_mem _
  have hyh := height_le_heightList x.children hymem
  obtain ⟨yks, yt, ylf, ycs⟩ := y
  simp only [keys_mk, t_mk, is_leaf_mk, children_mk] at hzmem ⊢
  rw [height_mk] at hyh
  intro c hc
  rcases mem_splice hc with e | e | e
  · subst e
    rw [height_mk]
    have := @heightList_mono (ycs.take x.t) ycs (fun a ha => List.mem_of_mem_take ha)
    omega
  · subst e
    rw [height_mk]
    have := heightList_mono hzmem
    omega
  · exact height_le_heightList x.children e

theorem mem_of_getElem {cs : List BTreeNode} {i : Nat} {c : BTreeNode}
    (h : cs[i]? = some c) : c ∈ cs := by
  obtain ⟨hi, e⟩ := List.getElem?_eq_some.mp h
  exact e ▸ List.getElem_mem _

/-- One more unit of the bound changes nothing once the bound is at least the
height of the node. -/
theorem insert_non_full_fuel_succ (k : Int) : ∀ (f : Nat) (x : BTreeNode), height x ≤ f →
    insert_non_full_fuel (f + 1) x k = insert_non_full_fuel f x k := by
  intro f
  induction f with
  | zero =>
    intro x hx
    obtain ⟨ks, xt, lf, cs⟩ := x
    rw [height_mk] at hx
    omega
  | succ f ih =>
    intro x hx
    obtain ⟨ks, xt, lf, cs⟩ := x
    rw [height_mk] at hx
    have hcs : heightList cs ≤ f := by omega
    rw [insert_non_full_fuel, insert_non_full_fuel]
    simp only [keys_mk, n_mk, is_leaf_mk, children_mk, t_mk]
    cases lf with
    | true => rfl
    | false =>
      simp only [Bool.false_eq_true, if_false]
      cases hc : cs[scanDown ks k ks.length]? with
      | none => rfl
      | some c =>
        simp only [Option.bind_eq_bind, Option.some_bind]
        by_cases hfull : c.is_full = true
        · simp only [hfull, if_true]
          cases hsplit : split_child (mk ks xt false cs) (scanDown ks k ks.length) with
          | none => rfl
          | some x1 =>
            simp only [Option.some_bind]
            cases hm : x1.keys[scanDown ks k ks.length]? with
            | none => rfl
            | some m =>
              simp only [Option.some_bind]
              cases hc1 : x1.children[if k > m then scanDown ks k ks.length + 1
                  else scanDown ks k ks.length]? with
              | none => rfl
              | some c1 =>
                simp only [Option.some_bind]
                have := split_child_height hsplit c1 (mem_of_getElem hc1)
                simp only [children_mk] at this
                rw [ih c1 (by omega)]
        · simp only [hfull, Bool.false_eq_true, if_false]
          have := height_le_heightList cs (mem_of_getElem hc)
          rw [ih c (by omega)]

/-- The method `insert_non_full` does not depend on the bound, as long as the
bound is at least the height of the node. -/
theorem insert_non_full_fuel_stable (k : Int) (x : BTreeNode) : ∀ (d : Nat),
    insert_non_full_fuel (height x + d) x k = insert_non_full x k := by
  intro d
  induction d with
  | zero => rfl
  | succ d ih =>
    rw [← ih, ← Nat.add_assoc]
    exact insert_non_full_fuel_succ k (height x + d) x (Nat.le_add_right _ _)

/-! ## The effect of `search` -/

theorem searchScan_spec (k : Int) : ∀ (ks : List Int),
    searchScan k ks ≤ ks.length ∧ (∀ key ∈ ks.take (searchScan k ks), key < k) ∧
    (∀ key, (ks.drop (searchScan k ks)).head? = some key → k ≤ key) := by
  intro ks
  induction ks with
  | nil => simp [searchScan]
  | cons a rest ih =>
    obtain ⟨ih1, ih2, ih3⟩ := ih
    by_cases hk : k > a
    · simp only [searchScan, hk, if_true, List.length_cons, List.take_succ_cons,
        List.drop_succ_cons, List.mem_cons]
      refine ⟨by omega, ?_, ih3⟩
      rintro key (e | e)
      · subst e; exact hk
      · exact ih2 key e
    · simp only [searchScan, hk, if_false, List.take_zero, List.drop_zero, List.head?_cons]
      refine ⟨Nat.zero_le _, by simp, ?_⟩
      intro key e
      cases e
      exact not_lt.mp hk

theorem search_mk (ks : List Int) (t : Nat) (lf : Bool) (cs : List BTreeNode) (k : Int) :
    search (mk ks t lf cs) k =
      if ks[searchScan k ks]? = some k then SearchResult.found (mk ks t lf cs)
      else if lf then SearchResult.absent
      else searchChild cs (searchScan k ks) k := by
  simp [search]

theorem searchChild_eq (k : Int) : ∀ (cs : List BTreeNode) (i : Nat) (c : BTreeNode),
    cs[i]? = some c → searchChild cs i k = search c k := by
  intro cs
  induction cs with
  | nil => intro i c h; simp at h
  | cons c0 cs ih =>
    intro i c h
    cases i with
    | zero =>
      simp at h
      subst h
      simp [searchChild]
    | succ i =>
      simp only [List.getElem?_cons_succ] at h
      simp [searchChild, ih i c h]

/-- Below a sorted node, `search` finds exactly the keys of the in-order traversal. -/
theorem search_spec {t : Nat} (k : Int) : ∀ (h lo : Nat) (x : BTreeNode), Shaped t lo h x →
    (inorder x).Pairwise (· ≤ ·) →
    (k ∈ inorder x → ∃ r, search x k = SearchResult.found r ∧ k ∈ r.keys) ∧
    (k ∉ inorder x → search x k = SearchResult.absent) := by
  intro h
  induction h with
  | zero => intro lo x hs; exact absurd hs (by simp [Shaped])
  | succ h ih =>
    intro lo x hs hsorted
    obtain ⟨ks, xt, lf, cs⟩ := x
    obtain ⟨hp1, hp2, hp3⟩ := searchScan_spec k ks
    rw [search_mk]
    by_cases hfound : ks[searchScan k ks]? = some k
    · rw [if_pos hfound]
      have hmem : k ∈ ks := by
        obtain ⟨hi, e⟩ := List.getElem?_eq_some.mp hfound
        exact e ▸ List.getElem_mem _
      refine ⟨fun _ => ⟨_, rfl, hmem⟩, fun hn => absurd ?_ hn⟩
      match h, hs with
      | 0, hs =>
        have hlf : lf = true := hs.2.2.2.1
        subst hlf
        simpa [inorder_mk] using hmem
      | h + 1, hs =>
        have hlf : lf = false := hs.2.2.2.1
        subst hlf
        have hlen : cs.length = ks.length + 1 := hs.2.2.2.2.2.1
        obtain ⟨c, hc⟩ : ∃ c, cs[searchScan k ks]? = some c :=
          ⟨_, List.getElem?_eq_getElem (by omega)⟩
        rw [inorder_at_self xt hlen hc]
        rw [← List.head?_drop] at hfound
        obtain ⟨Q, hQ⟩ := inPost_head _ _ k (decomp_at hlen hc).2.2.2 hfound
        rw [hQ]
        simp
    · rw [if_neg hfound]
      have hstrict : ∀ key, (ks.drop (searchScan k ks)).head? = some key → k + 1 ≤ key := by
        intro key hkey
        have h1 := hp3 key hkey
        have h2 : key ≠ k := by
          intro e
          subst e
          rw [List.head?_drop] at hkey
          exact hfound hkey
        omega
      have hleft : ∀ key, (ks.take (searchScan k ks)).getLast? = some key → key ≤ k - 1 := by
        intro key hkey
        have := hp2 key (List.mem_of_getLast?_eq_some hkey)
        omega
      match h, hs, ih with
      | 0, hs, _ =>
        have hlf : lf = true := hs.2.2.2.1
        subst hlf
        simp only [inorder_mk, if_true] at hsorted ⊢
        have hnot : k ∉ ks := by
          intro hmem
          rw [← List.take_append_drop (searchScan k ks) ks] at hmem
          rcases List.mem_append.mp hmem with hm | hm
          · exact absurd (hp2 k hm) (lt_irrefl _)
          · have hs2 : (ks.drop (searchScan k ks)).Pairwise (· ≤ ·) :=
              hsorted.sublist (List.drop_sublist _ _)
            have := ge_of_head hs2 hstrict k hm
            omega
        exact ⟨fun hm => absurd hm hnot, fun _ => trivial⟩
      | h + 1, hs, ih =>
        have hlf : lf = false := hs.2.2.2.1
        subst hlf
        have hlen : cs.length = ks.length + 1 := hs.2.2.2.2.2.1
        have hch : ∀ c ∈ cs, Shaped t (t - 1) (h + 1) c := hs.2.2.2.2.2.2
        obtain ⟨c, hc⟩ : ∃ c, cs[searchScan k ks]? = some c :=
          ⟨_, List.getElem?_eq_getElem (by omega)⟩
        have hcmem : c ∈ cs := by
          obtain ⟨hi, e⟩ := List.getElem?_eq_some.mp hc
          exact e ▸ List.getElem_mem _
        obtain ⟨_, _, h3, h4⟩ := decomp_at hlen hc
        simp only [Bool.false_eq_true, if_false]
        rw [searchChild_eq k cs _ c hc]
        obtain ⟨ihf, iha⟩ := ih (t - 1) c (hch c hcmem) (child_sorted hlen hc hsorted)
        have hiff : k ∈ inorder (mk ks xt false cs) → k ∈ inorder c := by
          rw [inorder_at_self xt hlen hc] at hsorted ⊢
          intro hm
          rcases List.mem_append.mp hm with hm | hm
          · have := inPre_le h3 hsorted hleft k hm
            omega
          · rcases List.mem_append.mp hm with hm | hm
            · exact hm
            · have hs2 := (List.pairwise_append.mp (List.pairwise_append.mp hsorted).2.1).2.1
              have := inPost_ge h4 hs2 hstrict k hm
              omega
        have hiff2 : k ∈ inorder c → k ∈ inorder (mk ks xt false cs) := by
          rw [inorder_at_self xt hlen hc]
          intro hm
          exact List.mem_append_right _ (List.mem_append_left _ hm)
        exact ⟨fun hm => ihf (hiff hm), fun hn => iha (fun hm => hn (hiff2 hm))⟩

/-! ## Walking over the nodes of a subtree -/

theorem nodes_eq (x : BTreeNode) : nodes x = x :: nodesList x.children := by
  cases x; simp [nodes]

theorem mem_nodesList {y : BTreeNode} : ∀ (cs : List BTreeNode),
    y ∈ nodesList cs ↔ ∃ c ∈ cs, y ∈ nodes c := by
  intro cs
  induction cs with
  | nil => simp [nodesList]
  | cons c cs ih => simp [nodesList, ih]

theorem mem_leafDepthsList {d d0 : Nat} : ∀ (cs : List BTreeNode),
    d ∈ leafDepthsList cs d0 ↔ ∃ c ∈ cs, d ∈ leafDepths c d0 := by
  intro cs
  induction cs with
  | nil => simp [leafDepthsList]
  | cons c cs ih => simp [leafDepthsList, ih]

/-- Every node strictly below a well-shaped node is a well-shaped non-root node. -/
theorem shaped_below {t : Nat} : ∀ (h lo : Nat) (x : BTreeNode), Shaped t lo h x →
    ∀ y ∈ nodesList x.children, ∃ h1, Shaped t (t - 1) h1 y := by
  intro h
  induction h with
  | zero => intro lo x hs; exact absurd hs (by simp [Shaped])
  | succ h ih =>
    intro lo x hs y hy
    match h, hs, ih with
    | 0, hs, _ =>
      rw [hs.2.2.2.2] at hy
      simp [nodesList] at hy
    | h + 1, hs, ih =>
      obtain ⟨c, hc, hyc⟩ := (mem_nodesList _).mp hy
      have hcs := hs.2.2.2.2.2.2 c hc
      rw [nodes_eq] at hyc
      rcases List.mem_cons.mp hyc with e | e
      · subst e; exact ⟨_, hcs⟩
      · exact ih (t - 1) c hcs y e

theorem shaped_nodes {t h lo : Nat} {x : BTreeNode} (hs : Shaped t lo h x) :
    ∀ y ∈ nodes x, ∃ lo1 h1, Shaped t lo1 h1 y := by
  intro y hy
  rw [nodes_eq] at hy
  rcases List.mem_cons.mp hy with e | e
  · subst e; exact ⟨_, _, hs⟩
  · obtain ⟨h1, hy1⟩ := shaped_below h lo x hs y e
    exact ⟨_, _, hy1⟩

theorem leafDepths_of_shaped {t : Nat} : ∀ (h lo : Nat) (x : BTreeNode) (d0 : Nat),
    Shaped t lo h x → ∀ d ∈ leafDepths x d0, d + 1 = d0 + h := by
  intro h
  induction h with
  | zero => intro lo x d0 hs; exact absurd hs (by simp [Shaped])
  | succ h ih =>
    intro lo x d0 hs d hd
    obtain ⟨ks, xt, lf, cs⟩ := x
    match h, hs, ih with
    | 0, hs, _ =>
      have hlf : lf = true := hs.2.2.2.1
      subst hlf
      simp [leafDepths] at hd
      omega
    | h + 1, hs, ih =>
      have hlf : lf = false := hs.2.2.2.1
      subst hlf
      simp only [leafDepths, Bool.false_eq_true, if_false] at hd
      obtain ⟨c, hc, hdc⟩ := (mem_leafDepthsList _).mp hd
      have := ih (t - 1) c (d0 + 1) (hs.2.2.2.2.2.2 c hc) d hdc
      omega

/-! ## Keys of the nodes, key counts, small trees -/

theorem keys_sublist_inorderChildren : ∀ (cs : List BTreeNode) (ks : List Int),
    ks.Sublist (inorderChildren cs ks) := by
  intro cs
  induction cs with
  | nil => intro ks; simp [inorderChildren]
  | cons c cs ih =>
    intro ks
    cases ks with
    | nil => simp
    | cons k ks =>
      simp only [inorderChildren]
      exact List.Sublist.trans ((ih ks).cons₂ k) (List.sublist_append_right _ _)

theorem keys_sublist_inorder (x : BTreeNode) : x.keys.Sublist (inorder x) := by
  obtain ⟨ks, xt, lf, cs⟩ := x
  rw [inorder_mk]
  cases lf with
  | true => simp
  | false => simpa using keys_sublist_inorderChildren cs ks

theorem inorder_of_leaf {t lo : Nat} {x : BTreeNode} (hs : Shaped t lo 1 x) :
    inorder x = x.keys := by
  obtain ⟨ks, xt, lf, cs⟩ := x
  have hlf : lf = true := hs.2.2.2.1
  subst hlf
  simp [inorder_mk]

theorem node_keys_sorted {t : Nat} : ∀ (h lo : Nat) (x : BTreeNode), Shaped t lo h x →
    (inorder x).Pairwise (· ≤ ·) → ∀ y ∈ nodes x, y.keys.Pairwise (· ≤ ·) := by
  intro h
  induction h with
  | zero => intro lo x hs; exact absurd hs (by simp [Shaped])
  | succ h ih =>
    intro lo x hs hsorted y hy
    rw [nodes_eq] at hy
    rcases List.mem_cons.mp hy with e | e
    · subst e; exact hsorted.sublist (keys_sublist_inorder y)
    · match h, hs, ih with
      | 0, hs, _ =>
        rw [hs.2.2.2.2] at e
        simp [nodesList] at e
      | h + 1, hs, ih =>
        obtain ⟨ks, xt, lf, cs⟩ := x
        have hlf : lf = false := hs.2.2.2.1
        subst hlf
        have hlen : cs.length = ks.length + 1 := hs.2.2.2.2.2.1
        obtain ⟨c, hc, hyc⟩ := (mem_nodesList _).mp e
        simp only [children_mk] at hc
        obtain ⟨i, hi⟩ := List.getElem?_of_mem hc
        exact ih (t - 1) c (hs.2.2.2.2.2.2 c hc) (child_sorted hlen hi hsorted) y hyc

theorem keyCount_mk (ks : List Int) (t : Nat) (lf : Bool) (cs : List BTreeNode) :
    keyCount (mk ks t lf cs) = ks.length + ((nodesList cs).map n).sum := by
  simp [keyCount, nodes]

theorem length_inorderChildren : ∀ (cs : List BTreeNode) (ks : List Int),
    cs.length = ks.length + 1 → (∀ c ∈ cs, keyCount c = (inorder c).length) →
    (inorderChildren cs ks).length = ks.length + ((nodesList cs).map n).sum := by
  intro cs
  induction cs with
  | nil => intro ks h; simp at h
  | cons c cs ih =>
    intro ks hlen hall
    have hc := hall c (List.mem_cons_self _ _)
    cases ks with
    | nil =>
      have : cs = [] := List.length_eq_zero.mp (by simpa using hlen)
      subst this
      simp only [inorderChildren, nodesList, List.append_nil, List.length_nil, Nat.zero_add]
      rw [← hc]; rfl
    | cons k ks =>
      simp only [List.length_cons, Nat.add_right_cancel_iff] at hlen
      have := ih ks hlen (fun d hd => hall d (List.mem_cons_of_mem _ hd))
      simp only [inorderChildren, nodesList, List.length_append, List.length_cons, this,
        List.map_append, List.sum_append, ← hc]
      simp only [keyCount]
      omega

theorem keyCount_of_shaped {t : Nat} : ∀ (h lo : Nat) (x : BTreeNode), Shaped t lo h x →
    keyCount x = (inorder x).length := by
  intro h
  induction h with
  | zero => intro lo x hs; exact absurd hs (by simp [Shaped])
  | succ h ih =>
    intro lo x hs
    obtain ⟨ks, xt, lf, cs⟩ := x
    match h, hs, ih with
    | 0, hs, _ =>
      have hlf : lf = true := hs.2.2.2.1
      have hcs : cs = [] := hs.2.2.2.2
      subst hlf hcs
      simp [keyCount_mk, inorder_mk, nodesList]
    | h + 1, hs, ih =>
      have hlf : lf = false := hs.2.2.2.1
      subst hlf
      have hlen : cs.length = ks.length + 1 := hs.2.2.2.2.2.1
      rw [keyCount_mk, inorder_mk]
      simp only [Bool.false_eq_true, if_false]
      rw [length_inorderChildren cs ks hlen (fun c hc => ih (t - 1) c (hs.2.2.2.2.2.2 c hc))]

end BTreeNode

namespace BTree
open BTreeNode

theorem insertAll_append : ∀ (P Q : List Int) (T : BTree),
    T.insertAll (P ++ Q) = (T.insertAll P).bind fun T1 => T1.insertAll Q := by
  intro P
  induction P with
  | nil => intro Q T; simp [insertAll]
  | cons k P ih =>
    intro Q T
    simp only [List.cons_append, insertAll]
    cases T.insert k with
    | none => simp
    | some T1 => simp [ih Q T1]

/-- An insertion into a leaf root that is not full has a value. -/
theorem insert_leaf {t : Nat} {T : BTree} (hinv : Inv t 1 T) (hnf : T.root.n + 1 < 2 * t)
    (k : Int) : ∃ T2, T.insert k = some T2 := by
  obtain ⟨root, Tt⟩ := T
  obtain ⟨ks, xt, lf, cs⟩ := root
  obtain ⟨_, ⟨hxt, _, _, hlf, hcs⟩, _⟩ := hinv
  simp only [t_mk, is_leaf_mk, children_mk, n_mk] at hxt hlf hcs hnf
  subst hxt hlf hcs
  have hfull : ¬ (ks.length + 1 = 2 * xt) := by omega
  have hroom : ks.length < 2 * xt - 1 := by omega
  refine ⟨⟨BTreeNode.mk (insertAt ks (scanDown ks k ks.length) k) xt true [], Tt⟩, ?_⟩
  simp [insert, is_full, hfull, insert_non_full, height_mk, heightList,
    insert_non_full_fuel_leaf, hroom]

/-- Insertions into a leaf root that has room for all of them leave a leaf root. -/
theorem insertAll_leaf {t : Nat} (ht : 2 ≤ t) : ∀ (L : List Int) (T : BTree), Inv t 1 T →
    T.root.n + L.length + 1 ≤ 2 * t →
    ∃ T2, T.insertAll L = some T2 ∧ Inv t 1 T2 ∧ T2.root.n = T.root.n + L.length := by
  intro L
  induction L with
  | nil => intro T hinv _; exact ⟨T, rfl, hinv, rfl⟩
  | cons k L ih =>
    intro T hinv hlen
    simp only [List.length_cons] at hlen
    have hnf : ¬ (T.root.is_full = true) := by
      rw [is_full_iff, hinv.2.1.t_eq]; omega
    obtain ⟨T1, hT1⟩ := insert_leaf hinv (by omega) k
    obtain ⟨hinv1, hins⟩ := insert_some ht hinv hT1
    rw [if_neg hnf] at hinv1
    have hn1 : T1.root.n = T.root.n + 1 := by
      have := hins.length
      rw [inorder_of_leaf hinv1.2.1, inorder_of_leaf hinv.2.1] at this
      exact this
    obtain ⟨T2, hT2, hinv2, hn2⟩ := ih T1 hinv1 (by omega)
    refine ⟨T2, by simp [insertAll, hT1, hT2], hinv2, ?_⟩
    rw [hn2, hn1, List.length_cons]; omega

end BTree

namespace AddrNode

/-! ## The tagged operations are the operations of the embedding -/

theorem eraseList_eq_map : ∀ (cs : List AddrNode), eraseList cs = cs.map erase := by
  intro cs
  induction cs with
  | nil => rfl
  | cons c cs ih => simp [eraseList, ih]

theorem erase_mk (a : Nat) (ks : List Int) (t : Nat) (lf : Bool) (cs : List AddrNode) :
    erase (mk a ks t lf cs) = BTreeNode.mk ks t lf (cs.map erase) := by
  simp [erase, eraseList_eq_map]

@[simp]
theorem addr_mk (a : Nat) (ks : List Int) (t : Nat) (lf : Bool) (cs : List AddrNode) :
    (mk a ks t lf cs).addr = a := rfl

@[simp]
theorem tagged_keys_mk (a : Nat) (ks : List Int) (t : Nat) (lf : Bool) (cs : List AddrNode) :
    (mk a ks t lf cs).keys = ks := rfl

@[simp]
theorem tagged_t_mk (a : Nat) (ks : List Int) (t : Nat) (lf : Bool) (cs : List AddrNode) :
    (mk a ks t lf cs).t = t := rfl

@[simp]
theorem tagged_is_leaf_mk (a : Nat) (ks : List Int) (t : Nat) (lf : Bool) (cs : List AddrNode) :
    (mk a ks t lf cs).is_leaf = lf := rfl

@[simp]
theorem tagged_children_mk (a : Nat) (ks : List Int) (t : Nat) (lf : Bool) (cs : List AddrNode) :
    (mk a ks t lf cs).children = cs := rfl

@[simp]
theorem tagged_n_mk (a : Nat) (ks : List Int) (t : Nat) (lf : Bool) (cs : List AddrNode) :
    (mk a ks t lf cs).n = ks.length := rfl

theorem erase_is_full (x : AddrNode) : (erase x).is_full = x.is_full := by
  obtain ⟨a, ks, t, lf, cs⟩ := x
  simp [erase_mk, is_full, BTreeNode.is_full]

theorem readSlots_map {α β : Type} (f : α → β) (l : List α) (lo len : Nat) :
    BTreeNode.readSlots (l.map f) lo len = (BTreeNode.readSlots l lo len).map (List.map f) := by
  unfold BTreeNode.readSlots
  by_cases h : lo + len ≤ l.length
  · simp [h, List.map_take, List.map_drop]
  · simp [h]

theorem insertAt_map {α β : Type} (f : α → β) (l : List α) (i : Nat) (a : α) :
    (BTreeNode.insertAt l i a).map f = BTreeNode.insertAt (l.map f) i (f a) := by
  simp [BTreeNode.insertAt, List.map_take, List.map_drop]

/-- Without the addresses, the tagged `split_child` is `split_child`. -/
theorem erase_split_child (next : Nat) (x : AddrNode) (i : Nat) :
    (split_child next x i).map erase = BTreeNode.split_child (erase x) i := by
  obtain ⟨a, ks, t, lf, cs⟩ := x
  simp only [split_child, BTreeNode.split_child, erase_mk, tagged_children_mk, tagged_t_mk, tagged_keys_mk, tagged_n_mk,
    tagged_is_leaf_mk, BTreeNode.children_mk, BTreeNode.t_mk, BTreeNode.keys_mk, BTreeNode.n_mk,
    BTreeNode.is_leaf_mk, List.getElem?_map, Option.bind_eq_bind]
  cases hy : cs[i]? with
  | none => rfl
  | some y =>
    obtain ⟨ya, yks, yt, ylf, ycs⟩ := y
    simp only [Option.map_some', Option.some_bind, erase_mk, tagged_keys_mk, tagged_t_mk, tagged_is_leaf_mk,
      tagged_children_mk, addr_mk, BTreeNode.children_mk, BTreeNode.t_mk, BTreeNode.keys_mk,
      BTreeNode.is_leaf_mk]
    cases hm : yks[t - 1]? with
    | none => rfl
    | some m =>
      simp only [Option.some_bind]
      cases hz : BTreeNode.readSlots yks t (t - 1) with
      | none => rfl
      | some zk =>
        simp only [Option.some_bind]
        cases ylf with
        | true =>
          by_cases hi : i ≤ ks.length ∧
              (BTreeNode.split_child_accesses ks.length i).all (Access.in_array t) = true
          · simp only [hi, and_self, if_true, Option.some_bind, Option.map_some', erase_mk,
              tagged_keys_mk, tagged_t_mk, tagged_is_leaf_mk, tagged_children_mk, addr_mk]
            simp [List.map_take, List.map_drop, erase_mk]
          · simp only [if_neg hi, if_true, Option.some_bind, Option.map_none']
        | false =>
          simp only [Bool.false_eq_true, if_false, readSlots_map]
          cases hzc : BTreeNode.readSlots ycs t t with
          | none => rfl
          | some zc =>
            by_cases hi : i ≤ ks.length ∧
                (BTreeNode.split_child_accesses ks.length i).all (Access.in_array t) = true
            · simp only [hi, and_self, if_true, Option.some_bind, Option.map_some', erase_mk,
                tagged_keys_mk, tagged_t_mk, tagged_is_leaf_mk, tagged_children_mk, addr_mk,
                Option.map_map]
              simp [List.map_take, List.map_drop, erase_mk]
            · simp only [if_neg hi, Option.some_bind, Option.map_none', Option.map_some']

/-- Without the addresses, the tagged `insert_non_full` is `insert_non_full`. -/
theorem erase_insert_non_full_fuel (k : Int) : ∀ (fuel next : Nat) (x : AddrNode),
    (insert_non_full_fuel fuel next x k).map (fun r => erase r.1) =
      BTreeNode.insert_non_full_fuel fuel (erase x) k := by
  intro fuel
  induction fuel with
  | zero => intro next x; rfl
  | succ fuel ih =>
    intro next x
    obtain ⟨a, ks, t, lf, cs⟩ := x
    rw [insert_non_full_fuel, erase_mk, BTreeNode.insert_non_full_fuel]
    simp only [tagged_keys_mk, tagged_n_mk, tagged_is_leaf_mk, tagged_children_mk, tagged_t_mk, addr_mk, BTreeNode.keys_mk,
      BTreeNode.n_mk, BTreeNode.is_leaf_mk, BTreeNode.children_mk, BTreeNode.t_mk,
      List.getElem?_map, Option.bind_eq_bind]
    cases lf with
    | true => simp [erase_mk]
    | false =>
      simp only [Bool.false_eq_true, if_false]
      cases hc : cs[BTreeNode.scanDown ks k ks.length]? with
      | none => rfl
      | some c =>
        simp only [Option.map_some', Option.some_bind, erase_is_full]
        by_cases hfull : c.is_full = true
        · simp only [hfull, if_true]
          have hs := erase_split_child next (mk a ks t false cs)
            (BTreeNode.scanDown ks k ks.length)
          rw [erase_mk] at hs
          rw [← hs]
          cases hsplit : split_child next (mk a ks t false cs)
              (BTreeNode.scanDown ks k ks.length) with
          | none => rfl
          | some x1 =>
            obtain ⟨a1, ks1, t1, lf1, cs1⟩ := x1
            simp only [Option.map_some', Option.some_bind, erase_mk, tagged_keys_mk, tagged_t_mk,
              tagged_is_leaf_mk, tagged_children_mk, addr_mk, BTreeNode.keys_mk, BTreeNode.t_mk,
              BTreeNode.is_leaf_mk, BTreeNode.children_mk, List.getElem?_map]
            cases hm : ks1[BTreeNode.scanDown ks k ks.length]? with
            | none => rfl
            | some m =>
              simp only [Option.some_bind]
              cases hc1 : cs1[if k > m then BTreeNode.scanDown ks k ks.length + 1
                  else BTreeNode.scanDown ks k ks.length]? with
              | none => rfl
              | some c1 =>
                simp only [Option.map_some', Option.some_bind]
                rw [← ih (next + 1) c1]
                cases hr : insert_non_full_fuel fuel (next + 1) c1 k with
                | none => rfl
                | some r => simp [erase_mk, List.map_set]
        · simp only [hfull, Bool.false_eq_true, if_false]
          rw [← ih next c]
          cases hr : insert_non_full_fuel fuel next c k with
          | none => rfl
          | some r => simp [erase_mk, List.map_set]

theorem erase_insert_non_full (k : Int) (next : Nat) (x : AddrNode) :
    (insert_non_full next x k).map (fun r => erase r.1) =
      BTreeNode.insert_non_full (erase x) k :=
  erase_insert_non_full_fuel k _ next x

end AddrNode

namespace AddrNode
open BTreeNode (readSlots insertAt scanDown)

/-! ## No node is reached through two slots -/

theorem addrs_mk (a : Nat) (ks : List Int) (t : Nat) (lf : Bool) (cs : List AddrNode) :
    addrs (mk a ks t lf cs) = a :: addrsList cs := by
  simp [addrs]

theorem addrsList_append : ∀ (A B : List AddrNode),
    addrsList (A ++ B) = addrsList A ++ addrsList B := by
  intro A
  induction A with
  | nil => intro B; simp [addrsList]
  | cons c A ih => intro B; simp [addrsList, ih]

theorem addrsList_cons (c : AddrNode) (cs : List AddrNode) :
    addrsList (c :: cs) = addrs c ++ addrsList cs := by
  simp [addrsList]

theorem addrsList_sublist {A B : List AddrNode} (h : A.Sublist B) :
    (addrsList A).Sublist (addrsList B) := by
  induction h with
  | slnil => simp
  | cons c _ ih =>
    rw [addrsList_cons]
    exact ih.trans (List.sublist_append_right _ _)
  | cons₂ c _ ih =>
    rw [addrsList_cons, addrsList_cons]
    exact List.Sublist.append (List.Sublist.refl _) ih

theorem Grows.refl {m : Nat} {l : List Nat} (h : ∀ b ∈ l, b < m) : Grows m m l l := by
  refine ⟨le_refl _, fun _ _ => le_refl _, ?_, h⟩
  intro b hb
  have : b ∉ l := fun hm => absurd (h b hm) (by omega)
  rw [List.count_eq_zero_of_not_mem this]
  omega

theorem Grows.trans {m m1 m2 : Nat} {l0 l1 l2 : List Nat} (h1 : Grows m m1 l0 l1)
    (h2 : Grows m1 m2 l1 l2) : Grows m m2 l0 l2 := by
  obtain ⟨a1, b1, c1, _⟩ := h1
  obtain ⟨a2, b2, c2, d2⟩ := h2
  refine ⟨le_trans a1 a2, ?_, ?_, d2⟩
  · intro b hb
    exact le_trans (b2 b (by omega)) (b1 b hb)
  · intro b hb
    by_cases hlt : b < m1
    · exact le_trans (b2 b hlt) (c1 b hb)
    · exact c2 b (by omega)

theorem Grows.nodup {m m2 : Nat} {old new : List Nat} (h : Grows m m2 old new)
    (hn : old.Nodup) : new.Nodup := by
  obtain ⟨_, h1, h2, _⟩ := h
  rw [List.nodup_iff_count_le_one] at hn ⊢
  intro b
  by_cases hb : b < m
  · exact le_trans (h1 b hb) (hn b)
  · exact h2 b (by omega)

/-- Replacing one part of a list of addresses by a part that grew from it. -/
theorem Grows.frame {m m2 : Nat} {P old new Q : List Nat} (h : Grows m m2 old new)
    (hP : ∀ b ∈ P, b < m) (hQ : ∀ b ∈ Q, b < m) :
    Grows m m2 (P ++ (old ++ Q)) (P ++ (new ++ Q)) := by
  obtain ⟨h0, h1, h2, h3⟩ := h
  refine ⟨h0, ?_, ?_, ?_⟩
  · intro b hb
    simp only [List.count_append]
    have := h1 b hb
    omega
  · intro b hb
    have hP0 : P.count b = 0 :=
      List.count_eq_zero_of_not_mem (fun hm => absurd (hP b hm) (by omega))
    have hQ0 : Q.count b = 0 :=
      List.count_eq_zero_of_not_mem (fun hm => absurd (hQ b hm) (by omega))
    simp only [List.count_append, hP0, hQ0]
    have := h2 b hb
    omega
  · intro b hb
    rcases List.mem_append.mp hb with hb | hb
    · exact lt_of_lt_of_le (hP b hb) h0
    · rcases List.mem_append.mp hb with hb | hb
      · exact h3 b hb
      · exact lt_of_lt_of_le (hQ b hb) h0

theorem addrs_at (cs : List AddrNode) (i : Nat) (a : Nat) (ks : List Int)
    (t : Nat) (lf : Bool) (c2 : AddrNode) :
    addrs (mk a ks t lf (cs.take i ++ c2 :: cs.drop (i + 1))) =
      (a :: addrsList (cs.take i)) ++ (addrs c2 ++ addrsList (cs.drop (i + 1))) := by
  simp [addrs_mk, addrsList_append, addrsList_cons]

theorem addrs_at_self {cs : List AddrNode} {i : Nat} {c : AddrNode} (a : Nat) (ks : List Int)
    (t : Nat) (lf : Bool) (hc : cs[i]? = some c) :
    addrs (mk a ks t lf cs) =
      (a :: addrsList (cs.take i)) ++ (addrs c ++ addrsList (cs.drop (i + 1))) := by
  have := addrs_at cs i a ks t lf c
  rwa [← (BTreeNode.split_at_index hc).1] at this

/-- Replacing child `i` by a node whose addresses grew from those of the child. -/
theorem grows_set {m m2 : Nat} {a : Nat} {ks ks2 : List Int} {t : Nat} {lf : Bool}
    {cs : List AddrNode} {i : Nat} {c c2 : AddrNode} (hc : cs[i]? = some c)
    (hlt : ∀ b ∈ addrs (mk a ks t lf cs), b < m) (h : Grows m m2 (addrs c) (addrs c2)) :
    Grows m m2 (addrs (mk a ks t lf cs)) (addrs (mk a ks2 t lf (cs.set i c2))) := by
  rw [BTreeNode.set_at_index hc, addrs_at cs i a ks2 t lf c2]
  rw [addrs_at_self a ks t lf hc] at hlt ⊢
  refine h.frame ?_ ?_
  · intro b hb
    exact hlt b (List.mem_append_left _ hb)
  · intro b hb
    exact hlt b (List.mem_append_right _ (List.mem_append_right _ hb))

theorem erase_n (x : AddrNode) : (erase x).n = x.n := by
  obtain ⟨a, ks, t, lf, cs⟩ := x
  simp [erase_mk]

theorem erase_t (x : AddrNode) : (erase x).t = x.t := by
  obtain ⟨a, ks, t, lf, cs⟩ := x
  simp [erase_mk]

/-- A tagged split that has a value was made at a child slot of a node in
which every slot it accesses exists. -/
theorem tagged_split_child_room {next : Nat} {x x1 : AddrNode} {i : Nat}
    (h : split_child next x i = some x1) :
    i ≤ x.n ∧ (BTreeNode.split_child_accesses x.n i).all (Access.in_array x.t) = true := by
  have he := erase_split_child next x i
  rw [h, Option.map_some'] at he
  obtain ⟨h1, h2⟩ := BTreeNode.split_child_room he.symm
  rw [erase_n] at h1 h2
  rw [erase_t] at h2
  exact ⟨h1, (BTreeNode.accesses_in_array _ _ _ h1).mpr h2⟩

/-- The form of the result of a split. -/
theorem tagged_split_child_form {next : Nat} {x x1 : AddrNode} {i : Nat}
    (h : split_child next x i = some x1) :
    ∃ y m zk zc, x.children[i]? = some y ∧ (y.children.take x.t ++ zc).Sublist y.children ∧
      x1 = mk x.addr (insertAt x.keys i m) x.t x.is_leaf
        (x.children.take i ++
          mk y.addr (y.keys.take (x.t - 1)) y.t y.is_leaf (y.children.take x.t) ::
          mk next zk x.t y.is_leaf zc :: x.children.drop (i + 1)) := by
  have hg := tagged_split_child_room h
  unfold split_child at h
  simp only [Option.bind_eq_bind, if_pos hg] at h
  cases hy : x.children[i]? with
  | none => simp only [hy, Option.none_bind] at h; cases h
  | some y =>
    simp only [hy, Option.some_bind] at h
    cases hm : y.keys[x.t - 1]? with
    | none => simp only [hm, Option.none_bind] at h; cases h
    | some m =>
      simp only [hm, Option.some_bind] at h
      cases hzk : readSlots y.keys x.t (x.t - 1) with
      | none => simp only [hzk, Option.none_bind] at h; cases h
      | some zk =>
        simp only [hzk, Option.some_bind] at h
        cases hlf : y.is_leaf with
        | true =>
          simp only [hlf, if_true, Option.some_bind, Option.some.injEq] at h
          refine ⟨y, m, zk, [], rfl, ?_, by rw [← h, hlf]⟩
          rw [List.append_nil]
          exact List.take_sublist _ _
        | false =>
          simp only [hlf, Bool.false_eq_true, if_false] at h
          cases hzc : readSlots y.children x.t x.t with
          | none => simp only [hzc, Option.none_bind] at h; cases h
          | some zc =>
            simp only [hzc, Option.some_bind, Option.some.injEq] at h
            refine ⟨y, m, zk, zc, rfl, ?_, by rw [← h, hlf]⟩
            unfold readSlots at hzc
            split at hzc
            · cases hzc
              conv => rhs; rw [← List.take_append_drop x.t y.children]
              exact List.Sublist.append (List.Sublist.refl _) (List.take_sublist _ _)
            · cases hzc

/-- A split keeps the addresses of the subtree and adds the address of the
new node once. -/
theorem split_child_grows {next : Nat} {x x1 : AddrNode} {i : Nat}
    (h : split_child next x i = some x1) (hlt : ∀ b ∈ addrs x, b < next) :
    Grows next (next + 1) (addrs x) (addrs x1) ∧ x1.addr = x.addr := by
  obtain ⟨y, m, zk, zc, hy, hsub, rfl⟩ := tagged_split_child_form h
  obtain ⟨a, ks, t, lf, cs⟩ := x
  obtain ⟨ya, yks, yt, ylf, ycs⟩ := y
  simp only [tagged_children_mk, tagged_t_mk, tagged_keys_mk, tagged_is_leaf_mk, addr_mk] at hy hsub ⊢
  refine ⟨?_, trivial⟩
  have hsub2 := addrsList_sublist hsub
  rw [addrsList_append] at hsub2
  rw [addrs_at_self a ks t lf hy] at hlt
  rw [addrs_at_self a ks t lf hy]
  simp only [addrs_mk, addrsList_append, addrsList_cons] at hlt ⊢
  have hcount : ∀ b, (addrsList (ycs.take t) ++ addrsList zc).count b ≤
      (addrsList ycs).count b := fun b => hsub2.count_le b
  refine ⟨Nat.le_succ _, ?_, ?_, ?_⟩
  · intro b hb
    have hne : ¬ (next = b) := by omega
    have := hcount b
    simp only [List.count_append, List.count_cons, List.cons_append, beq_iff_eq, hne,
      if_false] at this ⊢
    omega
  · intro b hb
    by_cases hbn : b = next
    · subst hbn
      have hz : ∀ l : List Nat, (∀ c ∈ l, c ∈ a :: (addrsList (List.take i cs) ++
          (ya :: addrsList ycs ++ addrsList (List.drop (i + 1) cs)))) → l.count b = 0 := by
        intro l hl
        exact List.count_eq_zero_of_not_mem (fun hm => absurd (hlt b (by simpa using hl b hm))
          (lt_irrefl _))
      have h1 := hz [a] (by simp)
      have h2 := hz (addrsList (List.take i cs)) (by intro c hc; simp [hc])
      have h3 := hz [ya] (by simp)
      have h4 := hz (addrsList (List.drop (i + 1) cs)) (by intro c hc; simp [hc])
      have h5 : (addrsList ycs).count b = 0 := hz _ (by intro c hc; simp [hc])
      have h6 := hcount b
      simp only [List.count_append, List.count_cons, List.count_nil, List.cons_append,
        beq_iff_eq, if_true] at h1 h3 h6 ⊢
      omega
    · have hlt2 : ∀ c, c ∈ a :: (addrsList (List.take i cs) ++
          (ya :: addrsList ycs ++ addrsList (List.drop (i + 1) cs))) → c ≠ b := by
        intro c hc e
        have := hlt c (by simpa using hc)
        omega
      have hz : ∀ l : List Nat, (∀ c ∈ l, c ∈ a :: (addrsList (List.take i cs) ++
          (ya :: addrsList ycs ++ addrsList (List.drop (i + 1) cs)))) → l.count b = 0 := by
        intro l hl
        exact List.count_eq_zero_of_not_mem (fun hm => hlt2 b (hl b hm) rfl)
      have h1 := hz [a] (by simp)
      have h2 := hz (addrsList (List.take i cs)) (by intro c hc; simp [hc])
      have h3 := hz [ya] (by simp)
      have h4 := hz (addrsList (List.drop (i + 1) cs)) (by intro c hc; simp [hc])
      have h5 : (addrsList ycs).count b = 0 := hz _ (by intro c hc; simp [hc])
      have h6 := hcount b
      have hne : ¬ (next = b) := fun e => hbn e.symm
      simp only [List.count_append, List.count_cons, List.count_nil, List.cons_append,
        beq_iff_eq, hne, if_false] at h1 h3 h6 ⊢
      omega
  · intro b hb
    have hmem : b = next ∨ b ∈ a :: (addrsList (List.take i cs) ++
        (ya :: addrsList ycs ++ addrsList (List.drop (i + 1) cs))) := by
      simp only [List.cons_append, List.mem_cons, List.mem_append] at hb ⊢
      have hs : ∀ c, c ∈ addrsList (ycs.take t) ∨ c ∈ addrsList zc → c ∈ addrsList ycs := by
        intro c hc
        exact hsub2.subset (List.mem_append.mpr hc)
      rcases hb with e | e | e | e | e | e | e
      · exact Or.inr (Or.inl e)
      · exact Or.inr (Or.inr (Or.inl e))
      · exact Or.inr (Or.inr (Or.inr (Or.inl e)))
      · exact Or.inr (Or.inr (Or.inr (Or.inr (Or.inl (hs b (Or.inl e))))))
      · exact Or.inl e
      · exact Or.inr (Or.inr (Or.inr (Or.inr (Or.inl (hs b (Or.inr e))))))
      · exact Or.inr (Or.inr (Or.inr (Or.inr (Or.inr e))))
    rcases hmem with e | e
    · omega
    · have := hlt b (by simpa using e)
      omega

end AddrNode

namespace AddrNode
open BTreeNode (readSlots insertAt scanDown)

theorem addrs_child {cs : List AddrNode} {i : Nat} {c : AddrNode} (a : Nat) (ks : List Int)
    (t : Nat) (lf : Bool) (hc : cs[i]? = some c) :
    ∀ b ∈ addrs c, b ∈ addrs (mk a ks t lf cs) := by
  intro b hb
  rw [addrs_at_self a ks t lf hc]
  exact List.mem_append_right _ (List.mem_append_left _ hb)

/-- An insertion below a node keeps the addresses of its subtree and adds the
addresses of the nodes it allocates, each once. -/
theorem insert_non_full_fuel_grows (k : Int) : ∀ (fuel next : Nat) (x : AddrNode)
    (r : AddrNode × Nat), insert_non_full_fuel fuel next x k = some r →
    (∀ b ∈ addrs x, b < next) → Grows next r.2 (addrs x) (addrs r.1) := by
  intro fuel
  induction fuel with
  | zero => intro next x r h; simp [insert_non_full_fuel] at h
  | succ fuel ih =>
    intro next x r h hlt
    obtain ⟨a, ks, t, lf, cs⟩ := x
    rw [insert_non_full_fuel] at h
    simp only [tagged_keys_mk, tagged_n_mk, tagged_is_leaf_mk, tagged_children_mk, tagged_t_mk, addr_mk,
      Option.bind_eq_bind] at h
    cases lf with
    | true =>
      simp only [if_true] at h
      split at h
      · simp only [Option.some.injEq] at h
        subst h
        simp only [addrs_mk] at hlt ⊢
        exact Grows.refl hlt
      · cases h
    | false =>
      simp only [Bool.false_eq_true, if_false] at h
      cases hc : cs[scanDown ks k ks.length]? with
      | none => simp [hc] at h
      | some c =>
        simp only [hc, Option.some_bind] at h
        by_cases hfull : c.is_full = true
        · simp only [hfull, if_true] at h
          cases hsplit : split_child next (mk a ks t false cs) (scanDown ks k ks.length) with
          | none => simp [hsplit] at h
          | some x1 =>
            obtain ⟨hg1, _⟩ := split_child_grows hsplit hlt
            obtain ⟨a1, ks1, t1, lf1, cs1⟩ := x1
            simp only [hsplit, Option.some_bind, tagged_keys_mk, tagged_t_mk, tagged_is_leaf_mk, tagged_children_mk,
              addr_mk] at h
            cases hm : ks1[scanDown ks k ks.length]? with
            | none => simp [hm] at h
            | some m =>
              simp only [hm, Option.some_bind] at h
              cases hc1 : cs1[if k > m then scanDown ks k ks.length + 1
                  else scanDown ks k ks.length]? with
              | none => simp [hc1] at h
              | some c1 =>
                simp only [hc1, Option.some_bind] at h
                cases hr : insert_non_full_fuel fuel (next + 1) c1 k with
                | none => simp [hr] at h
                | some r1 =>
                  simp only [hr, Option.some_bind, Option.some.injEq] at h
                  subst h
                  have hlt1 : ∀ b ∈ addrs (mk a1 ks1 t1 lf1 cs1), b < next + 1 := hg1.2.2.2
                  have hg2 := ih (next + 1) c1 r1 hr
                    (fun b hb => hlt1 b (addrs_child a1 ks1 t1 lf1 hc1 b hb))
                  exact hg1.trans (grows_set hc1 hlt1 hg2)
        · simp only [hfull, Bool.false_eq_true, if_false] at h
          cases hr : insert_non_full_fuel fuel next c k with
          | none => simp [hr] at h
          | some r1 =>
            simp only [hr, Option.some_bind, Option.some.injEq] at h
            subst h
            have hg2 := ih next c r1 hr (fun b hb => hlt b (addrs_child a ks t false hc b hb))
            exact grows_set hc hlt hg2

end AddrNode

namespace AddrTree
open AddrNode

theorem erase_insert (A : AddrTree) (k : Int) :
    (A.insert k).map erase = (erase A).insert k := by
  obtain ⟨root, t, next⟩ := A
  simp only [insert, BTree.insert, erase, Option.bind_eq_bind]
  rw [erase_is_full]
  by_cases hfull : root.is_full = true
  · simp only [hfull, if_true]
    have hs := erase_split_child (next + 1) (AddrNode.mk next [] t false [root]) 0
    rw [erase_mk] at hs
    simp only [List.map_cons, List.map_nil] at hs
    rw [← hs]
    cases hsplit : split_child (next + 1) (AddrNode.mk next [] t false [root]) 0 with
    | none => rfl
    | some x1 =>
      simp only [Option.map_some', Option.some_bind]
      rw [← erase_insert_non_full k (next + 2) x1]
      cases hr : insert_non_full (next + 2) x1 k with
      | none => rfl
      | some r => rfl
  · simp only [hfull, Bool.false_eq_true, if_false, Option.some_bind]
    rw [← erase_insert_non_full k next root]
    cases hr : insert_non_full next root k with
    | none => rfl
    | some r => rfl

theorem erase_insertAll : ∀ (L : List Int) (A : AddrTree),
    (A.insertAll L).map erase = (erase A).insertAll L := by
  intro L
  induction L with
  | nil => intro A; rfl
  | cons k L ih =>
    intro A
    simp only [insertAll, BTree.insertAll]
    rw [← erase_insert A k]
    cases hA : A.insert k with
    | none => rfl
    | some A1 => simp [ih A1]

/-- Without the addresses, the tagged tree built from `L` is the tree built
from `L`. -/
theorem erase_build (t : Nat) (L : List Int) :
    (build t L).map erase = BTree.build t L := by
  unfold build BTree.build
  rw [erase_insertAll L (new t)]
  rfl

theorem insert_addrs {A A2 : AddrTree} {k : Int} (h : A.insert k = some A2)
    (hn : (addrs A.root).Nodup) (hlt : ∀ b ∈ addrs A.root, b < A.next) :
    (addrs A2.root).Nodup ∧ ∀ b ∈ addrs A2.root, b < A2.next := by
  obtain ⟨root, t, next⟩ := A
  simp only [insert, Option.bind_eq_bind] at h
  simp only at hn hlt
  by_cases hfull : root.is_full = true
  · simp only [hfull, if_true] at h
    cases hsplit : split_child (next + 1) (AddrNode.mk next [] t false [root]) 0 with
    | none => simp [hsplit] at h
    | some x1 =>
      simp only [hsplit, Option.map_some', Option.some_bind] at h
      cases hr : insert_non_full (next + 2) x1 k with
      | none => simp [hr] at h
      | some r =>
        simp only [hr, Option.some_bind, Option.some.injEq] at h
        subst h
        have hroot : addrs (AddrNode.mk next [] t false [root]) = next :: addrs root := by
          simp [addrs_mk, addrsList]
        have hlt0 : ∀ b ∈ addrs (AddrNode.mk next [] t false [root]), b < next + 1 := by
          intro b hb
          rw [hroot] at hb
          rcases List.mem_cons.mp hb with e | e
          · omega
          · have := hlt b e
            omega
        have hn0 : (addrs (AddrNode.mk next [] t false [root])).Nodup := by
          rw [hroot]
          exact List.nodup_cons.mpr ⟨fun hm => absurd (hlt next hm) (lt_irrefl _), hn⟩
        obtain ⟨hg1, _⟩ := split_child_grows hsplit hlt0
        have hg2 := insert_non_full_fuel_grows k _ (next + 2) x1 r hr hg1.2.2.2
        have hg := hg1.trans hg2
        exact ⟨hg.nodup hn0, hg.2.2.2⟩
  · simp only [hfull, Bool.false_eq_true, if_false, Option.some_bind] at h
    cases hr : insert_non_full next root k with
    | none => simp [hr] at h
    | some r =>
      simp only [hr, Option.some_bind, Option.some.injEq] at h
      subst h
      have hg := insert_non_full_fuel_grows k _ next root r hr hlt
      exact ⟨hg.nodup hn, hg.2.2.2⟩

theorem insertAll_addrs : ∀ (L : List Int) (A A2 : AddrTree), A.insertAll L = some A2 →
    (addrs A.root).Nodup → (∀ b ∈ addrs A.root, b < A.next) →
    (addrs A2.root).Nodup ∧ ∀ b ∈ addrs A2.root, b < A2.next := by
  intro L
  induction L with
  | nil =>
    intro A A2 h hn hlt
    simp only [insertAll, Option.some.injEq] at h
    subst h
    exact ⟨hn, hlt⟩
  | cons k L ih =>
    intro A A2 h hn hlt
    simp only [insertAll] at h
    cases hA : A.insert k with
    | none => simp [hA] at h
    | some A1 =>
      simp only [hA, Option.some_bind] at h
      obtain ⟨hn1, hlt1⟩ := insert_addrs hA hn hlt
      exact ih A1 A2 h hn1 hlt1

/-- In a tree built by insertions no address occurs twice: every node is
reached through exactly one populated slot. -/
theorem build_addrs {t : Nat} {L : List Int} {A : AddrTree} (h : build t L = some A) :
    (addrs A.root).Nodup ∧ ∀ b ∈ addrs A.root, b < A.next := by
  refine insertAll_addrs L (new t) A h ?_ ?_
  · simp [new, addrs_mk, addrsList]
  · simp [new, addrs_mk, addrsList]

end AddrTree

namespace BTreeNode

/-! ## The calls made by an insertion -/

/-- The logged recursion computes the value of `insert_non_full_fuel`. -/
theorem insert_non_full_log_snd (k : Int) : ∀ (fuel : Nat) (x : BTreeNode),
    (insert_non_full_log fuel x k).2 = insert_non_full_fuel fuel x k := by
  intro fuel
  induction fuel with
  | zero => intro x; rfl
  | succ fuel ih =>
    intro x
    rw [insert_non_full_log, insert_non_full_fuel]
    simp only [Option.bind_eq_bind]
    cases hlf : x.is_leaf with
    | true => simp
    | false =>
      simp only [Bool.false_eq_true, if_false]
      cases hc : x.children[scanDown x.keys k x.n]? with
      | none => rfl
      | some c =>
        simp only [Option.some_bind]
        by_cases hfull : c.is_full = true
        · simp only [hfull, if_true]
          cases hsplit : split_child x (scanDown x.keys k x.n) with
          | none => rfl
          | some x1 =>
            simp only [Option.some_bind]
            cases hm : x1.keys[scanDown x.keys k x.n]? with
            | none => rfl
            | some m =>
              simp only [Option.some_bind]
              cases hc1 : x1.children[if k > m then scanDown x.keys k x.n + 1
                  else scanDown x.keys k x.n]? with
              | none => rfl
              | some c1 =>
                simp only [Option.some_bind, ih c1]
                cases insert_non_full_fuel fuel c1 k <;> rfl
        · simp only [hfull, Bool.false_eq_true, if_false, ih c]
          cases insert_non_full_fuel fuel c k <;> rfl

theorem not_full_of_lt {t : Nat} {x : BTreeNode} (ht : x.t = t) (h : x.n + 1 < 2 * t) :
    x.is_full = false := by
  have : ¬ (x.is_full = true) := by
    rw [is_full_iff, ht]; omega
  simpa using this

/-- Every call made by `insert_non_full` on a node of a well-shaped tree that
is not full respects its precondition. -/
theorem insert_non_full_log_pre {t : Nat} (ht : 2 ≤ t) (k : Int) :
    ∀ (h fuel lo : Nat) (x : BTreeNode), h ≤ fuel → Shaped t lo h x → x.n + 1 < 2 * t →
      ∀ c ∈ (insert_non_full_log fuel x k).1, c.pre := by
  intro h
  induction h with
  | zero => intro fuel lo x _ hs; exact absurd hs (by simp [Shaped])
  | succ h ih =>
    intro fuel lo x hfuel hs hnf
    obtain ⟨ks, xt, lf, cs⟩ := x
    obtain ⟨fuel, rfl⟩ : ∃ f, fuel = f + 1 := ⟨fuel - 1, by omega⟩
    have hpos := scanDown_le ks k
    have hxnf : (mk ks xt lf cs).is_full = false := not_full_of_lt hs.t_eq hnf
    match h, hs, ih with
    | 0, hs, _ =>
      obtain ⟨hxt, hlo, _, hlf, hcs⟩ := hs
      simp only [t_mk, n_mk, is_leaf_mk, children_mk] at hxt hlo hlf hcs hnf
      subst hxt hlf hcs
      intro c hc
      rw [insert_non_full_log_leaf, List.mem_singleton] at hc
      subst hc
      exact hxnf
    | h + 1, hs, ih =>
      obtain ⟨hxt, hlo, _, hlf, h1, hlen, hch⟩ := hs
      simp only [t_mk, n_mk, is_leaf_mk, children_mk] at hxt hlo hlf hlen hch hnf h1
      subst hxt hlf
      obtain ⟨c, hc⟩ : ∃ c, cs[scanDown ks k ks.length]? = some c :=
        ⟨_, List.getElem?_eq_getElem (by omega)⟩
      have hcs := hch c (mem_of_getElem hc)
      by_cases hfull : c.is_full = true
      · have hsp : (Call.split_child (mk ks xt false cs) (scanDown ks k ks.length)).pre :=
          ⟨hxnf, c, hc, hfull⟩
        cases hsplit0 : split_child (mk ks xt false cs) (scanDown ks k ks.length) with
        | none =>
          rw [insert_non_full_log_no_split fuel hc hfull hsplit0]
          intro d hd
          simp only [List.mem_cons, List.mem_singleton, List.not_mem_nil, or_false] at hd
          rcases hd with e | e
          · subst e; exact hxnf
          · subst e; exact hsp
        | some x0 =>
          have hroom := (split_child_room hsplit0).2
          simp only [t_mk, n_mk] at hroom
          have hfull2 : c.n + 1 = 2 * xt := by rw [← hcs.t_eq]; exact (is_full_iff c).mp hfull
          obtain ⟨m, y1, z, hsplit, hy1, hz, hy1n, hzn, _⟩ :=
            split_child_spec (x := mk ks xt false cs) ht rfl hc hpos hroom hcs hfull2
          simp only [keys_mk, is_leaf_mk, children_mk] at hsplit
          have hilt : scanDown ks k ks.length < cs.length := by omega
          have hm := insertAt_get ks (scanDown ks k ks.length) m hpos
          by_cases hkm : k > m
          · have hc1 : (cs.take (scanDown ks k ks.length) ++ y1 :: z ::
                cs.drop (scanDown ks k ks.length + 1))[if k > m then scanDown ks k ks.length + 1
                  else scanDown ks k ks.length]? = some z := by
              rw [if_pos hkm]; exact getElem_splice_right y1 z hilt
            rw [insert_non_full_log_split fuel hc hfull hsplit hm hc1]
            intro d hd
            simp only [List.mem_cons] at hd
            rcases hd with e | e | e | e
            · subst e; exact hxnf
            · subst e; exact hsp
            · subst e; exact ⟨z, by simpa using hc1⟩
            · exact ih fuel (xt - 1) z (by omega) hz (by omega) d e
          · have hc1 : (cs.take (scanDown ks k ks.length) ++ y1 :: z ::
                cs.drop (scanDown ks k ks.length + 1))[if k > m then scanDown ks k ks.length + 1
                  else scanDown ks k ks.length]? = some y1 := by
              rw [if_neg hkm]; exact getElem_splice_left y1 z hilt
            rw [insert_non_full_log_split fuel hc hfull hsplit hm hc1]
            intro d hd
            simp only [List.mem_cons] at hd
            rcases hd with e | e | e | e
            · subst e; exact hxnf
            · subst e; exact hsp
            · subst e; exact ⟨y1, by simpa using hc1⟩
            · exact ih fuel (xt - 1) y1 (by omega) hy1 (by omega) d e
      · have hnfull : c.is_full = false := by simpa using hfull
        have hnf2 : c.n + 1 < 2 * xt := by
          have h1 := hcs.n_le
          have h2 : ¬ (c.n + 1 = 2 * xt) := by
            rw [← hcs.t_eq]; exact fun e => hfull ((is_full_iff c).mpr e)
          omega
        rw [insert_non_full_log_descend (t := xt) fuel hc hnfull]
        intro d hd
        simp only [List.mem_cons] at hd
        rcases hd with e | e | e
        · subst e; exact hxnf
        · subst e; exact ⟨c, by simpa using hc⟩
        · exact ih fuel (xt - 1) c (by omega) hcs hnf2 d e

end BTreeNode

namespace BTree
open BTreeNode

/-- The logged `insert` computes the value of `insert`. -/
theorem insert_log_snd (T : BTree) (k : Int) : (T.insert_log k).2 = T.insert k := by
  unfold insert_log insert insert_non_full
  simp only [Option.bind_eq_bind]
  by_cases hfull : T.root.is_full = true
  · simp only [hfull, if_true]
    cases hsplit : split_child (BTreeNode.mk [] T.t false [T.root]) 0 with
    | none => rfl
    | some r =>
      simp only [Option.some_bind, insert_non_full_log_snd]
      cases insert_non_full_fuel (height r) r k <;> rfl
  · simp only [hfull, Bool.false_eq_true, if_false, Option.some_bind, insert_non_full_log_snd]
    cases insert_non_full_fuel (height T.root) T.root k <;> rfl

/-- Every call made by `insert` on a tree that satisfies the invariant respects
its precondition. -/
theorem insert_log_pre {t : Nat} (ht : 2 ≤ t) {h : Nat} {T : BTree} (hinv : Inv t h T)
    (k : Int) : ∀ c ∈ (T.insert_log k).1, c.pre := by
  obtain ⟨root, Tt⟩ := T
  obtain ⟨hTt, hs, _⟩ := hinv
  simp only at hTt hs
  subst hTt
  unfold insert_log
  simp only
  by_cases hfull : root.is_full = true
  · have hfull2 : root.n + 1 = 2 * Tt := by rw [← hs.t_eq]; exact (is_full_iff root).mp hfull
    obtain ⟨m, y1, z, hsplit, hy1, hz, hy1n, hzn, _⟩ :=
      split_child_spec (x := BTreeNode.mk [] Tt false [root]) (i := 0) (y := root) ht rfl rfl
        (Nat.zero_le _) (by simp only [n_mk, List.length_nil]; omega) (hs.mono (by omega)) hfull2
    have hpos := hs.pos
    obtain ⟨h, rfl⟩ : ∃ h1, h = h1 + 1 := ⟨h - 1, by omega⟩
    have hshape : Shaped Tt 0 (h + 2) (BTreeNode.mk [m] Tt false [y1, z]) := by
      refine ⟨rfl, Nat.zero_le _, by simp only [n_mk, List.length_singleton]; omega, rfl,
        by simp, by simp, ?_⟩
      intro c hc
      simp only [children_mk, List.mem_cons, List.mem_singleton, List.not_mem_nil,
        or_false] at hc
      rcases hc with e | e
      · subst e; exact hy1
      · subst e; exact hz
    simp only [keys_mk, is_leaf_mk, children_mk, insertAt, List.take_nil, List.drop_nil,
      List.nil_append, List.take_zero, List.drop_succ_cons, List.drop_zero] at hsplit
    simp only [hfull, if_true, hsplit]
    intro c hc
    rcases List.mem_cons.mp hc with e | e
    · subst e
      exact ⟨not_full_of_lt (t := Tt) rfl (by simp only [n_mk, List.length_nil]; omega), root,
        rfl, hfull⟩
    · rw [height_of_shaped _ _ _ hshape] at e
      exact insert_non_full_log_pre ht k (h + 2) (h + 2) 0 _ (le_refl _) hshape
        (by simp only [n_mk, List.length_singleton]; omega) c e
  · have hnf : root.n + 1 < 2 * Tt := by
      have h1 := hs.n_le
      have h2 : ¬ (root.n + 1 = 2 * Tt) := by
        rw [← hs.t_eq]; exact fun e => hfull ((is_full_iff root).mpr e)
      omega
    simp only [hfull, Bool.false_eq_true, if_false]
    intro c hc
    rw [height_of_shaped _ _ _ hs] at hc
    exact insert_non_full_log_pre ht k h h 0 root (le_refl _) hs hnf c hc

end BTree

open BTreeNode

/-! ## The contract of `insert` and `search` -/

/-- C1 fails on the code.  With `t = 2` the insertion of 1, 2, ..., 8 has no
defined result: the insertion of 8 calls `split_child(2)` on the root, which
holds `2t-2 = 2` keys, and the first round of the key shift loop stores outside
the key array, so there is no tree in which `search(8)` finds the key.  What
holds for every degree `t ≥ 2`, every list `L` and every `k` that occurs in
`L`: either the insertions have a result, a tree in which `search(k)` returns a
node, or they have none and one of them made a call of `split_child` that
accesses a slot outside the arrays. -/
theorem search_finds_inserted :
    BTree.build 2 [1, 2, 3, 4, 5, 6, 7, 8] = none ∧
    ∀ (t : Nat) (L : List Int) (k : Int), 2 ≤ t → k ∈ L →
      (∃ T r, BTree.build t L = some T ∧ T.search k = SearchResult.found r) ∨
      (BTree.build t L = none ∧ (BTree.new t).out_of_bounds L) := by
  refine ⟨by decide!, ?_⟩
  intro t L k ht hk
  rcases BTree.build_spec ht L with ⟨T, h, hT, hinv, hperm⟩ | hn
  · obtain ⟨r, hr, _⟩ := (search_spec k h 0 T.root hinv.2.1 hinv.2.2).1 (hperm.mem_iff.mpr hk)
    exact Or.inl ⟨T, r, hT, hr⟩
  · exact Or.inr hn

/-- An instance: degree 2, the keys 10, 20, 5, 6, 12, 30, 7, 17 and the search
for 6; these insertions have a result. -/
theorem search_finds_inserted_witness :
    ∃ T r, BTree.build 2 [10, 20, 5, 6, 12, 30, 7, 17] = some T ∧
      T.search 6 = SearchResult.found r :=
  (search_finds_inserted.2 2 [10, 20, 5, 6, 12, 30, 7, 17] 6 (by decide)
    (by decide)).resolve_right (fun h => absurd h.1 (by decide!))

/-- C2 fails on the code.  With `t = 2` the insertion of 1, 2, ..., 8 has no
defined result (the insertion of 8 stores outside the key array of the root),
so there is no tree in which `search(9)` reports the key absent.  What holds
for every degree `t ≥ 2`, every list `L` and every `k` that does not occur in
`L`: either the insertions have a result, a tree in which `search(k)` returns
the null pointer, or they have none and one of them made a call of
`split_child` that accesses a slot outside the arrays. -/
theorem search_misses_absent :
    BTree.build 2 [1, 2, 3, 4, 5, 6, 7, 8] = none ∧
    ∀ (t : Nat) (L : List Int) (k : Int), 2 ≤ t → k ∉ L →
      (∃ T, BTree.build t L = some T ∧ T.search k = SearchResult.absent) ∨
      (BTree.build t L = none ∧ (BTree.new t).out_of_bounds L) := by
  refine ⟨by decide!, ?_⟩
  intro t L k ht hk
  rcases BTree.build_spec ht L with ⟨T, h, hT, hinv, hperm⟩ | hn
  · exact Or.inl ⟨T, hT, (search_spec k h 0 T.root hinv.2.1 hinv.2.2).2
      (fun hm => hk (hperm.mem_iff.mp hm))⟩
  · exact Or.inr hn

/-- An instance: degree 2, the keys 10, 20, 5, 6, 12, 30, 7, 17 and the search
for 99; these insertions have a result. -/
theorem search_misses_absent_witness :
    ∃ T, BTree.build 2 [10, 20, 5, 6, 12, 30, 7, 17] = some T ∧
      T.search 99 = SearchResult.absent :=
  (search_misses_absent.2 2 [10, 20, 5, 6, 12, 30, 7, 17] 99 (by decide)
    (by decide)).resolve_right (fun h => absurd h.1 (by decide!))

/-- C3 fails on the code.  With `t = 2` the insertion of 1, 2, ..., 8 has no
defined result (the insertion of 8 stores outside the key array of the root),
so there is no tree whose in-order traversal is the sorted list.  What holds
for every degree `t ≥ 2` and every list `L`, duplicates allowed: either the
insertions have a result, a tree whose in-order traversal is `L` sorted in
non-decreasing order and whose key counts add up to the length of `L`, or
they have none and one of them made a call of `split_child` that accesses a
slot outside the arrays. -/
theorem inorder_is_sorted_input :
    BTree.build 2 [1, 2, 3, 4, 5, 6, 7, 8] = none ∧
    ∀ (t : Nat) (L : List Int), 2 ≤ t →
      (∃ T, BTree.build t L = some T ∧ inorder T.root = L.insertionSort (· ≤ ·) ∧
        keyCount T.root = L.length) ∨
      (BTree.build t L = none ∧ (BTree.new t).out_of_bounds L) := by
  refine ⟨by decide!, ?_⟩
  intro t L ht
  rcases BTree.build_spec ht L with ⟨T, h, hT, hinv, hperm⟩ | hn
  · refine Or.inl ⟨T, hT, ?_, ?_⟩
    · exact List.eq_of_perm_of_sorted (hperm.trans (List.perm_insertionSort _ L).symm)
        hinv.2.2 (List.sorted_insertionSort _ L)
    · rw [keyCount_of_shaped h 0 T.root hinv.2.1, hperm.length_eq]
  · exact Or.inr hn

/-- An instance: degree 2 and the key 5 inserted three times; these insertions
have a result. -/
theorem inorder_is_sorted_input_witness :
    ∃ T, BTree.build 2 [5, 5, 5] = some T ∧
      inorder T.root = [5, 5, 5].insertionSort (· ≤ ·) ∧ keyCount T.root = [5, 5, 5].length :=
  (inorder_is_sorted_input.2 2 [5, 5, 5] (by decide)).resolve_right
    (fun h => absurd h.1 (by decide!))

/-- C4 fails on the code.  With `t = 2` the insertion of 1, 2, ..., 8 has no
defined result (the insertion of 8 stores outside the key array of the root),
so no statement about the keys of the resulting nodes holds of it.  What holds
for every degree `t ≥ 2` and every list `L`: either the insertions have a
result, a tree in every node of which the keys are in ascending order, equal
neighbours allowed (`keys[j] ≤ keys[j+1]` for all `j + 1 < n`), or they have
none and one of them made a call of `split_child` that accesses a slot outside
the arrays. -/
theorem node_keys_ascending :
    BTree.build 2 [1, 2, 3, 4, 5, 6, 7, 8] = none ∧
    ∀ (t : Nat) (L : List Int), 2 ≤ t →
      (∃ T, BTree.build t L = some T ∧ ∀ y ∈ nodes T.root, ∀ (j : Nat) (a b : Int),
        y.keys[j]? = some a → y.keys[j + 1]? = some b → a ≤ b) ∨
      (BTree.build t L = none ∧ (BTree.new t).out_of_bounds L) := by
  refine ⟨by decide!, ?_⟩
  intro t L ht
  rcases BTree.build_spec ht L with ⟨T, h, hT, hinv, _⟩ | hn
  · refine Or.inl ⟨T, hT, ?_⟩
    intro y hy j a b ha hb
    have hs := node_keys_sorted h 0 T.root hinv.2.1 hinv.2.2 y hy
    obtain ⟨hj, rfl⟩ := List.getElem?_eq_some.mp ha
    obtain ⟨hj1, rfl⟩ := List.getElem?_eq_some.mp hb
    exact List.pairwise_iff_getElem.mp hs j (j + 1) hj hj1 (Nat.lt_succ_self j)
  · exact Or.inr hn

/-- An instance: degree 2 and the keys 10, 20, 5, 6, 12, 30, 7, 17; these
insertions have a result. -/
theorem node_keys_ascending_witness :
    ∃ T, BTree.build 2 [10, 20, 5, 6, 12, 30, 7, 17] = some T ∧
      ∀ y ∈ nodes T.root, ∀ (j : Nat) (a b : Int),
        y.keys[j]? = some a → y.keys[j + 1]? = some b → a ≤ b :=
  (node_keys_ascending.2 2 [10, 20, 5, 6, 12, 30, 7, 17] (by decide)).resolve_right
    (fun h => absurd h.1 (by decide!))

/-- C5 fails on the code.  With `t = 2` the insertion of 1, 2, ..., 8 has no
defined result (the insertion of 8 stores outside the key array of the root),
so no statement about the depth of the resulting leaves holds of it.  What
holds for every degree `t ≥ 2` and every list `L`: either the insertions have
a result, a tree all of whose leaves are at the same depth, or they have none
and one of them made a call of `split_child` that accesses a slot outside the
arrays. -/
theorem leaves_at_same_depth :
    BTree.build 2 [1, 2, 3, 4, 5, 6, 7, 8] = none ∧
    ∀ (t : Nat) (L : List Int), 2 ≤ t →
      (∃ T, BTree.build t L = some T ∧
        ∀ d1 ∈ leafDepths T.root 0, ∀ d2 ∈ leafDepths T.root 0, d1 = d2) ∨
      (BTree.build t L = none ∧ (BTree.new t).out_of_bounds L) := by
  refine ⟨by decide!, ?_⟩
  intro t L ht
  rcases BTree.build_spec ht L with ⟨T, h, hT, hinv, _⟩ | hn
  · refine Or.inl ⟨T, hT, ?_⟩
    intro d1 h1 d2 h2
    have e1 := leafDepths_of_shaped h 0 T.root 0 hinv.2.1 d1 h1
    have e2 := leafDepths_of_shaped h 0 T.root 0 hinv.2.1 d2 h2
    omega
  · exact Or.inr hn

/-- An instance: degree 2 and the keys 10, 20, 5, 6, 12, 30, 7, 17; these
insertions have a result. -/
theorem leaves_at_same_depth_witness :
    ∃ T, BTree.build 2 [10, 20, 5, 6, 12, 30, 7, 17] = some T ∧
      ∀ d1 ∈ leafDepths T.root 0, ∀ d2 ∈ leafDepths T.root 0, d1 = d2 :=
  (leaves_at_same_depth.2 2 [10, 20, 5, 6, 12, 30, 7, 17] (by decide)).resolve_right
    (fun h => absurd h.1 (by decide!))

/-- C6 fails on the code.  With `t = 2` the insertion of 1, 2, ..., 8 has no
defined result: the insertion of 8 calls `split_child(2)` on the root, which
holds `2t-2` keys, and the key shift loop stores to key slot `2t-1`, one past
the `2t-1` slots of the array.  What holds for every degree `t ≥ 2` and every
list `L`: either the insertions have a result, a tree in which every node
holds at most `2t-1` keys and every node other than the root at least `t-1`,
or they have none and one of them made a call of `split_child` that accesses a
slot outside the arrays. -/
theorem node_key_counts_bounded :
    BTree.build 2 [1, 2, 3, 4, 5, 6, 7, 8] = none ∧
    ∀ (t : Nat) (L : List Int), 2 ≤ t →
      (∃ T, BTree.build t L = some T ∧ (∀ y ∈ nodes T.root, y.n ≤ 2 * t - 1) ∧
        ∀ y ∈ nodesList T.root.children, t - 1 ≤ y.n) ∨
      (BTree.build t L = none ∧ (BTree.new t).out_of_bounds L) := by
  refine ⟨by decide!, ?_⟩
  intro t L ht
  rcases BTree.build_spec ht L with ⟨T, h, hT, hinv, _⟩ | hn
  · refine Or.inl ⟨T, hT, ?_, ?_⟩
    · intro y hy
      obtain ⟨lo1, h1, hs⟩ := shaped_nodes hinv.2.1 y hy
      have := hs.n_le
      omega
    · intro y hy
      obtain ⟨h1, hs⟩ := shaped_below h 0 T.root hinv.2.1 y hy
      exact hs.lo_le
  · exact Or.inr hn

/-- An instance: degree 2 and the keys 10, 20, 5, 6, 12, 30, 7, 17; these
insertions have a result. -/
theorem node_key_counts_bounded_witness :
    ∃ T, BTree.build 2 [10, 20, 5, 6, 12, 30, 7, 17] = some T ∧
      (∀ y ∈ nodes T.root, y.n ≤ 2 * 2 - 1) ∧
      ∀ y ∈ nodesList T.root.children, 2 - 1 ≤ y.n :=
  (node_key_counts_bounded.2 2 [10, 20, 5, 6, 12, 30, 7, 17] (by decide)).resolve_right
    (fun h => absurd h.1 (by decide!))

/-- C7 fails on the code.  With `t = 2` the insertion of 1, 2, ..., 8 has no
defined result, with or without the addresses of the nodes (the insertion of 8
stores outside the key array of the root), so no statement about the children
of the resulting nodes holds of it.  What holds for every degree `t ≥ 2` and
every list `L`: either the insertions have a result, a tree in which every
non-leaf node that holds `n` keys has exactly `n+1` children, the populated
slots `children[0..n]`, and `n ≥ 1`, and in which, every node being tagged by
the address of its object, no address occurs twice, so that these children are
distinct nodes and none of them is reached from another slot or another
parent; or they have none and one of them made a call of `split_child` that
accesses a slot outside the arrays. -/
theorem internal_nodes_own_children :
    (BTree.build 2 [1, 2, 3, 4, 5, 6, 7, 8] = none ∧
      (AddrTree.build 2 [1, 2, 3, 4, 5, 6, 7, 8]).isNone = true) ∧
    ∀ (t : Nat) (L : List Int), 2 ≤ t →
      (∃ T A, BTree.build t L = some T ∧ AddrTree.build t L = some A ∧ A.erase = T ∧
        (AddrNode.addrs A.root).Nodup ∧
        ∀ y ∈ nodes T.root, y.is_leaf = false → y.children.length = y.n + 1 ∧ 1 ≤ y.n) ∨
      (BTree.build t L = none ∧ (BTree.new t).out_of_bounds L) := by
  refine ⟨⟨by decide!, by decide!⟩, ?_⟩
  intro t L ht
  rcases BTree.build_spec ht L with ⟨T, h, hT, hinv, _⟩ | hn
  · have he := AddrTree.erase_build t L
    rw [hT] at he
    obtain ⟨A, hA, hAT⟩ := Option.map_eq_some'.mp he
    refine Or.inl ⟨T, A, hT, hA, hAT, (AddrTree.build_addrs hA).1, ?_⟩
    intro y hy hlf
    obtain ⟨lo1, h1, hs⟩ := shaped_nodes hinv.2.1 y hy
    exact hs.internal hlf
  · exact Or.inr hn

/-- An instance: degree 2 and the keys 10, 20, 5, 6, 12, 30, 7, 17; these
insertions have a result. -/
theorem internal_nodes_own_children_witness :
    ∃ T A, BTree.build 2 [10, 20, 5, 6, 12, 30, 7, 17] = some T ∧
      AddrTree.build 2 [10, 20, 5, 6, 12, 30, 7, 17] = some A ∧ A.erase = T ∧
      (AddrNode.addrs A.root).Nodup ∧
      ∀ y ∈ nodes T.root, y.is_leaf = false → y.children.length = y.n + 1 ∧ 1 ≤ y.n :=
  (internal_nodes_own_children.2 2 [10, 20, 5, 6, 12, 30, 7, 17] (by decide)).resolve_right
    (fun h => absurd h.1 (by decide!))

/-- C8, as stated, fails: the constructor accepts the degree `t = 1 < 2`.  The
tree it returns has an empty leaf as root and accepts an insertion, after
which `search` finds the inserted key in the root. -/
theorem degree_one_not_rejected :
    (1 : Nat) < 2 ∧ BTree.new 1 = ⟨BTreeNode.mk [] 1 true [], 1⟩ ∧
      BTree.build 1 [5] = some ⟨BTreeNode.mk [5] 1 true [], 1⟩ ∧
      BTree.search ⟨BTreeNode.mk [5] 1 true [], 1⟩ 5 =
        SearchResult.found (BTreeNode.mk [5] 1 true []) :=
  ⟨by decide, rfl, rfl, rfl⟩

/-- C8, amended: the constructor checks nothing.  For every degree `t ≥ 1`,
`t = 1` included, it returns a tree that stores `t` and whose root is an empty
leaf, and this tree accepts an insertion. -/
theorem constructor_checks_nothing (t : Nat) (k : Int) (ht : 1 ≤ t) :
    (BTree.new t).t = t ∧ (BTree.new t).root = BTreeNode.mk [] t true [] ∧
      (BTree.new t).insert k = some ⟨BTreeNode.mk [k] t true [], t⟩ := by
  refine ⟨rfl, rfl, ?_⟩
  have hnf : ¬ (1 = 2 * t) := fun e => absurd (e ▸ ht) (by omega)
  have hroom : 1 < 2 * t := by omega
  simp [BTree.insert, BTree.new, create, is_full, hnf, insert_non_full, height_mk, heightList,
    insert_non_full_fuel, scanDown, insertAt, hroom]

/-- An instance: degree 1 and the key 7. -/
theorem constructor_checks_nothing_witness :
    1 ≤ 1 ∧ (BTree.new 1).t = 1 ∧ (BTree.new 1).root = BTreeNode.mk [] 1 true [] ∧
      (BTree.new 1).insert 7 = some ⟨BTreeNode.mk [7] 1 true [], 1⟩ :=
  ⟨by decide, constructor_checks_nothing 1 7 (by decide)⟩

/-- C9 fails on the code.  With `t = 2` the tree reached by the insertion of
1, 2, ..., 7 has the root `[2, 4]`, which is not full, over the leaves `[1]`,
`[3]` and `[5, 6, 7]`; `insert(8)` on this tree has no defined result, since it
calls `split_child(2)` on the root, whose key shift loop stores outside the
key array, so the height after the call is not the height before it.  What
holds for every degree `t ≥ 2`, every tree `T` reached by insertions into an
empty tree and every key `k`: either `insert(k)` has a result, a tree that is
one level higher than `T` if the root of `T` was full and as high as `T`
otherwise, or it has none and made a call of `split_child` that accesses a
slot outside the arrays. -/
theorem insert_height :
    (BTree.build 2 [1, 2, 3, 4, 5, 6, 7] = some ⟨BTreeNode.mk [2, 4] 2 false
        [BTreeNode.mk [1] 2 true [], BTreeNode.mk [3] 2 true [],
         BTreeNode.mk [5, 6, 7] 2 true []], 2⟩ ∧
      BTree.insert ⟨BTreeNode.mk [2, 4] 2 false
        [BTreeNode.mk [1] 2 true [], BTreeNode.mk [3] 2 true [],
         BTreeNode.mk [5, 6, 7] 2 true []], 2⟩ 8 = none) ∧
    ∀ (t : Nat) (L : List Int) (k : Int) (T : BTree), 2 ≤ t → BTree.build t L = some T →
      (∃ T2, T.insert k = some T2 ∧
        height T2.root = height T.root + (if T.root.is_full = true then 1 else 0)) ∨
      (T.insert k = none ∧ T.insert_out_of_bounds k) := by
  refine ⟨⟨by decide!, by decide!⟩, ?_⟩
  intro t L k T ht hT
  obtain ⟨h, hinv, _⟩ := BTree.build_inv ht hT
  rcases BTree.insert_spec ht hinv k with ⟨T2, hT2, hinv2, _⟩ | hn
  · refine Or.inl ⟨T2, hT2, ?_⟩
    rw [height_of_shaped _ 0 T2.root hinv2.2.1, height_of_shaped h 0 T.root hinv.2.1]
    split <;> rfl
  · exact Or.inr hn

/-- An instance: degree 2, the keys 10, 20, 5 fill the root, then 6 is
inserted; this insertion has a result. -/
theorem insert_height_witness :
    ∃ T2, BTree.insert ⟨BTreeNode.mk [5, 10, 20] 2 true [], 2⟩ 6 = some T2 ∧
      height T2.root = height (BTreeNode.mk [5, 10, 20] 2 true []) +
        (if (BTreeNode.mk [5, 10, 20] 2 true []).is_full = true then 1 else 0) :=
  (insert_height.2 2 [10, 20, 5] 6 ⟨BTreeNode.mk [5, 10, 20] 2 true [], 2⟩ (by decide)
    (by decide!)).resolve_right (fun h => absurd h.1 (by decide!))

/-- C10: for every degree `t ≥ 2` and every list `L` of at most `2t-1`
integers, inserting the elements of `L` in order into an empty tree never
reaches a split: before each insertion the root is a leaf that is not full,
and at the end the root is a leaf without children holding `|L|` keys. -/
theorem small_tree_is_single_leaf (t : Nat) (L : List Int) (ht : 2 ≤ t)
    (hL : L.length ≤ 2 * t - 1) :
    ∃ T, BTree.build t L = some T ∧ T.root.is_leaf = true ∧ T.root.children = [] ∧
      T.root.n = L.length ∧
      ∀ (P : List Int) (k : Int) (R : List Int), L = P ++ k :: R →
        ∃ T1, BTree.build t P = some T1 ∧ T1.root.is_full = false ∧
          T1.root.is_leaf = true := by
  have hnew : (BTree.new t).root.n = 0 := rfl
  obtain ⟨T, hT, hinv, hn⟩ := BTree.insertAll_leaf ht L (BTree.new t) (BTree.inv_new ht)
    (by rw [hnew]; omega)
  refine ⟨T, hT, hinv.2.1.2.2.2.1, hinv.2.1.2.2.2.2, by rw [hn, hnew]; omega, ?_⟩
  intro P k R hPR
  have hlen : P.length + 1 ≤ L.length := by rw [hPR]; simp
  obtain ⟨T1, hT1, hinv1, hn1⟩ := BTree.insertAll_leaf ht P (BTree.new t) (BTree.inv_new ht)
    (by rw [hnew]; omega)
  refine ⟨T1, hT1, ?_, hinv1.2.1.2.2.2.1⟩
  have hnf : ¬ (T1.root.is_full = true) := by
    rw [is_full_iff, hinv1.2.1.t_eq, hn1, hnew]; omega
  simpa using hnf

/-- An instance: degree 4 and the keys 1, 2, 3. -/
theorem small_tree_is_single_leaf_witness :
    2 ≤ 4 ∧ [1, 2, 3].length ≤ 2 * 4 - 1 ∧
      ∃ T, BTree.build 4 [1, 2, 3] = some T ∧ T.root.is_leaf = true ∧ T.root.children = [] ∧
        T.root.n = [1, 2, 3].length ∧
        ∀ (P : List Int) (k : Int) (R : List Int), [1, 2, 3] = P ++ k :: R →
          ∃ T1, BTree.build 4 P = some T1 ∧ T1.root.is_full = false ∧
            T1.root.is_leaf = true :=
  ⟨by decide, by decide, small_tree_is_single_leaf 4 [1, 2, 3] (by decide) (by decide)⟩

namespace BTreeNode

/-! ## The keys below a child slot and the keys next to the slot -/

theorem take_getLast {l : List Int} {i : Nat} {a : Int} (hi : 0 < i)
    (h : l[i - 1]? = some a) : (l.take i).getLast? = some a := by
  obtain ⟨i, rfl⟩ : ∃ j, i = j + 1 := ⟨i - 1, by omega⟩
  rw [Nat.add_sub_cancel] at h
  obtain ⟨hlt, e⟩ := List.getElem?_eq_some.mp h
  have e2 : l.take (i + 1) = l.take i ++ [l[i]] := by
    rw [List.take_succ, List.getElem?_eq_getElem hlt]; rfl
  rw [e2, List.getLast?_concat, e]

/-- With the in-order traversal of an internal node related pairwise by `R`,
every key of the in-order traversal of child `i` stands in `R` after key `i-1`
and before key `i` of the node. -/
theorem child_between {R : Int → Int → Prop} {ks : List Int} {cs : List BTreeNode} {i : Nat}
    {c : BTreeNode} {t : Nat} (hlen : cs.length = ks.length + 1) (hc : cs[i]? = some c)
    (hs : (inorder (mk ks t false cs)).Pairwise R) :
    ∀ key ∈ inorder c, (∀ a, 0 < i → ks[i - 1]? = some a → R a key) ∧
      (∀ b, ks[i]? = some b → R key b) := by
  obtain ⟨_, _, h3, h4⟩ := decomp_at hlen hc
  rw [inorder_at_self t hlen hc] at hs
  intro key hkey
  constructor
  · intro a hi ha
    obtain ⟨P, hP⟩ := inPre_getLast _ _ a h3 (take_getLast hi ha)
    rw [hP] at hs
    exact (List.pairwise_append.mp hs).2.2 a (by simp) key (List.mem_append_left _ hkey)
  · intro b hb
    rw [← List.head?_drop] at hb
    obtain ⟨Q, hQ⟩ := inPost_head _ _ b h4 hb
    rw [hQ] at hs
    exact (List.pairwise_append.mp (List.pairwise_append.mp hs).2.1).2.2 key hkey b (by simp)

theorem child_pairwise {R : Int → Int → Prop} {ks : List Int} {cs : List BTreeNode} {i : Nat}
    {c : BTreeNode} {t : Nat} (hlen : cs.length = ks.length + 1) (hc : cs[i]? = some c)
    (hs : (inorder (mk ks t false cs)).Pairwise R) : (inorder c).Pairwise R := by
  rw [inorder_at_self t hlen hc] at hs
  exact (List.pairwise_append.mp (List.pairwise_append.mp hs).2.1).1

theorem child_subset {ks : List Int} {cs : List BTreeNode} {i : Nat} {c : BTreeNode} (t : Nat)
    (hlen : cs.length = ks.length + 1) (hc : cs[i]? = some c) :
    ∀ key ∈ inorder c, key ∈ inorder (mk ks t false cs) := by
  intro key hkey
  rw [inorder_at_self t hlen hc]
  exact List.mem_append_right _ (List.mem_append_left _ hkey)

/-- The in-order traversal of a well-shaped subtree holds the keys of all its nodes. -/
theorem node_keys_in_inorder {t : Nat} : ∀ (h lo : Nat) (x : BTreeNode), Shaped t lo h x →
    ∀ z ∈ nodes x, ∀ key ∈ z.keys, key ∈ inorder x := by
  intro h
  induction h with
  | zero => intro lo x hs; exact absurd hs (by simp [Shaped])
  | succ h ih =>
    intro lo x hs z hz key hkey
    rw [nodes_eq] at hz
    rcases List.mem_cons.mp hz with e | e
    · subst e; exact (keys_sublist_inorder z).subset hkey
    · match h, hs, ih with
      | 0, hs, _ =>
        rw [hs.2.2.2.2] at e
        simp [nodesList] at e
      | h + 1, hs, ih =>
        obtain ⟨ks, xt, lf, cs⟩ := x
        have hlf : lf = false := hs.2.2.2.1
        subst hlf
        have hlen : cs.length = ks.length + 1 := hs.2.2.2.2.2.1
        obtain ⟨c, hc, hzc⟩ := (mem_nodesList _).mp e
        simp only [children_mk] at hc
        obtain ⟨i, hi⟩ := List.getElem?_of_mem hc
        exact child_subset xt hlen hi key (ih (t - 1) c (hs.2.2.2.2.2.2 c hc) z hzc key hkey)

/-- A relation that holds pairwise on the in-order traversal of a well-shaped
subtree holds around every child slot of every node of the subtree. -/
theorem keys_between {t : Nat} {R : Int → Int → Prop} : ∀ (h lo : Nat) (x : BTreeNode),
    Shaped t lo h x → (inorder x).Pairwise R →
    ∀ y ∈ nodes x, ∀ (i : Nat) (c : BTreeNode), y.children[i]? = some c →
      ∀ z ∈ nodes c, ∀ key ∈ z.keys,
        (∀ a, 0 < i → y.keys[i - 1]? = some a → R a key) ∧
          (∀ b, y.keys[i]? = some b → R key b) := by
  intro h
  induction h with
  | zero => intro lo x hs; exact absurd hs (by simp [Shaped])
  | succ h ih =>
    intro lo x hs hsorted y hy i c hc z hz key hkey
    match h, hs, ih with
    | 0, hs, _ =>
      rw [nodes_eq, hs.2.2.2.2] at hy
      simp only [nodesList, List.mem_singleton] at hy
      subst hy
      rw [hs.2.2.2.2] at hc
      simp at hc
    | h + 1, hs, ih =>
      obtain ⟨ks, xt, lf, cs⟩ := x
      have hlf : lf = false := hs.2.2.2.1
      subst hlf
      have hlen : cs.length = ks.length + 1 := hs.2.2.2.2.2.1
      have hch : ∀ d ∈ cs, Shaped t (t - 1) (h + 1) d := hs.2.2.2.2.2.2
      rw [nodes_eq] at hy
      rcases List.mem_cons.mp hy with e | e
      · subst e
        simp only [children_mk, keys_mk] at hc ⊢
        have hcm := mem_of_getElem hc
        exact child_between hlen hc hsorted key
          (node_keys_in_inorder (h + 1) (t - 1) c (hch c hcm) z hz key hkey)
      · obtain ⟨d, hd, hyd⟩ := (mem_nodesList _).mp e
        simp only [children_mk] at hd
        obtain ⟨j, hj⟩ := List.getElem?_of_mem hd
        exact ih (t - 1) d (hch d hd) (child_pairwise hlen hj hsorted) y hyd i c hc z hz key hkey

/-! ## The node returned by `search` -/

theorem searchChild_none (k : Int) : ∀ (cs : List BTreeNode) (i : Nat),
    cs[i]? = none → searchChild cs i k = SearchResult.undefined := by
  intro cs
  induction cs with
  | nil => intro i _; simp [searchChild]
  | cons c0 cs ih =>
    intro i h
    cases i with
    | zero => simp at h
    | succ i =>
      simp only [List.getElem?_cons_succ] at h
      simp [searchChild, ih i h]

/-- On a node of any shape, a node returned by `search(k)` is a node of the
subtree and holds `k` at the place where the scan of its keys stops. -/
theorem search_found (k : Int) : ∀ (m : Nat) (x r : BTreeNode), height x ≤ m →
    search x k = SearchResult.found r →
    r ∈ nodes x ∧ r.keys[searchScan k r.keys]? = some k := by
  intro m
  induction m with
  | zero =>
    intro x r hx
    obtain ⟨ks, xt, lf, cs⟩ := x
    rw [height_mk] at hx
    omega
  | succ m ih =>
    intro x r hx h
    obtain ⟨ks, xt, lf, cs⟩ := x
    rw [height_mk] at hx
    rw [search_mk] at h
    by_cases hfound : ks[searchScan k ks]? = some k
    · rw [if_pos hfound] at h
      cases h
      exact ⟨by rw [nodes_eq]; exact List.mem_cons_self _ _, hfound⟩
    · rw [if_neg hfound] at h
      cases lf with
      | true => simp at h
      | false =>
        simp only [Bool.false_eq_true, if_false] at h
        cases hc : cs[searchScan k ks]? with
        | none => rw [searchChild_none k cs _ hc] at h; cases h
        | some c =>
          rw [searchChild_eq k cs _ c hc] at h
          have hcm := mem_of_getElem hc
          have hh := height_le_heightList cs hcm
          obtain ⟨h1, h2⟩ := ih c r (by omega) h
          refine ⟨?_, h2⟩
          rw [nodes_eq]
          exact List.mem_cons_of_mem _ ((mem_nodesList _).mpr ⟨c, hcm, h1⟩)

/-! ## The node after `split_child`, slot by slot -/

theorem insertAt_lt {α : Type} (l : List α) (i j : Nat) (a : α) (hi : i ≤ l.length)
    (hj : j < i) : (insertAt l i a)[j]? = l[j]? := by
  unfold insertAt
  rw [List.getElem?_append_left (by simp; omega), List.getElem?_take, if_pos hj]

theorem insertAt_succ {α : Type} (l : List α) (i j : Nat) (a : α) (hi : i ≤ l.length)
    (hj : i ≤ j) : (insertAt l i a)[j + 1]? = l[j]? := by
  have h : (l.take i).length = i := by simp; omega
  unfold insertAt
  rw [List.getElem?_append_right (by omega), h]
  obtain ⟨d, rfl⟩ : ∃ d, j = i + d := ⟨j - i, by omega⟩
  rw [show i + d + 1 - i = d + 1 by omega, List.getElem?_cons_succ, List.getElem?_drop]

theorem splice_lt {cs : List BTreeNode} {i j : Nat} (y1 z : BTreeNode) (hi : i < cs.length)
    (hj : j < i) : (cs.take i ++ y1 :: z :: cs.drop (i + 1))[j]? = cs[j]? := by
  rw [List.getElem?_append_left (by simp; omega), List.getElem?_take, if_pos hj]

theorem splice_succ {cs : List BTreeNode} {i j : Nat} (y1 z : BTreeNode) (hi : i < cs.length)
    (hj : i ≤ j) : (cs.take i ++ y1 :: z :: cs.drop (i + 1))[j + 2]? = cs[j + 1]? := by
  have h : (cs.take i).length = i := by simp; omega
  rw [List.getElem?_append_right (by omega), h]
  obtain ⟨d, rfl⟩ : ∃ d, j = i + d := ⟨j - i, by omega⟩
  rw [show i + d + 2 - i = d + 1 + 1 by omega, List.getElem?_cons_succ, List.getElem?_cons_succ,
    List.getElem?_drop, show i + 1 + d = i + d + 1 by omega]

/-- The value of `split_child(i)` on a node with `n ≤ 2t-3` keys whose child `i`
is full. -/
theorem split_child_full {t : Nat} (ht : 1 ≤ t) {x y : BTreeNode} {i : Nat} (hxt : x.t = t)
    (hy : x.children[i]? = some y) (hi : i ≤ x.n) (hroom : x.n + 2 < 2 * t)
    (hfull : y.n + 1 = 2 * t) (hyc : y.is_leaf = false → y.children.length = y.n + 1) :
    ∃ m, y.keys[t - 1]? = some m ∧
      split_child x i = some (mk (insertAt x.keys i m) t x.is_leaf
        (x.children.take i ++ mk (y.keys.take (t - 1)) y.t y.is_leaf (y.children.take t) ::
          mk (y.keys.drop t) t y.is_leaf (if y.is_leaf then [] else y.children.drop t) ::
          x.children.drop (i + 1))) := by
  obtain ⟨yks, yt, ylf, ycs⟩ := y
  obtain ⟨xks, xt, xlf, xcs⟩ := x
  simp only [t_mk, children_mk, n_mk, keys_mk, is_leaf_mk] at hxt hy hi hroom hfull hyc ⊢
  subst hxt
  have hg := (accesses_in_array xt xks.length i hi).mpr hroom
  have hlt : xt - 1 < yks.length := by omega
  have hz : readSlots yks xt (xt - 1) = some (yks.drop xt) := by
    unfold readSlots
    rw [if_pos (by omega), List.take_of_length_le (by simp; omega)]
  refine ⟨yks[xt - 1], List.getElem?_eq_getElem hlt, ?_⟩
  cases ylf with
  | true => simp [split_child, hy, List.getElem?_eq_getElem hlt, hz, hi, hg]
  | false =>
    have hlen := hyc rfl
    have hzc : readSlots ycs xt xt = some (ycs.drop xt) := by
      unfold readSlots
      rw [if_pos (by omega), List.take_of_length_le (by simp; omega)]
    simp [split_child, hy, List.getElem?_eq_getElem hlt, hz, hzc, hi, hg]

/-! ## The child chosen by `insert_non_full` -/

/-- Every key at or after the place where the downward scan stops is greater
than `k`. -/
theorem scanDown_above (ks : List Int) (k : Int) : ∀ j, j ≤ ks.length →
    ∀ q, scanDown ks k j ≤ q → q < j → ∀ a, ks[q]? = some a → k < a := by
  intro j
  induction j with
  | zero => intro _ q _ hq; omega
  | succ j ih =>
    intro hj q hq1 hq2 a ha
    have hlt : j < ks.length := by omega
    simp only [scanDown, List.getElem?_eq_getElem hlt] at hq1
    by_cases hk : k < ks[j]
    · simp only [hk, if_true] at hq1
      by_cases hqj : q = j
      · subst hqj
        rw [List.getElem?_eq_getElem hlt] at ha
        cases ha
        exact hk
      · exact ih (by omega) q hq1 (by omega) a ha
    · simp only [hk, if_false] at hq1
      omega

/-- In sorted keys, every key before the place where the downward scan stops
is at most `k`. -/
theorem scanDown_below (ks : List Int) (k : Int) (hs : ks.Pairwise (· ≤ ·)) :
    ∀ q, q < scanDown ks k ks.length → ∀ a, ks[q]? = some a → a ≤ k := by
  intro q hq a ha
  obtain ⟨h1, h2, _⟩ := scanDown_spec ks k ks.length (le_refl _)
  have hlt : scanDown ks k ks.length - 1 < ks.length := by omega
  have hb := h2 (by omega) _ (List.getElem?_eq_getElem hlt)
  obtain ⟨hq2, rfl⟩ := List.getElem?_eq_some.mp ha
  by_cases e : q = scanDown ks k ks.length - 1
  · subst e; exact hb
  · exact le_trans (List.pairwise_iff_getElem.mp hs q _ hq2 hlt (by omega)) hb

/-- A key equal to `k` stands before the place where the downward scan stops. -/
theorem scanDown_gt_of_eq (ks : List Int) (k : Int) (j : Nat) (h : ks[j]? = some k) :
    j < scanDown ks k ks.length := by
  obtain ⟨hj, _⟩ := List.getElem?_eq_some.mp h
  by_contra hn
  exact absurd (scanDown_above ks k ks.length (le_refl _) j (by omega) hj k h) (lt_irrefl _)

/-- The first calls of `insert_non_full` on an internal node whose children
are all present: with `i` the place where the scan stops, either child `i` is
not full and is entered; or it is full, the node holds at most `2t-3` keys,
the child is split and child `i` or `i+1` of the node after the split is
entered; or it is full, the node holds more keys, and `split_child(i)`, which
accesses a slot outside the arrays, is the last call. -/
theorem insert_non_full_log_head {t : Nat} (ht : 1 ≤ t) (k : Int) (fuel : Nat) {x : BTreeNode}
    (hxt : x.t = t) (hlf : x.is_leaf = false) (hlen : x.children.length = x.n + 1)
    (hch : ∀ c ∈ x.children, c.is_full = true →
      c.t = t ∧ (c.is_leaf = false → c.children.length = c.n + 1)) :
    (∃ c, x.children[scanDown x.keys k x.n]? = some c ∧ c.is_full = false ∧
      (insert_non_full_log (fuel + 1) x k).1 =
        Call.insert_non_full x :: Call.recurse x (scanDown x.keys k x.n) ::
          (insert_non_full_log fuel c k).1) ∨
    (∃ c x1 m c1, x.children[scanDown x.keys k x.n]? = some c ∧ c.is_full = true ∧
      x.n + 2 < 2 * t ∧ split_child x (scanDown x.keys k x.n) = some x1 ∧
      x1.keys[scanDown x.keys k x.n]? = some m ∧
      x1.children[if k > m then scanDown x.keys k x.n + 1 else scanDown x.keys k x.n]? =
        some c1 ∧
      (insert_non_full_log (fuel + 1) x k).1 =
        Call.insert_non_full x :: Call.split_child x (scanDown x.keys k x.n) ::
          Call.recurse x1 (if k > m then scanDown x.keys k x.n + 1
            else scanDown x.keys k x.n) :: (insert_non_full_log fuel c1 k).1) ∨
    (∃ c, x.children[scanDown x.keys k x.n]? = some c ∧ c.is_full = true ∧
      2 * t ≤ x.n + 2 ∧ split_child x (scanDown x.keys k x.n) = none ∧
      (Call.split_child x (scanDown x.keys k x.n)).out_of_bounds ∧
      insert_non_full_log (fuel + 1) x k =
        ([Call.insert_non_full x, Call.split_child x (scanDown x.keys k x.n)], none)) := by
  obtain ⟨ks, xt, lf, cs⟩ := x
  simp only [t_mk, is_leaf_mk, children_mk, n_mk, keys_mk] at hxt hlf hlen hch ⊢
  subst hxt hlf
  have hpos : scanDown ks k ks.length ≤ ks.length := scanDown_le ks k
  obtain ⟨c, hc⟩ : ∃ c, cs[scanDown ks k ks.length]? = some c :=
    ⟨_, List.getElem?_eq_getElem (by omega)⟩
  have hilt : scanDown ks k ks.length < cs.length := by omega
  by_cases hfull : c.is_full = true
  · right
    by_cases hroom : ks.length + 2 < 2 * xt
    · left
      obtain ⟨hct, hcc⟩ := hch c (mem_of_getElem hc) hfull
      have hfull2 : c.n + 1 = 2 * xt := by rw [← hct]; exact (is_full_iff c).mp hfull
      obtain ⟨m, _, hsplit0⟩ :=
        split_child_full (x := mk ks xt false cs) ht rfl hc hpos hroom hfull2 hcc
      simp only [keys_mk, is_leaf_mk, children_mk] at hsplit0
      obtain ⟨y1, z, hsplit⟩ : ∃ y1 z, split_child (mk ks xt false cs)
          (scanDown ks k ks.length) = some (mk (insertAt ks (scanDown ks k ks.length) m) xt false
            (cs.take (scanDown ks k ks.length) ++ y1 :: z ::
              cs.drop (scanDown ks k ks.length + 1))) := ⟨_, _, hsplit0⟩
      have hm := insertAt_get ks (scanDown ks k ks.length) m hpos
      by_cases hkm : k > m
      · have hc1 := getElem_splice_right y1 z hilt
        refine ⟨c, mk (insertAt ks (scanDown ks k ks.length) m) xt false
          (cs.take (scanDown ks k ks.length) ++ y1 :: z ::
            cs.drop (scanDown ks k ks.length + 1)), m, z, hc, hfull, hroom, hsplit, hm, ?_, ?_⟩
        · simp only [hkm, if_true, children_mk]
          exact hc1
        · exact insert_non_full_log_split fuel hc hfull hsplit hm
            (by rw [if_pos hkm]; exact hc1)
      · have hc1 := getElem_splice_left y1 z hilt
        refine ⟨c, mk (insertAt ks (scanDown ks k ks.length) m) xt false
          (cs.take (scanDown ks k ks.length) ++ y1 :: z ::
            cs.drop (scanDown ks k ks.length + 1)), m, y1, hc, hfull, hroom, hsplit, hm, ?_, ?_⟩
        · simp only [hkm, if_false, children_mk]
          exact hc1
        · exact insert_non_full_log_split fuel hc hfull hsplit hm
            (by rw [if_neg hkm]; exact hc1)
    · right
      have hsplit : split_child (mk ks xt false cs) (scanDown ks k ks.length) = none :=
        split_child_none _ (by simp only [t_mk, n_mk]; omega)
      refine ⟨c, hc, hfull, by omega, hsplit,
        out_of_bounds_of_ge (x := mk ks xt false cs) hpos (by simp only [t_mk, n_mk]; omega), ?_⟩
      refine Prod.ext (insert_non_full_log_no_split fuel hc hfull hsplit) ?_
      rw [insert_non_full_log_snd]
      exact insert_non_full_fuel_no_split fuel hc hfull hsplit
  · left
    have hnfull : c.is_full = false := by simpa using hfull
    exact ⟨c, hc, hnfull, insert_non_full_log_descend fuel hc hnfull⟩

/-! ## The number of keys of a tree with `h` levels -/

end BTreeNode

open BTreeNode

/-! ## The scenarios, the invariants of the descent, and the single operations -/

/-- The tree of the first scenario: degree 2 and the keys 10, 20, 5, 6, 12, 30,
7, 17 inserted in this order. -/
theorem scenario1_tree :
    BTree.build 2 [10, 20, 5, 6, 12, 30, 7, 17] =
      some ⟨BTreeNode.mk [10, 20] 2 false
        [BTreeNode.mk [5, 6, 7] 2 true [], BTreeNode.mk [12, 17] 2 true [],
         BTreeNode.mk [30] 2 true []], 2⟩ := by
  decide!

/-- C11, as stated, fails: with `t = 2`, after the insertion of 10, 20, 5, 6,
12, 30, 7, 17 the root does not have one key and two children. -/
theorem scenario1_root_is_not_single_key :
    ¬ ∃ T, BTree.build 2 [10, 20, 5, 6, 12, 30, 7, 17] = some T ∧
      T.root.n = 1 ∧ T.root.children.length = 2 := by
  rintro ⟨T, hT, h1, _⟩
  rw [scenario1_tree] at hT
  cases hT
  exact absurd h1 (by decide)

/-- C11, amended: with `t = 2`, after the insertion of 10, 20, 5, 6, 12, 30, 7,
17 the root has exactly the two keys 10 and 20 and exactly three children, the
leaves `[5, 6, 7]`, `[12, 17]` and `[30]`. -/
theorem scenario1_root_has_two_keys :
    ∃ T, BTree.build 2 [10, 20, 5, 6, 12, 30, 7, 17] = some T ∧
      T.root.keys = [10, 20] ∧ T.root.n = 2 ∧ T.root.children.length = 3 ∧
      T.root.children = [BTreeNode.mk [5, 6, 7] 2 true [], BTreeNode.mk [12, 17] 2 true [],
        BTreeNode.mk [30] 2 true []] :=
  ⟨_, scenario1_tree, rfl, rfl, rfl, rfl⟩

/-- C13, as stated, fails: with `t = 2`, after the insertion of 1, 2, 3, 4, 5
the leaf `[3, 4, 5]`, which is not the root, is full. -/
theorem full_node_below_root :
    ∃ T y, BTree.build 2 [1, 2, 3, 4, 5] = some T ∧ y ∈ nodesList T.root.children ∧
      y.is_full = true :=
  ⟨⟨BTreeNode.mk [2] 2 false [BTreeNode.mk [1] 2 true [], BTreeNode.mk [3, 4, 5] 2 true []], 2⟩,
    BTreeNode.mk [3, 4, 5] 2 true [], by decide!, by decide!, by decide!⟩

/-- C13, amended: for every degree `t ≥ 2` and every sequence of insertions
into an empty tree that stays inside the arrays, no node of the resulting tree
holds more than `2t-1` keys; nodes other than the root may be full, but when
the next key is inserted no full node is entered: every node on which
`insert_non_full` is called is not full at that moment.  The other sequences
are those in which a call of `split_child` accesses a slot outside the
arrays. -/
theorem no_full_node_is_entered (t : Nat) (L : List Int) (k : Int) (ht : 2 ≤ t) :
    (∃ T, BTree.build t L = some T ∧ (∀ y ∈ nodes T.root, y.n ≤ 2 * t - 1) ∧
      (T.insert_log k).2 = T.insert k ∧
      ∀ x, Call.insert_non_full x ∈ (T.insert_log k).1 → x.is_full = false) ∨
    (BTree.build t L = none ∧ (BTree.new t).out_of_bounds L) := by
  rcases BTree.build_spec ht L with ⟨T, h, hT, hinv, _⟩ | hn
  · refine Or.inl ⟨T, hT, ?_, BTree.insert_log_snd T k, ?_⟩
    · intro y hy
      obtain ⟨lo1, h1, hs⟩ := shaped_nodes hinv.2.1 y hy
      have := hs.n_le
      omega
    · intro x hx
      exact BTree.insert_log_pre ht hinv k _ hx
  · exact Or.inr hn

/-- An instance: degree 2, the keys 1, 2, 3, 4, 5, whose insertion has a
result, then the insertion of 6. -/
theorem no_full_node_is_entered_witness :
    2 ≤ 2 ∧ ∃ T, BTree.build 2 [1, 2, 3, 4, 5] = some T ∧
      (∀ y ∈ nodes T.root, y.n ≤ 2 * 2 - 1) ∧ (T.insert_log 6).2 = T.insert 6 ∧
      ∀ x, Call.insert_non_full x ∈ (T.insert_log 6).1 → x.is_full = false :=
  ⟨by decide, (no_full_node_is_entered 2 [1, 2, 3, 4, 5] 6 (by decide)).resolve_right
    (fun h => absurd h.1 (by decide!))⟩

/-- C14, as stated, fails: with `t = 2`, after the insertion of 5, 5, 5, 5 the
root holds the key 5 and its child 0 holds the key 5, which is not strictly
less than the key 0 of the root. -/
theorem equal_key_below_equal_key :
    ∃ T c, BTree.build 2 [5, 5, 5, 5] = some T ∧ T.root.children[0]? = some c ∧
      T.root.keys[0]? = some 5 ∧ (5 : Int) ∈ c.keys ∧ ¬ ((5 : Int) < 5) :=
  ⟨⟨BTreeNode.mk [5] 2 false [BTreeNode.mk [5] 2 true [], BTreeNode.mk [5, 5] 2 true []], 2⟩,
    BTreeNode.mk [5] 2 true [], by decide!, by decide!, by decide!, by decide!, by decide⟩

/-- C14, amended: for every degree `t ≥ 2` and every sequence of insertions
into an empty tree that stays inside the arrays, for every node `y` of the
resulting tree and every child index `i`, every key stored in the subtree
`children[i]` is at least `keys[i-1]` (when `i > 0`) and at most `keys[i]`
(when `i < n`); both comparisons are strict when no key was inserted twice.
The other sequences are those in which a call of `split_child` accesses a slot
outside the arrays. -/
theorem subtree_keys_between (t : Nat) (L : List Int) (ht : 2 ≤ t) :
    (∃ T, BTree.build t L = some T ∧
      ∀ y ∈ nodes T.root, ∀ (i : Nat) (c : BTreeNode), y.children[i]? = some c →
        ∀ z ∈ nodes c, ∀ key ∈ z.keys,
          (∀ a, 0 < i → y.keys[i - 1]? = some a → a ≤ key ∧ (L.Nodup → a < key)) ∧
            (∀ b, y.keys[i]? = some b → key ≤ b ∧ (L.Nodup → key < b))) ∨
    (BTree.build t L = none ∧ (BTree.new t).out_of_bounds L) := by
  rcases BTree.build_spec ht L with ⟨T, h, hT, hinv, hperm⟩ | hn
  · refine Or.inl ⟨T, hT, ?_⟩
    intro y hy i c hc z hz key hkey
    have hle := keys_between h 0 T.root hinv.2.1 hinv.2.2 y hy i c hc z hz key hkey
    have hlt : L.Nodup → (inorder T.root).Pairwise (· < ·) := fun hn =>
      List.Sorted.lt_of_le hinv.2.2 (hperm.nodup_iff.mpr hn)
    constructor
    · intro a hi ha
      exact ⟨hle.1 a hi ha, fun hn =>
        (keys_between h 0 T.root hinv.2.1 (hlt hn) y hy i c hc z hz key hkey).1 a hi ha⟩
    · intro b hb
      exact ⟨hle.2 b hb, fun hn =>
        (keys_between h 0 T.root hinv.2.1 (hlt hn) y hy i c hc z hz key hkey).2 b hb⟩
  · exact Or.inr hn

/-- An instance: degree 2 and the keys 5, 5, 5, 5, whose insertion has a
result. -/
theorem subtree_keys_between_witness :
    2 ≤ 2 ∧ ∃ T, BTree.build 2 [5, 5, 5, 5] = some T ∧
      ∀ y ∈ nodes T.root, ∀ (i : Nat) (c : BTreeNode), y.children[i]? = some c →
        ∀ z ∈ nodes c, ∀ key ∈ z.keys,
          (∀ a, 0 < i → y.keys[i - 1]? = some a →
            a ≤ key ∧ (([5, 5, 5, 5] : List Int).Nodup → a < key)) ∧
            (∀ b, y.keys[i]? = some b →
              key ≤ b ∧ (([5, 5, 5, 5] : List Int).Nodup → key < b)) :=
  ⟨by decide, (subtree_keys_between 2 [5, 5, 5, 5] (by decide)).resolve_right
    (fun h => absurd h.1 (by decide!))⟩

/-- C15: for every node `x` of any shape and every key `k`, a node `r` returned
by `search(k)` on `x` is `x` or a descendant of `x` and holds `k` among its
keys, at the place where the scan of the keys of `r` stops. -/
theorem search_returns_holder (x r : BTreeNode) (k : Int)
    (h : search x k = SearchResult.found r) :
    r ∈ nodes x ∧ k ∈ r.keys ∧ r.keys[searchScan k r.keys]? = some k := by
  obtain ⟨h1, h2⟩ := search_found k (height x) x r (le_refl _) h
  refine ⟨h1, ?_, h2⟩
  obtain ⟨hi, e⟩ := List.getElem?_eq_some.mp h2
  exact e ▸ List.getElem_mem _

/-- An instance: the search for 17 in the tree of the first scenario. -/
theorem search_returns_holder_witness :
    search (BTreeNode.mk [10, 20] 2 false
        [BTreeNode.mk [5, 6, 7] 2 true [], BTreeNode.mk [12, 17] 2 true [],
         BTreeNode.mk [30] 2 true []]) 17 =
        SearchResult.found (BTreeNode.mk [12, 17] 2 true []) ∧
      BTreeNode.mk [12, 17] 2 true [] ∈ nodes (BTreeNode.mk [10, 20] 2 false
        [BTreeNode.mk [5, 6, 7] 2 true [], BTreeNode.mk [12, 17] 2 true [],
         BTreeNode.mk [30] 2 true []]) ∧
      (17 : Int) ∈ (BTreeNode.mk [12, 17] 2 true []).keys ∧
      (BTreeNode.mk [12, 17] 2 true []).keys[
        searchScan 17 (BTreeNode.mk [12, 17] 2 true []).keys]? = some 17 :=
  ⟨by decide!, search_returns_holder _ _ 17 (by decide!)⟩

open BTreeNode

/-- C17 fails on the code.  With `t = 2` the node `[2, 4]` over the leaves
`[1]`, `[3]` and `[5, 6, 7]` is not full and its child 2 is full, and
`split_child(2)` on it has no defined result: the first round of the key shift
loop stores to key slot 3 of an array of `2t-1 = 3` keys.  What holds for every
degree `t ≥ 2`, every node `x` that is not full with all its children present,
and every `i` such that `y = children[i]` is full: either `x` holds at most
`2t-3` keys, and `split_child(i)` gives a node `x1` in which `children[i]` is
`y` with only its lowest `t-1` keys and lowest `t` children, `children[i+1]` is
a new node `z` with the leaf flag of `y`, the keys `t..2t-2` of `y` in order
and, when `y` is internal, the children `t..2t-1` of `y`; `keys[i]` is the key
`t-1` of `y`, the key count has grown by one, and the keys and children before
`i` stay while the former `keys[j]` and `children[j+1]` for `j ≥ i` are at
`j+1` and `j+2`; or `x` holds `2t-2` keys, and `split_child(i)` has no result
and accesses a slot outside the arrays. -/
theorem split_child_moves_upper_half :
    ((BTreeNode.mk [2, 4] 2 false
        [BTreeNode.mk [1] 2 true [], BTreeNode.mk [3] 2 true [],
         BTreeNode.mk [5, 6, 7] 2 true []]).is_full = false ∧
      (BTreeNode.mk [5, 6, 7] 2 true []).is_full = true ∧
      split_child (BTreeNode.mk [2, 4] 2 false
        [BTreeNode.mk [1] 2 true [], BTreeNode.mk [3] 2 true [],
         BTreeNode.mk [5, 6, 7] 2 true []]) 2 = none) ∧
    ∀ (t : Nat) (x y : BTreeNode) (i : Nat), 2 ≤ t → x.t = t → x.n + 1 < 2 * t →
      x.children.length = x.n + 1 → x.children[i]? = some y → y.n + 1 = 2 * t →
      (y.is_leaf = false → y.children.length = y.n + 1) →
      (x.n + 2 < 2 * t ∧ ∃ x1 y1 z, split_child x i = some x1 ∧
        x1.children[i]? = some y1 ∧ x1.children[i + 1]? = some z ∧
        y1.keys = y.keys.take (t - 1) ∧ y1.children = y.children.take t ∧
        y1.is_leaf = y.is_leaf ∧ y1.n = t - 1 ∧ z.n = t - 1 ∧ z.is_leaf = y.is_leaf ∧
        (∀ j, j < t - 1 → z.keys[j]? = y.keys[t + j]?) ∧
        (y.is_leaf = false →
          z.children.length = t ∧ ∀ j, j < t → z.children[j]? = y.children[t + j]?) ∧
        x1.keys[i]? = y.keys[t - 1]? ∧ x1.n = x.n + 1 ∧ x1.n ≤ 2 * t - 1 ∧
        x1.is_leaf = x.is_leaf ∧
        (∀ j, j < i → x1.keys[j]? = x.keys[j]? ∧ x1.children[j]? = x.children[j]?) ∧
        (∀ j, i ≤ j →
          x1.keys[j + 1]? = x.keys[j]? ∧ x1.children[j + 2]? = x.children[j + 1]?)) ∨
      (x.n + 2 = 2 * t ∧ split_child x i = none ∧ (Call.split_child x i).out_of_bounds) := by
  refine ⟨⟨by decide!, by decide!, by decide!⟩, ?_⟩
  intro t x y i ht hxt hxnf hlen hy hfull hyc
  obtain ⟨hilt, _⟩ := List.getElem?_eq_some.mp hy
  have hi : i ≤ x.n := by omega
  have hin : i ≤ x.keys.length := hi
  by_cases hroom : x.n + 2 < 2 * t
  · left
    obtain ⟨m, hm, hsplit⟩ := split_child_full (by omega) hxt hy hi hroom hfull hyc
    have hyn : y.keys.length + 1 = 2 * t := hfull
    refine ⟨hroom, _, mk (y.keys.take (t - 1)) y.t y.is_leaf (y.children.take t),
      mk (y.keys.drop t) t y.is_leaf (if y.is_leaf then [] else y.children.drop t), hsplit,
      ?_, ?_, rfl, rfl, rfl, ?_, ?_, rfl, ?_, ?_, ?_, ?_, ?_, rfl, ?_, ?_⟩
    · exact getElem_splice_left _ _ hilt
    · exact getElem_splice_right _ _ hilt
    · simp only [n_mk, List.length_take]; omega
    · simp only [n_mk, List.length_drop]; omega
    · intro j _
      simp only [keys_mk, List.getElem?_drop]
    · intro hlf
      have hl := hyc hlf
      have hl2 : y.children.length = y.keys.length + 1 := hl
      simp only [children_mk, hlf, Bool.false_eq_true, if_false, List.length_drop,
        List.getElem?_drop]
      exact ⟨by omega, fun j _ => trivial⟩
    · simp only [keys_mk]
      rw [insertAt_get _ _ _ hin, hm]
    · simp only [n_mk]
      exact insertAt_length _ _ _ hin
    · simp only [n_mk, insertAt_length _ _ _ hin]
      have : x.keys.length + 1 < 2 * t := hxnf
      omega
    · intro j hj
      exact ⟨insertAt_lt _ _ _ _ hin hj, splice_lt _ _ hilt hj⟩
    · intro j hj
      exact ⟨insertAt_succ _ _ _ _ hin hj, splice_succ _ _ hilt hj⟩
  · right
    exact ⟨by omega, split_child_none i (by rw [hxt]; omega),
      out_of_bounds_of_ge hi (by rw [hxt]; omega)⟩

/-- An instance: degree 2, the node `[10]` over the leaves `[5, 6, 7]` and
`[20]`, and the split of child 0, which has a result. -/
theorem split_child_moves_upper_half_witness :
    ∃ x1 y1 z, split_child (BTreeNode.mk [10] 2 false
        [BTreeNode.mk [5, 6, 7] 2 true [], BTreeNode.mk [20] 2 true []]) 0 = some x1 ∧
      x1.children[0]? = some y1 ∧ x1.children[0 + 1]? = some z ∧
      y1.keys = (BTreeNode.mk [5, 6, 7] 2 true []).keys.take (2 - 1) ∧
      y1.children = (BTreeNode.mk [5, 6, 7] 2 true []).children.take 2 ∧
      y1.is_leaf = (BTreeNode.mk [5, 6, 7] 2 true []).is_leaf ∧ y1.n = 2 - 1 ∧ z.n = 2 - 1 ∧
      z.is_leaf = (BTreeNode.mk [5, 6, 7] 2 true []).is_leaf ∧
      (∀ j, j < 2 - 1 → z.keys[j]? = (BTreeNode.mk [5, 6, 7] 2 true []).keys[2 + j]?) ∧
      ((BTreeNode.mk [5, 6, 7] 2 true []).is_leaf = false →
        z.children.length = 2 ∧
          ∀ j, j < 2 → z.children[j]? = (BTreeNode.mk [5, 6, 7] 2 true []).children[2 + j]?) ∧
      x1.keys[0]? = (BTreeNode.mk [5, 6, 7] 2 true []).keys[2 - 1]? ∧
      x1.n = (BTreeNode.mk [10] 2 false
        [BTreeNode.mk [5, 6, 7] 2 true [], BTreeNode.mk [20] 2 true []]).n + 1 ∧
      x1.n ≤ 2 * 2 - 1 ∧
      x1.is_leaf = (BTreeNode.mk [10] 2 false
        [BTreeNode.mk [5, 6, 7] 2 true [], BTreeNode.mk [20] 2 true []]).is_leaf ∧
      (∀ j, j < 0 → x1.keys[j]? = (BTreeNode.mk [10] 2 false
          [BTreeNode.mk [5, 6, 7] 2 true [], BTreeNode.mk [20] 2 true []]).keys[j]? ∧
        x1.children[j]? = (BTreeNode.mk [10] 2 false
          [BTreeNode.mk [5, 6, 7] 2 true [], BTreeNode.mk [20] 2 true []]).children[j]?) ∧
      (∀ j, 0 ≤ j →
        x1.keys[j + 1]? = (BTreeNode.mk [10] 2 false
          [BTreeNode.mk [5, 6, 7] 2 true [], BTreeNode.mk [20] 2 true []]).keys[j]? ∧
        x1.children[j + 2]? = (BTreeNode.mk [10] 2 false
          [BTreeNode.mk [5, 6, 7] 2 true [], BTreeNode.mk [20] 2 true []]).children[j + 1]?) :=
  ((split_child_moves_upper_half.2 2 (BTreeNode.mk [10] 2 false
    [BTreeNode.mk [5, 6, 7] 2 true [], BTreeNode.mk [20] 2 true []])
    (BTreeNode.mk [5, 6, 7] 2 true []) 0 (by decide) rfl (by decide) rfl rfl rfl
    (fun h => absurd h (by decide))).resolve_right
      (fun h => absurd h.1 (by decide))).2

namespace BTreeNode

/-- The second call of `insert_non_full` on an internal node whose children
are all present is made at the place where the downward scan stops: it is
`split_child` or the recursive call, with that index. -/
theorem insert_non_full_log_second (k : Int) (fuel : Nat) {x : BTreeNode}
    (hlf : x.is_leaf = false) (hlen : x.children.length = x.n + 1) :
    ∃ rest,
      (insert_non_full_log (fuel + 1) x k).1 =
        Call.insert_non_full x :: Call.split_child x (scanDown x.keys k x.n) :: rest ∨
      (insert_non_full_log (fuel + 1) x k).1 =
        Call.insert_non_full x :: Call.recurse x (scanDown x.keys k x.n) :: rest := by
  have hpos : scanDown x.keys k x.n ≤ x.n := scanDown_le x.keys k
  obtain ⟨c, hc⟩ : ∃ c, x.children[scanDown x.keys k x.n]? = some c :=
    ⟨_, List.getElem?_eq_getElem (by omega)⟩
  rw [insert_non_full_log]
  simp only [hlf, Bool.false_eq_true, if_false, hc]
  by_cases hfull : c.is_full = true
  · simp only [hfull, if_true]
    cases split_child x (scanDown x.keys k x.n) with
    | none => exact ⟨_, Or.inl rfl⟩
    | some x1 =>
      simp only
      cases x1.keys[scanDown x.keys k x.n]? with
      | none => exact ⟨_, Or.inl rfl⟩
      | some m =>
        simp only
        cases x1.children[if k > m then scanDown x.keys k x.n + 1
            else scanDown x.keys k x.n]? with
        | none => exact ⟨_, Or.inl rfl⟩
        | some c1 => exact ⟨_, Or.inl rfl⟩
  · simp only [hfull, Bool.false_eq_true, if_false]
    exact ⟨_, Or.inr rfl⟩

end BTreeNode

open BTreeNode

/-- C18, as stated, fails: on the node `[5]` over the leaves `[3]` and `[7]`,
which is not full, `insert_non_full(5)` selects child 1 and makes its recursive
call there, although an index before 1, index 0, already has `5 ≤ keys[0]`. -/
theorem equal_key_selects_right_child :
    (BTreeNode.mk [5] 2 false
        [BTreeNode.mk [3] 2 true [], BTreeNode.mk [7] 2 true []]).is_full = false ∧
      (insert_non_full_log 2 (BTreeNode.mk [5] 2 false
        [BTreeNode.mk [3] 2 true [], BTreeNode.mk [7] 2 true []]) 5).1 =
      [Call.insert_non_full (BTreeNode.mk [5] 2 false
          [BTreeNode.mk [3] 2 true [], BTreeNode.mk [7] 2 true []]),
        Call.recurse (BTreeNode.mk [5] 2 false
          [BTreeNode.mk [3] 2 true [], BTreeNode.mk [7] 2 true []]) 1,
        Call.insert_non_full (BTreeNode.mk [7] 2 true [])] ∧
      ∃ j a, j < 1 ∧ (BTreeNode.mk [5] 2 false
        [BTreeNode.mk [3] 2 true [], BTreeNode.mk [7] 2 true []]).keys[j]? = some a ∧
        (5 : Int) ≤ a :=
  ⟨by decide!, by decide!, 0, 5, by decide, by decide!, by decide⟩

/-- C18, amended: for every internal node with sorted keys and all its children
present and every key `k`, the child index that `insert_non_full(k)` selects
before any split, the index of its `split_child` or of its recursive call, is
the first index `i` from the left such that `k < keys[i]`, or `n` if no key is
greater than `k`. -/
theorem selected_child_is_first_greater (x : BTreeNode) (k : Int) (fuel : Nat)
    (hlf : x.is_leaf = false) (hlen : x.children.length = x.n + 1)
    (hs : x.keys.Pairwise (· ≤ ·)) :
    ∃ i rest,
      ((insert_non_full_log (fuel + 1) x k).1 =
          Call.insert_non_full x :: Call.split_child x i :: rest ∨
        (insert_non_full_log (fuel + 1) x k).1 =
          Call.insert_non_full x :: Call.recurse x i :: rest) ∧
      i ≤ x.n ∧ (∀ j a, j < i → x.keys[j]? = some a → ¬ (k < a)) ∧
      (∀ a, x.keys[i]? = some a → k < a) := by
  obtain ⟨rest, h⟩ := insert_non_full_log_second k fuel hlf hlen
  refine ⟨scanDown x.keys k x.n, rest, h, scanDown_le x.keys k, ?_, ?_⟩
  · intro j a hj ha
    exact not_lt.mpr (scanDown_below x.keys k hs j hj a ha)
  · intro a ha
    obtain ⟨hi, _⟩ := List.getElem?_eq_some.mp ha
    exact scanDown_above x.keys k x.keys.length (le_refl _) _ (le_refl _) hi a ha

/-- An instance: the node `[5]` over the leaves `[3]` and `[7]` and the key 5. -/
theorem selected_child_is_first_greater_witness :
    ∃ i rest,
      ((insert_non_full_log (1 + 1) (BTreeNode.mk [5] 2 false
          [BTreeNode.mk [3] 2 true [], BTreeNode.mk [7] 2 true []]) 5).1 =
          Call.insert_non_full (BTreeNode.mk [5] 2 false
            [BTreeNode.mk [3] 2 true [], BTreeNode.mk [7] 2 true []]) ::
            Call.split_child (BTreeNode.mk [5] 2 false
              [BTreeNode.mk [3] 2 true [], BTreeNode.mk [7] 2 true []]) i :: rest ∨
        (insert_non_full_log (1 + 1) (BTreeNode.mk [5] 2 false
          [BTreeNode.mk [3] 2 true [], BTreeNode.mk [7] 2 true []]) 5).1 =
          Call.insert_non_full (BTreeNode.mk [5] 2 false
            [BTreeNode.mk [3] 2 true [], BTreeNode.mk [7] 2 true []]) ::
            Call.recurse (BTreeNode.mk [5] 2 false
              [BTreeNode.mk [3] 2 true [], BTreeNode.mk [7] 2 true []]) i :: rest) ∧
      i ≤ (BTreeNode.mk [5] 2 false
        [BTreeNode.mk [3] 2 true [], BTreeNode.mk [7] 2 true []]).n ∧
      (∀ j a, j < i → (BTreeNode.mk [5] 2 false
        [BTreeNode.mk [3] 2 true [], BTreeNode.mk [7] 2 true []]).keys[j]? = some a →
          ¬ ((5 : Int) < a)) ∧
      (∀ a, (BTreeNode.mk [5] 2 false
        [BTreeNode.mk [3] 2 true [], BTreeNode.mk [7] 2 true []]).keys[i]? = some a →
          (5 : Int) < a) :=
  selected_child_is_first_greater (BTreeNode.mk [5] 2 false
    [BTreeNode.mk [3] 2 true [], BTreeNode.mk [7] 2 true []]) 5 1 rfl rfl (by decide)

/-- C19 fails on the code.  With `t = 2` the node `[2, 4]` over the leaves
`[1]`, `[3]` and `[5, 6, 7]`, the root after the insertion of 1, 2, ..., 7, is
not full and holds the key 4 at index 1; `insert_non_full(4)` selects child 2,
which is full, and calls `split_child(2)`, which stores outside the key array:
no recursive call is reached in a defined state.  What holds for every degree
`t ≥ 2`, every internal node `x` with all its children present and well
formed, and every key `k` that `x` holds at index `j`: either
`insert_non_full(k)` makes its recursive call, directly or after the split of
the selected child, on a child whose index is greater than `j`; or the
selected child is full, `x` holds at least `2t-2` keys, and its last call is
`split_child`, which accesses a slot outside the arrays. -/
theorem equal_key_descends_right :
    ((BTreeNode.mk [2, 4] 2 false
        [BTreeNode.mk [1] 2 true [], BTreeNode.mk [3] 2 true [],
         BTreeNode.mk [5, 6, 7] 2 true []]).is_full = false ∧
      (BTreeNode.mk [2, 4] 2 false
        [BTreeNode.mk [1] 2 true [], BTreeNode.mk [3] 2 true [],
         BTreeNode.mk [5, 6, 7] 2 true []]).keys[1]? = some 4 ∧
      insert_non_full_log 2 (BTreeNode.mk [2, 4] 2 false
        [BTreeNode.mk [1] 2 true [], BTreeNode.mk [3] 2 true [],
         BTreeNode.mk [5, 6, 7] 2 true []]) 4 =
        ([Call.insert_non_full (BTreeNode.mk [2, 4] 2 false
            [BTreeNode.mk [1] 2 true [], BTreeNode.mk [3] 2 true [],
             BTreeNode.mk [5, 6, 7] 2 true []]),
          Call.split_child (BTreeNode.mk [2, 4] 2 false
            [BTreeNode.mk [1] 2 true [], BTreeNode.mk [3] 2 true [],
             BTreeNode.mk [5, 6, 7] 2 true []]) 2], none)) ∧
    ∀ (t : Nat) (x : BTreeNode) (k : Int) (j fuel : Nat), 2 ≤ t → x.t = t →
      x.is_leaf = false → x.children.length = x.n + 1 →
      (∀ c ∈ x.children, c.is_full = true →
        c.t = t ∧ (c.is_leaf = false → c.children.length = c.n + 1)) →
      x.keys[j]? = some k →
      (∃ before y i rest,
        (insert_non_full_log (fuel + 1) x k).1 = before ++ Call.recurse y i :: rest ∧
        (before = [Call.insert_non_full x] ∨
          before = [Call.insert_non_full x, Call.split_child x (scanDown x.keys k x.n)]) ∧
        j < i) ∨
      (2 * t ≤ x.n + 2 ∧
        insert_non_full_log (fuel + 1) x k =
          ([Call.insert_non_full x, Call.split_child x (scanDown x.keys k x.n)], none) ∧
        (Call.split_child x (scanDown x.keys k x.n)).out_of_bounds) := by
  refine ⟨⟨by decide!, by decide!, by decide!⟩, ?_⟩
  intro t x k j fuel ht hxt hlf hlen hch hj
  have hgt : j < scanDown x.keys k x.n := scanDown_gt_of_eq x.keys k j hj
  rcases insert_non_full_log_head (by omega) k fuel hxt hlf hlen hch with
    ⟨c, _, _, hlog⟩ | ⟨c, x1, m, c1, _, _, _, _, _, _, hlog⟩ | ⟨c, _, _, hge, _, ho, hlog⟩
  · exact Or.inl ⟨_, x, _, _, by rw [hlog]; rfl, Or.inl rfl, hgt⟩
  · refine Or.inl ⟨_, x1, _, _, by rw [hlog]; rfl, Or.inr rfl, ?_⟩
    split <;> omega
  · exact Or.inr ⟨hge, hlog, ho⟩

/-- An instance: the node `[5]` over the leaves `[3]` and `[7]` and the key 5,
held at index 0; the recursive call is made. -/
theorem equal_key_descends_right_witness :
    ∃ before y i rest,
      (insert_non_full_log (1 + 1) (BTreeNode.mk [5] 2 false
          [BTreeNode.mk [3] 2 true [], BTreeNode.mk [7] 2 true []]) 5).1 =
        before ++ Call.recurse y i :: rest ∧
      (before = [Call.insert_non_full (BTreeNode.mk [5] 2 false
          [BTreeNode.mk [3] 2 true [], BTreeNode.mk [7] 2 true []])] ∨
        before = [Call.insert_non_full (BTreeNode.mk [5] 2 false
            [BTreeNode.mk [3] 2 true [], BTreeNode.mk [7] 2 true []]),
          Call.split_child (BTreeNode.mk [5] 2 false
            [BTreeNode.mk [3] 2 true [], BTreeNode.mk [7] 2 true []])
            (scanDown (BTreeNode.mk [5] 2 false
              [BTreeNode.mk [3] 2 true [], BTreeNode.mk [7] 2 true []]).keys 5
              (BTreeNode.mk [5] 2 false
                [BTreeNode.mk [3] 2 true [], BTreeNode.mk [7] 2 true []]).n)]) ∧
      0 < i :=
  (equal_key_descends_right.2 2 (BTreeNode.mk [5] 2 false
    [BTreeNode.mk [3] 2 true [], BTreeNode.mk [7] 2 true []]) 5 0 1 (by decide) rfl rfl rfl
    (by decide) rfl).resolve_right (fun h => absurd h.1 (by decide))

/-- C20 fails on the code.  With `t = 2`, after the insertion of 1 to 7 the
root holds the two keys 2 and 4 and its last child is full; the insertion of 8
calls `split_child(2)` on this root, which is not full, and the first round of
the key shift loop reads key slot 2, which is not populated, and writes key
slot 3, which is outside the array of `2t-1 = 3` keys. -/
theorem key_shift_leaves_the_array :
    BTree.build 2 [1, 2, 3, 4, 5, 6, 7] = some ⟨BTreeNode.mk [2, 4] 2 false
        [BTreeNode.mk [1] 2 true [], BTreeNode.mk [3] 2 true [],
         BTreeNode.mk [5, 6, 7] 2 true []], 2⟩ ∧
      Call.split_child (BTreeNode.mk [2, 4] 2 false
        [BTreeNode.mk [1] 2 true [], BTreeNode.mk [3] 2 true [],
         BTreeNode.mk [5, 6, 7] 2 true []]) 2 ∈
        (BTree.insert_log ⟨BTreeNode.mk [2, 4] 2 false
          [BTreeNode.mk [1] 2 true [], BTreeNode.mk [3] 2 true [],
           BTreeNode.mk [5, 6, 7] 2 true []], 2⟩ 8).1 ∧
      (BTreeNode.mk [2, 4] 2 false
        [BTreeNode.mk [1] 2 true [], BTreeNode.mk [3] 2 true [],
         BTreeNode.mk [5, 6, 7] 2 true []]).is_full = false ∧
      Access.read_key 2 ∈ split_child_accesses 2 2 ∧ ¬ (Access.read_key 2).ok 2 2 ∧
      Access.write_key 3 ∈ split_child_accesses 2 2 ∧ ¬ (Access.write_key 3).ok 2 2 ∧
      ∀ a ∈ split_child_accesses 2 2,
        a.ok 2 2 ∨ a = Access.read_key 2 ∨ a = Access.write_key 3 :=
  ⟨by decide!, by decide!, by decide!, (key_shift_first_round 2 2 (le_refl _)).1,
    fun h => absurd h.2 (by decide), (key_shift_first_round 2 2 (le_refl _)).2,
    (by decide : ¬ (3 < 2 * 2 - 1)), split_child_accesses_ok 2 2 2 (le_refl _) (by decide)⟩

end DBEngine
